import Mathlib

/-!
The tree text renderer and builder of `tgen`.

A verification development for `src/index.js` of the `tgen` tool: the renderer
`Operations.generateTree`, the shared line decoding used by both builders, and the
buffered builder `Operations.buildStructureFromTree`.

Conventions of the embedding.

* A JavaScript string is a list of characters (`Str`).  Every glyph the program
  looks for (`│ ├ └ ─`, the space, `#`, `/`, the line feed) is a single UTF-16 code
  unit, so matching on characters and matching on code units agree.
* Paths follow the POSIX flavour of Node's `path` module.  A resolved absolute path
  is the list of its segments; `[]` is the root `/`.
* The filesystem is an explicit finite map threaded through the builder; failing
  calls return `none` and are caught per line, as the `try`/`catch` of the source does.
-/

namespace Tgen

/-- A string, as the list of its characters. -/
abbrev Str := List Char

/-- A resolved absolute path, as the list of its segments below the root. -/
abbrev Path := List Str

/-! ## Glyphs -/

/-- The sibling-continuation pad `'│   '`. -/
def padBar : Str := ['│', ' ', ' ', ' ']

/-- The last-continuation pad: four spaces. -/
def padBlank : Str := [' ', ' ', ' ', ' ']

/-- The not-last connector `'├── '`. -/
def connBranch : Str := ['├', '─', '─', ' ']

/-- The last connector `'└── '`. -/
def connCorner : Str := ['└', '─', '─', ' ']

/-- The text `'── '` that the name regular expression looks for. -/
def dashGap : Str := ['─', '─', ' ']

/-! ## Line decoding (`index.js` lines 208-216, repeated at 395-404) -/

/-- Whether the regular expression `/│   |    /` matches at the start of `s`. -/
def startsUnit (s : Str) : Bool := padBar.isPrefixOf s || padBlank.isPrefixOf s

/-- The global scan of `line.match(/│   |    /g)`: the number of non-overlapping matches,
found left to right.  `skip` is the number of characters still covered by the previous
match (a match consumes four characters). -/
def countUnitsFrom : Nat → Str → Nat
  | _, [] => 0
  | skip + 1, _ :: rest => countUnitsFrom skip rest
  | 0, c :: rest =>
    if startsUnit (c :: rest) then countUnitsFrom 3 rest + 1 else countUnitsFrom 0 rest

/-- The value `depth = (line.match(/│   |    /g) || []).length`. -/
def lineDepth (line : Str) : Nat := countUnitsFrom 0 line

/-- The characters that `.` of a JavaScript regular expression does not match. -/
def isLineTerminator (c : Char) : Bool :=
  c = '\n' || c = '\r' || c = '\u2028' || c = '\u2029'

/-- The match of `/^.*?── /`: the text after the first `'── '`, when no line terminator
stands before it; `none` when the expression does not match. -/
def afterDashGap : Str → Option Str
  | [] => none
  | c :: rest =>
    if dashGap.isPrefixOf (c :: rest) then some (rest.drop 2)
    else if isLineTerminator c then none
    else afterDashGap rest

/-- The value `rawName = line.replace(/^.*?── /, '')`. -/
def rawNameOf (line : Str) : Str := (afterDashGap line).getD line

/-- The characters removed by `String.prototype.trim`: white space and line terminators. -/
def isJsSpace (c : Char) : Bool :=
  c = '\t' || c = '\n' || c = '\x0b' || c = '\x0c' || c = '\r' || c = ' ' ||
  c = '\u00a0' || c = '\u1680' || (0x2000 ≤ c.toNat && c.toNat ≤ 0x200a) ||
  c = '\u2028' || c = '\u2029' || c = '\u202f' || c = '\u205f' || c = '\u3000' ||
  c = '\ufeff'

/-- The method `String.prototype.trim`. -/
def jsTrim (s : Str) : Str := (s.dropWhile isJsSpace).rdropWhile isJsSpace

/-- The value `name = rawName.split('#')[0].trim()`. -/
def nameOf (line : Str) : Str := jsTrim ((rawNameOf line).takeWhile (fun c => c != '#'))

/-- The test `name.endsWith('/')`. -/
def endsWithSlash (name : Str) : Bool := name.getLast? == some '/'

/-- The value `name.replace(/\/$/, '')`: one trailing slash removed. -/
def stripSlash (name : Str) : Str := if endsWithSlash name then name.dropLast else name

/-- The decoded form of a line: the values `depth`, `name`, `isDir` and `cleanName`
the builders compute from it. -/
structure Decoded where
  depth : Nat
  name : Str
  isDir : Bool
  cleanName : Str
  deriving DecidableEq

/-- The line decoding shared by the two builders. -/
def decodeLine (line : Str) : Decoded :=
  { depth := lineDepth line
    name := nameOf line
    isDir := endsWithSlash (nameOf line)
    cleanName := stripSlash (nameOf line) }

/-! ## Shapes of rendered lines -/

/-- A pad: one of the two four-character prefix units. -/
def IsPad (u : Str) : Prop := u = padBar ∨ u = padBlank

/-- A connector: `'├── '` or `'└── '`. -/
def IsConnector (c : Str) : Prop := c = connBranch ∨ c = connCorner

/-- The string `sub` occurs in `s` as a contiguous substring. -/
def Occurs (sub s : Str) : Prop := sub <:+: s

instance (sub s : Str) : Decidable (Occurs sub s) := by
  unfold Occurs; infer_instance

/-- The reading of the line grammar by connector occurrence: the text after the first
occurrence of a connector (`'├── '` or `'└── '`) in the line, `none` when the line has
no connector. -/
def afterFirstConnector : Str → Option Str
  | [] => none
  | c :: rest =>
    if connBranch.isPrefixOf (c :: rest) || connCorner.isPrefixOf (c :: rest) then
      some (rest.drop 3)
    else afterFirstConnector rest

/-- The name as the line grammar words it: the text after the first connector occurrence,
cut at the first `'#'` and trimmed. -/
def nameAfterFirstConnector (line : Str) : Option Str :=
  (afterFirstConnector line).map (fun r => jsTrim (r.takeWhile (fun c => c != '#')))

/-- The names the text format carries unchanged: non-empty, without `'#'` and `'/'`,
without white space at either end, without `'│   '` and without a run of four spaces. -/
def PlainName (name : Str) : Prop :=
  name ≠ [] ∧ '#' ∉ name ∧ '/' ∉ name ∧
  (∀ c ∈ name.head?, isJsSpace c = false) ∧
  (∀ c ∈ name.getLast?, isJsSpace c = false) ∧
  ¬ Occurs padBar name ∧ ¬ Occurs padBlank name

instance (name : Str) : Decidable (PlainName name) := by
  unfold PlainName; infer_instance

/-- The suffix `(entry.isDirectory() ? '/' : '')` of a rendered line. -/
def dirMark (isDirectory : Bool) : Str := if isDirectory then ['/'] else []

/-! ## The renderer (`Operations.generateTree`, `index.js` lines 153-193) -/

/-- A node of the directory tree being rendered: what `fs.readdir(dir, { withFileTypes: true })`
reports for one child, together with the listing of the child when it is a directory.  A
directory whose listing cannot be read contributes the empty string, the same as an empty
directory, and is represented by one. -/
inductive Entry where
  | file (name : Str)
  | dir (name : Str) (children : List Entry)

/-- The field `entry.name`. -/
def Entry.name : Entry → Str
  | .file n => n
  | .dir n _ => n

/-- The method `entry.isDirectory()`. -/
def Entry.isDirectory : Entry → Bool
  | .file _ => false
  | .dir _ _ => true

/-- The listing of `path.join(dir, entry.name)`. -/
def Entry.children : Entry → List Entry
  | .file _ => []
  | .dir _ cs => cs

/-- The comparator handed to `sort`: directories first, then `localeCompare` on the names.
The collation `localeCompare` is a parameter. -/
def compareEntries (localeCompare : Str → Str → Int) (a b : Entry) : Int :=
  if a.isDirectory && !b.isDirectory then -1
  else if !a.isDirectory && b.isDirectory then 1
  else localeCompare a.name b.name

/-- The order `Array.prototype.sort` sorts by: `a` may stand before `b` when the comparator
does not return a positive number. -/
def entryLe (localeCompare : Str → Str → Int) (a b : Entry) : Prop :=
  compareEntries localeCompare a b ≤ 0

instance (localeCompare : Str → Str → Int) : DecidableRel (entryLe localeCompare) :=
  fun a b => by unfold entryLe; infer_instance

/-- The entries the loop runs over: the listing with the ignored names filtered out, sorted
(`Array.prototype.sort` is a stable sort). -/
def visibleEntries (localeCompare : Str → Str → Int) (ignorePatterns : List Str)
    (dir : List Entry) : List Entry :=
  List.insertionSort (entryLe localeCompare)
    (dir.filter (fun entry => !ignorePatterns.contains entry.name))

/-- The body of the loop `for (const [index, entry] of entries.entries())`, from position
`index` on; `last` is `entries.length - 1` and `descend` is the recursive call. -/
def emitEntries (descend : Entry → Str → Str) (pfx : Str) (last : Int) :
    Nat → List Entry → Str
  | _, [] => []
  | index, entry :: rest =>
    let isLast : Bool := decide ((index : Int) = last)
    let connector := if isLast then connCorner else connBranch
    (pfx ++ connector ++ entry.name ++ dirMark entry.isDirectory ++ ['\n']) ++
      (if entry.isDirectory then descend entry (pfx ++ (if isLast then padBlank else padBar))
        else []) ++
      emitEntries descend pfx last (index + 1) rest

/-- The function `Operations.generateTree`.  The directory `dir` is given by its listing. -/
def generateTree (localeCompare : Str → Str → Int) (dir : List Entry) (pfx : Str)
    (ignorePatterns : List Str) (depth maxDepth : Nat) : Str :=
  if depth > maxDepth then []
  else
    let entries := visibleEntries localeCompare ignorePatterns dir
    let last : Int := (entries.length : Int) - 1
    emitEntries
      (fun entry nextPrefix =>
        generateTree localeCompare entry.children nextPrefix ignorePatterns (depth + 1) maxDepth)
      pfx last 0 entries
termination_by maxDepth + 1 - depth
decreasing_by omega

/-! ## Rendered lines -/

/-- One line of rendered output (the `TreeLine` of the data model): the pads of its prefix,
whether it is the last sibling, the name, and whether the entry is a directory.  The depth
of the line is the number of pads. -/
structure TreeLine where
  pads : List Str
  isLast : Bool
  name : Str
  isDirectory : Bool
  deriving DecidableEq

/-- The depth of a rendered line: the number of its prefix units. -/
def TreeLine.depth (l : TreeLine) : Nat := l.pads.length

/-- The text of a rendered line, without the line feed that ends it. -/
def TreeLine.text (l : TreeLine) : Str :=
  l.pads.flatten ++ ((if l.isLast then connCorner else connBranch) ++
    (l.name ++ dirMark l.isDirectory))

/-- The text of a sequence of lines, each ended by a line feed. -/
def renderLines (ls : List TreeLine) : Str := (ls.map (fun l => l.text ++ ['\n'])).flatten

/-- The loop of the renderer, producing lines instead of text; an entry is the last one
when no entry follows it. -/
def emitLines (descend : Entry → List Str → List TreeLine) (pads : List Str) :
    List Entry → List TreeLine
  | [] => []
  | entry :: rest =>
    { pads := pads, isLast := rest.isEmpty, name := entry.name,
      isDirectory := entry.isDirectory } ::
      ((if entry.isDirectory then
          descend entry (pads ++ [if rest.isEmpty then padBlank else padBar])
        else []) ++
        emitLines descend pads rest)

/-- The lines `generateTree` emits for the listing `dir`, when its prefix is made of `pads`. -/
def treeLines (localeCompare : Str → Str → Int) (dir : List Entry) (pads : List Str)
    (ignorePatterns : List Str) (depth maxDepth : Nat) : List TreeLine :=
  if depth > maxDepth then []
  else
    emitLines
      (fun entry nextPads =>
        treeLines localeCompare entry.children nextPads ignorePatterns (depth + 1) maxDepth)
      pads (visibleEntries localeCompare ignorePatterns dir)
termination_by maxDepth + 1 - depth
decreasing_by omega

/-! ## Trees -/

mutual
/-- The listings of the directories at or below an entry. -/
def Entry.listings : Entry → List (List Entry)
  | .file _ => []
  | .dir _ cs => cs :: listingsOf cs
/-- The listings of the directories below the entries of a listing. -/
def listingsOf : List Entry → List (List Entry)
  | [] => []
  | e :: es => e.listings ++ listingsOf es
end

/-- Every directory listing of a tree, the listing of the root included. -/
def allListings (dir : List Entry) : List (List Entry) := dir :: listingsOf dir

mutual
/-- The number of levels at and below an entry. -/
def Entry.height : Entry → Nat
  | .file _ => 1
  | .dir _ cs => heightOf cs + 1
/-- The number of levels of a listing: 0 when it is empty. -/
def heightOf : List Entry → Nat
  | [] => 0
  | e :: es => max e.height (heightOf es)
end

mutual
/-- An entry with every ignored entry below it removed. -/
def Entry.prune (ignorePatterns : List Str) : Entry → Entry
  | .file n => .file n
  | .dir n cs => .dir n (pruneList ignorePatterns cs)
/-- A listing with every ignored entry removed, at every level, together with all that
is below it. -/
def pruneList (ignorePatterns : List Str) : List Entry → List Entry
  | [] => []
  | e :: es =>
    if ignorePatterns.contains e.name then pruneList ignorePatterns es
    else e.prune ignorePatterns :: pruneList ignorePatterns es
end

/-- The text of the loop of the renderer, with the last entry recognised as the one no
entry follows. -/
def emitText (descend : Entry → Str → Str) (pfx : Str) : List Entry → Str
  | [] => []
  | entry :: rest =>
    (pfx ++ (if rest.isEmpty then connCorner else connBranch) ++ entry.name ++
      dirMark entry.isDirectory ++ ['\n']) ++
    (if entry.isDirectory then
      descend entry (pfx ++ (if rest.isEmpty then padBlank else padBar)) else []) ++
    emitText descend pfx rest

/-- An entry with the contents of every directory more than `k` levels below it removed. -/
def Entry.cut (cutChildren : List Entry → List Entry) : Entry → Entry
  | .file n => .file n
  | .dir n cs => .dir n (cutChildren cs)

/-- The first `k` levels of a listing: the entries of level `k` are kept, the directories
among them with their contents removed. -/
def cutBelow : Nat → List Entry → List Entry
  | 0, _ => []
  | k + 1, es => es.map (Entry.cut (cutBelow k))

/-- A concrete collation to instantiate `localeCompare` with: the comparison of the two
names by code points. -/
def codePointCompare (a b : Str) : Int :=
  if a = b then 0 else if a < b then -1 else 1

/-- The tree of the example of the specification: `src/` holding `main.txt`, and
`README.md`, listed in the order a directory listing may return them. -/
def sampleTree : List Entry :=
  [.file "README.md".toList, .dir "src".toList [.file "main.txt".toList]]

/-- The same entry, with the listing of every directory at or below it returned in some
other order. -/
inductive SameEntry : Entry → Entry → Prop
  | file (n : Str) : SameEntry (.file n) (.file n)
  | dir (n : Str) (cs mid cs' : List Entry) :
      cs.Perm mid → List.Forall₂ SameEntry mid cs' → SameEntry (.dir n cs) (.dir n cs')

/-- The same directory tree, with the listing of every directory, the root included,
returned in some other order. -/
def SameListing (l l' : List Entry) : Prop :=
  ∃ mid, l.Perm mid ∧ List.Forall₂ SameEntry mid l'

/-- Sibling names are distinct in every directory of the tree. -/
def DistinctNames (dir : List Entry) : Prop :=
  ∀ l ∈ allListings dir, (l.map Entry.name).Nodup

instance (dir : List Entry) : Decidable (DistinctNames dir) := by
  unfold DistinctNames; infer_instance

/-- The sample tree with its root listing returned in the other order. -/
def sampleTreeSwapped : List Entry :=
  [.dir "src".toList [.file "main.txt".toList], .file "README.md".toList]

/-! ## Paths (the POSIX flavour of Node's `path` module) -/

/-- The pieces of a string between its `'/'` characters. -/
def splitSlash : Str → List Str
  | [] => [[]]
  | c :: rest =>
    if c = '/' then [] :: splitSlash rest
    else
      match splitSlash rest with
      | [] => [[c]]
      | seg :: segs => (c :: seg) :: segs

/-- The normalisation `path.join` applies, segment by segment, onto an absolute path: an
empty segment and `.` are dropped, `..` removes the last segment (the root is its own
parent), any other segment is appended. -/
def joinSegments (base : Path) : List Str → Path
  | [] => base
  | seg :: rest =>
    if seg = [] ∨ seg = ['.'] then joinSegments base rest
    else if seg = ['.', '.'] then joinSegments base.dropLast rest
    else joinSegments (base ++ [seg]) rest

/-- The function `path.join(base, name)` for a resolved absolute `base`.  A trailing slash of
the result is not represented: it changes none of the later calls. -/
def pathJoin (base : Path) (name : Str) : Path := joinSegments base (splitSlash name)

/-- The function `path.dirname` on a resolved absolute path. -/
def pathDirname (p : Path) : Path := p.dropLast

/-! ## The filesystem (Node's `fs.promises`, as far as the builders use it) -/

/-- What a path holds: a directory, or a file with its content. -/
inductive Node where
  | dir
  | file (content : Str)
  deriving DecidableEq

/-- The two calls the builders make: `fs.mkdir(path, { recursive: true })` and
`fs.writeFile(path, '')`.  They work on a filesystem state of type `σ`; `none` stands for a
rejected promise. -/
structure FsApi (σ : Type) where
  mkdir : σ → Path → Option σ
  writeFile : σ → Path → Option σ

/-- A filesystem state as a finite map from paths to nodes; the first binding of a path
counts, and the root is always a directory. -/
abbrev Fs := List (Path × Node)

/-- What the filesystem holds at a path. -/
def Fs.lookup (fs : Fs) (p : Path) : Option Node :=
  if p = [] then some Node.dir else (fs.find? (fun e => e.1 = p)).map (fun e => e.2)

/-- The walk of a recursive `mkdir` below `base`, one segment after the other: a directory
in place is kept, a missing one is created, a file in the way makes the call fail. -/
def Fs.mkdirFrom (fs : Fs) (base : Path) : List Str → Option Fs
  | [] => some fs
  | seg :: rest =>
    match fs.lookup (base ++ [seg]) with
    | some Node.dir => Fs.mkdirFrom fs (base ++ [seg]) rest
    | some (Node.file _) => none
    | none => Fs.mkdirFrom ((base ++ [seg], Node.dir) :: fs) (base ++ [seg]) rest

/-- The call `fs.mkdir(p, { recursive: true })`. -/
def Fs.mkdirp (fs : Fs) (p : Path) : Option Fs := Fs.mkdirFrom fs [] p

/-- The call `fs.writeFile(p, '')`: it fails on a directory and below a missing parent,
and otherwise leaves an empty file at `p`. -/
def Fs.writeEmpty (fs : Fs) (p : Path) : Option Fs :=
  if fs.lookup p = some Node.dir then none
  else if fs.lookup p.dropLast = some Node.dir then
    some ((p, Node.file []) :: fs.filter (fun e => e.1 ≠ p))
  else none

/-- The filesystem model the builders are run against. -/
def posixFs : FsApi Fs := { mkdir := Fs.mkdirp, writeFile := Fs.writeEmpty }

/-! ## The buffered builder (`Operations.buildStructureFromTree`, lines 195-243) -/

/-- A filesystem call of the builder that succeeded: the `mkdir` of the target (line 203),
the `mkdir` of a directory line, which is followed by the push of its path (lines 226-227),
the `mkdir` of the parent of a file (line 231), and the `writeFile` of a file (line 232). -/
inductive FsOp where
  | mkdirTarget (p : Path)
  | mkdirEntry (p : Path)
  | mkdirParent (p : Path)
  | writeFile (p : Path)
  deriving DecidableEq

/-- The state of a build: the filesystem, the array `pathStack`, and the record of the
calls that succeeded so far, in order. -/
structure BuildState (σ : Type) where
  fs : σ
  pathStack : List Path
  ops : List FsOp

/-- The loop `while (pathStack.length > depth + 1) pathStack.pop()`, with `bound = depth + 1`;
`fuel` bounds the number of rounds. -/
def popWhileLonger (bound : Nat) : Nat → List Path → List Path
  | 0, stack => stack
  | fuel + 1, stack =>
    if stack.length > bound then popWhileLonger bound fuel stack.dropLast else stack

/-- The pop loop, run to its end: it makes at most `stack.length` rounds. -/
def popStack (depth : Nat) (stack : List Path) : List Path :=
  popWhileLonger (depth + 1) stack.length stack

/-- The part of the loop body after the two `continue` tests (lines 216-233), for a decoded
line: the pop loop, the join onto the top of the stack, and the creation.  A call that
fails ends the processing of the line; what was done before it stays done. -/
def applyEntry {σ : Type} (api : FsApi σ) (st : BuildState σ) (d : Decoded) : BuildState σ :=
  let stack := popStack d.depth st.pathStack
  match stack.getLast? with
  | none => { st with pathStack := stack }
  | some top =>
    let currentPath := pathJoin top d.cleanName
    if d.isDir then
      match api.mkdir st.fs currentPath with
      | none => { st with pathStack := stack }
      | some fs1 =>
        { fs := fs1, pathStack := stack ++ [currentPath],
          ops := st.ops ++ [FsOp.mkdirEntry currentPath] }
    else
      let parentDir := pathDirname currentPath
      match api.mkdir st.fs parentDir with
      | none => { st with pathStack := stack }
      | some fs1 =>
        match api.writeFile fs1 currentPath with
        | none =>
          { fs := fs1, pathStack := stack, ops := st.ops ++ [FsOp.mkdirParent parentDir] }
        | some fs2 =>
          { fs := fs2, pathStack := stack,
            ops := st.ops ++ [FsOp.mkdirParent parentDir, FsOp.writeFile currentPath] }

/-- One round of the loop `for (const line of lines.slice(1))`, its `try`/`catch` included. -/
def buildLine {σ : Type} (api : FsApi σ) (createFiles : Bool) (st : BuildState σ)
    (line : Str) : BuildState σ :=
  let d := decodeLine line
  if d.name = [] then st
  else if !d.isDir && !createFiles then st
  else applyEntry api st d

/-- The method `split('\n')`. -/
def splitLines : Str → List Str
  | [] => [[]]
  | c :: rest =>
    if c = '\n' then [] :: splitLines rest
    else
      match splitLines rest with
      | [] => [[c]]
      | l :: ls => (c :: l) :: ls

/-- The function `Operations.buildStructureFromTree`.  The target is given resolved (`main`
always passes one, so the test `!targetDir` does not fire); `none` stands for the critical
error raised when the target cannot be created.  The flag `debug` only adds messages. -/
def buildStructureFromTree {σ : Type} (api : FsApi σ) (fs : σ) (treeStr : Str)
    (targetDir : Path) (createFiles : Bool) : Option (BuildState σ) :=
  let lines := splitLines (jsTrim treeStr)
  if lines.length = 0 then some { fs := fs, pathStack := [], ops := [] }
  else
    match api.mkdir fs targetDir with
    | none => none
    | some fs1 =>
      some ((lines.drop 1).foldl (buildLine api createFiles)
        { fs := fs1, pathStack := [targetDir], ops := [FsOp.mkdirTarget targetDir] })

/-- The directories created for directory lines, in order: the paths pushed onto
`pathStack`. -/
def pushedDirs : List FsOp → List Path
  | [] => []
  | FsOp.mkdirEntry p :: ops => p :: pushedDirs ops
  | _ :: ops => pushedDirs ops

/-- The files written, in order. -/
def writtenFiles : List FsOp → List Path
  | [] => []
  | FsOp.writeFile p :: ops => p :: writtenFiles ops
  | _ :: ops => writtenFiles ops

/-- The outcome of a build, for comparison: the filesystem and the record of calls. -/
def BuildState.outcome (st : BuildState Fs) : Fs × List FsOp := (st.fs, st.ops)

/-- The text of the concrete scenario of the specification. -/
def sampleText : Str := "root/\n├── src/\n│   └── main.txt\n└── README.md".toList

/-- A text in which a file line is followed by a deeper line. -/
def fileThenDeeperText : Str := "root/\n├── a/\n├── f\n│   └── b/".toList

/-! ## The round trip -/

/-- The names of directory entries that the text format carries unchanged: plain names
without a line feed.  The names `.` and `..` are never entries of a directory listing. -/
def RoundTripName (name : Str) : Prop :=
  PlainName name ∧ '\n' ∉ name ∧ name ≠ ['.'] ∧ name ≠ ['.', '.']

instance (name : Str) : Decidable (RoundTripName name) := by
  unfold RoundTripName; infer_instance

/-- Every entry of the tree, at every level, has a round-trip name that is not ignored. -/
def RoundTripTree (ignorePatterns : List Str) (dir : List Entry) : Prop :=
  ∀ l ∈ allListings dir, ∀ e ∈ l, RoundTripName e.name ∧ e.name ∉ ignorePatterns

instance (ignorePatterns : List Str) (dir : List Entry) :
    Decidable (RoundTripTree ignorePatterns dir) := by
  unfold RoundTripTree; infer_instance

mutual
/-- The relative paths of an entry and of all that is below it, each with its
directory-versus-file classification. -/
def Entry.paths : Entry → List (Path × Bool)
  | .file n => [([n], false)]
  | .dir n cs => ([n], true) :: (pathsOf cs).map (fun pb => (n :: pb.1, pb.2))
/-- The relative paths of the entries of a tree, each with its classification. -/
def pathsOf : List Entry → List (Path × Bool)
  | [] => []
  | e :: es => e.paths ++ pathsOf es
end

/-- What a build leaves for an entry: a directory, or an empty file. -/
def nodeOf (isDirectory : Bool) : Node := if isDirectory then Node.dir else Node.file []

/-- The text `main` hands over in generation mode (lines 455-456):
`path.basename(inputPath) + '/\n' + generateTree(inputPath, '', ignorePatterns)`, with
`maxDepth` left as a parameter (the call uses its default, 20). -/
def renderedText (localeCompare : Str → Str → Int) (rootName : Str) (dir : List Entry)
    (ignorePatterns : List Str) (maxDepth : Nat) : Str :=
  rootName ++ ['/', '\n'] ++ generateTree localeCompare dir [] ignorePatterns 0 maxDepth

/-- The buffered builder's loop over the texts of a sequence of rendered lines. -/
def runLines (createFiles : Bool) (st : BuildState Fs) (ls : List TreeLine) :
    BuildState Fs :=
  (ls.map TreeLine.text).foldl (buildLine posixFs createFiles) st

/-- The state `st'` comes from `st` by a run that kept the stack `base` at the bottom and
added to the filesystem exactly the entries `S`, given by their paths relative to `cur`. -/
def Built (cur : Path) (S : Path → Bool → Prop) (base : List Path)
    (st st' : BuildState Fs) : Prop :=
  (∃ extra, st'.pathStack = base ++ extra) ∧
  ∀ p n, Fs.lookup st'.fs p = some n ↔
    (Fs.lookup st.fs p = some n ∨ ∃ rel b, S rel b ∧ p = cur ++ rel ∧ n = nodeOf b)

/-- The directory `cur` and its ancestors exist, and nothing exists yet at or below the
place of any entry of `es` in it. -/
def Ready (cur : Path) (es : List Entry) (st : BuildState Fs) : Prop :=
  (∀ q, q <+: cur → Fs.lookup st.fs q = some Node.dir) ∧
  ∀ e ∈ es, ∀ p, cur ++ [e.name] <+: p → Fs.lookup st.fs p = none

/-- The hypotheses of the round trip on a tree: round-trip names that are not ignored,
distinct sibling names, and at most `k` levels. -/
def TreeOk (ignorePatterns : List Str) (k : Nat) (dir : List Entry) : Prop :=
  RoundTripTree ignorePatterns dir ∧ DistinctNames dir ∧ heightOf dir ≤ k

instance (ignorePatterns : List Str) (k : Nat) (dir : List Entry) :
    Decidable (TreeOk ignorePatterns k dir) := by
  unfold TreeOk; infer_instance

/-- The texts of a sequence of lines, each preceded by a line feed. -/
def joinedLines (ls : List TreeLine) : Str := (ls.map (fun l => '\n' :: l.text)).flatten

/-- A rendered line with pads for its prefix and a round-trip name. -/
def GoodLine (l : TreeLine) : Prop := (∀ u ∈ l.pads, IsPad u) ∧ RoundTripName l.name

/-! ## The streaming builder (the stdin line loop of `main`, `index.js` lines 351-433) -/

/-- The method `line.includes(sub)`. -/
def includesStr (line sub : Str) : Bool := decide (Occurs sub line)

/-- The value `isHierarchyLine`:
`line.includes('├──') || line.includes('└──') || line.includes('│')`. -/
def isHierarchyLine (line : Str) : Bool :=
  includesStr line ['├', '─', '─'] || includesStr line ['└', '─', '─'] || includesStr line ['│']

/-- The value `isRootPathLine`: not a hierarchy line, and the trimmed line starts with `./`
or `../`, ends with `/`, or is `.` or `..`. -/
def isRootPathLine (line : Str) : Bool :=
  !isHierarchyLine line &&
    (['.', '/'].isPrefixOf (jsTrim line) || ['.', '.', '/'].isPrefixOf (jsTrim line) ||
      endsWithSlash (jsTrim line) || decide (jsTrim line = ['.']) ||
      decide (jsTrim line = ['.', '.']))

/-- The state of the stdin line loop: the filesystem, the array `pathStack` (an empty slot
of the array is `none`), the record of the calls that succeeded, and the variables
`lastDepth` and `foundFirstValidLine`. -/
structure StreamState (σ : Type) where
  fs : σ
  pathStack : List (Option Path)
  ops : List FsOp
  lastDepth : Nat
  foundFirstValidLine : Bool

/-- The loop `while (pathStack.length > depth + 1) pathStack.pop()` of the stdin line loop,
with `bound = depth + 1`; `fuel` bounds the number of rounds. -/
def popSlotsWhileLonger (bound : Nat) : Nat → List (Option Path) → List (Option Path)
  | 0, stack => stack
  | fuel + 1, stack =>
    if stack.length > bound then popSlotsWhileLonger bound fuel stack.dropLast else stack

/-- The pop loop of the stdin line loop, run to its end. -/
def popSlots (depth : Nat) (stack : List (Option Path)) : List (Option Path) :=
  popSlotsWhileLonger (depth + 1) stack.length stack

/-- The assignment `pathStack.length = n`: a longer array is cut, a shorter one is
lengthened with empty slots. -/
def setLength (n : Nat) (stack : List (Option Path)) : List (Option Path) :=
  stack.take n ++ List.replicate (n - stack.length) none

/-- The part of the body of the stdin line loop after its `continue` tests (lines 404-426),
for a decoded line: the pop loop, the assignment of the length when the depth went down,
the update of `lastDepth`, the join onto the top of the stack, and the creation.  The join
throws when the top of the stack is an empty slot; an exception ends the processing of
the line and what was done before it stays done. -/
def streamApply {σ : Type} (api : FsApi σ) (st : StreamState σ) (d : Decoded) :
    StreamState σ :=
  let popped := popSlots d.depth st.pathStack
  let stack := if d.depth < st.lastDepth then setLength (d.depth + 1) popped else popped
  match stack.getLast? with
  | some (some top) =>
    let currentPath := pathJoin top d.cleanName
    if d.isDir then
      match api.mkdir st.fs currentPath with
      | none => { st with pathStack := stack, lastDepth := d.depth }
      | some fs1 =>
        { st with fs := fs1, pathStack := stack ++ [some currentPath],
                  ops := st.ops ++ [FsOp.mkdirEntry currentPath], lastDepth := d.depth }
    else
      let parentDir := pathDirname currentPath
      match api.mkdir st.fs parentDir with
      | none => { st with pathStack := stack, lastDepth := d.depth }
      | some fs1 =>
        match api.writeFile fs1 currentPath with
        | none =>
          { st with fs := fs1, pathStack := stack,
                    ops := st.ops ++ [FsOp.mkdirParent parentDir], lastDepth := d.depth }
        | some fs2 =>
          { st with fs := fs2, pathStack := stack,
                    ops := st.ops ++ [FsOp.mkdirParent parentDir, FsOp.writeFile currentPath],
                    lastDepth := d.depth }
  | _ => { st with pathStack := stack, lastDepth := d.depth }

/-- The body of the stdin line loop from the decoding on (lines 395-426): the decoding, the
two `continue` tests on the name and on the flag `args.all`, and the creation. -/
def streamDecode {σ : Type} (api : FsApi σ) (all : Bool) (st : StreamState σ)
    (line : Str) : StreamState σ :=
  let d := decodeLine line
  if d.name = [] then st
  else if !d.isDir && !all then st
  else streamApply api st d

/-- One round of the loop `for await (const line of rl)`, its `try`/`catch` included: a
blank line is skipped; before the first hierarchy line every line that is a root path or
not a hierarchy line is skipped; otherwise `foundFirstValidLine` is set and the line is
decoded and applied.  The flags `args.show` and `args.debug` only add messages. -/
def streamLine {σ : Type} (api : FsApi σ) (all : Bool) (st : StreamState σ)
    (line : Str) : StreamState σ :=
  if jsTrim line = [] then st
  else if !st.foundFirstValidLine && (isRootPathLine line || !isHierarchyLine line) then st
  else streamDecode api all { st with foundFirstValidLine := true } line

/-- The state the stdin line loop starts in, once the target is created (lines 355-359). -/
def streamInit {σ : Type} (fs1 : σ) (targetDir : Path) : StreamState σ :=
  { fs := fs1, pathStack := [some targetDir], ops := [FsOp.mkdirTarget targetDir],
    lastDepth := 0, foundFirstValidLine := false }

/-- The stdin branch of `main` (lines 351-433) on the lines `readline` delivers, with the
target given resolved; `none` stands for the critical error raised when the target
cannot be created. -/
def stdinLoop {σ : Type} (api : FsApi σ) (fs : σ) (lines : List Str) (targetDir : Path)
    (all : Bool) : Option (StreamState σ) :=
  match api.mkdir fs targetDir with
  | none => none
  | some fs1 => some (lines.foldl (streamLine api all) (streamInit fs1 targetDir))

/-! ## Notions used to compare the builders -/

/-- The state the buffered builder starts its loop in, once the target is created. -/
def buildInit {σ : Type} (fs1 : σ) (targetDir : Path) : BuildState σ :=
  { fs := fs1, pathStack := [targetDir], ops := [FsOp.mkdirTarget targetDir] }

/-- The lines the buffered builder loops over: `treeStr.trim().split('\n').slice(1)`. -/
def linesOf (treeStr : Str) : List Str := (splitLines (jsTrim treeStr)).drop 1

/-- The text after the first line feed of a text, `none` when it has no line feed. -/
def afterFirstNewline : Str → Option Str
  | [] => none
  | c :: rest => if c = '\n' then some rest else afterFirstNewline rest

/-- The lines after the first line feed of a text. -/
def linesAfterFirstNewline (text : Str) : List Str :=
  match afterFirstNewline text with
  | none => []
  | some rest => splitLines rest

/-- Lines joined by line feeds. -/
def joinLines : List Str → Str
  | [] => []
  | [l] => l
  | l :: ls => l ++ '\n' :: joinLines ls

/-- What the two builders are compared on: the filesystem, the stack and the record of
calls of a state of the buffered builder. -/
def BuildState.view {σ : Type} (st : BuildState σ) : σ × List (Option Path) × List FsOp :=
  (st.fs, st.pathStack.map some, st.ops)

/-- The filesystem, the stack and the record of calls of a state of the stdin line loop. -/
def StreamState.view {σ : Type} (st : StreamState σ) : σ × List (Option Path) × List FsOp :=
  (st.fs, st.pathStack, st.ops)

/-- Whether the line, arriving in state `st`, gets past the `continue` tests of the stdin
line loop and then has its stack lengthened by the assignment `pathStack.length = depth + 1`:
its depth is below `lastDepth` and the popped stack has fewer than `depth + 1` elements. -/
def stretches {σ : Type} (all : Bool) (st : StreamState σ) (line : Str) : Bool :=
  decide (jsTrim line ≠ []) &&
  !(!st.foundFirstValidLine && (isRootPathLine line || !isHierarchyLine line)) &&
  decide ((decodeLine line).name ≠ []) &&
  ((decodeLine line).isDir || all) &&
  decide ((decodeLine line).depth < st.lastDepth) &&
  decide ((popSlots (decodeLine line).depth st.pathStack).length < (decodeLine line).depth + 1)

/-- No line of the sequence, arriving in turn from state `st`, has its stack lengthened. -/
def noStretch {σ : Type} (api : FsApi σ) (all : Bool) : StreamState σ → List Str → Bool
  | _, [] => true
  | st, line :: rest =>
    !stretches all st line && noStretch api all (streamLine api all st line) rest

/-- The path a filesystem call was made on. -/
def FsOp.path : FsOp → Path
  | FsOp.mkdirTarget p => p
  | FsOp.mkdirEntry p => p
  | FsOp.mkdirParent p => p
  | FsOp.writeFile p => p

/-- A decoded bare name that is joined as one segment or as nothing: without `'/'`, and
neither `.` nor `..`. -/
def SegmentName (name : Str) : Prop := '/' ∉ name ∧ name ≠ ['.'] ∧ name ≠ ['.', '.']

instance (name : Str) : Decidable (SegmentName name) := by
  unfold SegmentName; infer_instance

/-! ## Shape of the rendering -/

/-- The lines of the entry at index `i` of a listing of `n` entries: its own line, with
the last connector exactly when `i` is the last index, followed by the lines `descend`
gives for its contents under the prefix lengthened by one pad. -/
def entryBlock (descend : Entry → List Str → List TreeLine) (pads : List Str) (n i : Nat)
    (entry : Entry) : List TreeLine :=
  { pads := pads, isLast := decide (i + 1 = n), name := entry.name,
    isDirectory := entry.isDirectory } ::
    (if entry.isDirectory then
      descend entry (pads ++ [if i + 1 = n then padBlank else padBar])
    else [])

/-- The line `l`, which comes after the lines `pre`, has its parent among them: a directory
line `p` of depth one less, with no line of depth less than that of `l` between `p` and
`l`. -/
def HasParentLine (pre : List TreeLine) (l : TreeLine) : Prop :=
  ∃ pre1 p mid, pre = pre1 ++ p :: mid ∧ p.isDirectory = true ∧ p.depth + 1 = l.depth ∧
    ∀ m ∈ mid, l.depth ≤ m.depth

/-- The lines `ls` are well nested from the depth `base` on: no line is less deep than
`base`, the first one has depth `base`, and every deeper line has its parent before it. -/
def WellNested (base : Nat) (ls : List TreeLine) : Prop :=
  (∀ l ∈ ls, base ≤ l.depth) ∧ (∀ l ∈ ls.head?, l.depth = base) ∧
    ∀ pre l post, ls = pre ++ l :: post → base < l.depth → HasParentLine pre l

/-- The text one round of the loop of `generateTree` emits for the entry at position
`index`: its line, and below it the text of the recursive call when it is a directory;
`last` is `entries.length - 1`. -/
def entryText (descend : Entry → Str → Str) (pfx : Str) (last : Int) (index : Nat)
    (entry : Entry) : Str :=
  (pfx ++ (if (index : Int) = last then connCorner else connBranch) ++ entry.name ++
      dirMark entry.isDirectory ++ ['\n']) ++
    (if entry.isDirectory then
      descend entry (pfx ++ (if (index : Int) = last then padBlank else padBar))
    else [])

/-! ## Sample inputs -/

/-- A text whose first entry line is one level too deep. -/
def deepFirstText : Str := "root/\n│   └── x/".toList

/-- A text with a leading blank line. -/
def leadingBlankText : Str := "\n├── a/\n├── b/".toList

/-- A directory `src` holding the files `a.txt` and `b.txt`. -/
def twoFilesTree : List Entry :=
  [.dir "src".toList [.file "a.txt".toList, .file "b.txt".toList]]

/-- The rendering of `twoFilesTree` under the root name `root`. -/
def twoFilesText : Str := "root/\n└── src/\n    ├── a.txt\n    └── b.txt\n".toList

/-- The same text with the line `garbage` inserted between its last two lines. -/
def twoFilesGarbageText : Str :=
  "root/\n└── src/\n    ├── a.txt\ngarbage\n    └── b.txt\n".toList

/-- The same text with a comment line inserted between its last two lines. -/
def twoFilesCommentText : Str :=
  "root/\n└── src/\n    ├── a.txt\n# note\n    └── b.txt\n".toList

/-- Lines whose last one ends in four spaces. -/
def trailingSpaceLines : List Str :=
  ["root/".toList, "├── x/".toList, "└── a/    ".toList]

/-- Lines whose depth starts at 3 and then goes down to 2. -/
def depthJumpLines : List Str :=
  ["root/".toList, "│   │   │   └── a/".toList, "│   │   └── b/".toList]

/-- A text whose first entry is named `..`. -/
def dotDotText : Str := "root/\n└── ../\n    └── evil/".toList

/-- Every path on the stack and every path a filesystem call was made on is the target
or lies below it. -/
def Inside (target : Path) (stack : List Path) (ops : List FsOp) : Prop :=
  (∀ p ∈ stack, target <+: p) ∧ ∀ op ∈ ops, target <+: op.path

/-- The three lines of the rendering of `sampleTree`. -/
def sampleSrcLine : TreeLine :=
  { pads := [], isLast := false, name := "src".toList, isDirectory := true }

/-- The line of `main.txt` in the rendering of `sampleTree`. -/
def sampleMainLine : TreeLine :=
  { pads := [padBar], isLast := true, name := "main.txt".toList, isDirectory := false }

/-- The line of `README.md` in the rendering of `sampleTree`. -/
def sampleReadmeLine : TreeLine :=
  { pads := [], isLast := true, name := "README.md".toList, isDirectory := false }

/-! ## Line decoding: depth -/

theorem countUnitsFrom_pad (u rest : Str) (hu : IsPad u) :
    countUnitsFrom 0 (u ++ rest) = countUnitsFrom 0 rest + 1 := by
  rcases hu with rfl | rfl <;>
    simp [padBar, padBlank, countUnitsFrom, startsUnit, List.isPrefixOf]

theorem countUnitsFrom_pads (us : List Str) (rest : Str) (hu : ∀ u ∈ us, IsPad u) :
    countUnitsFrom 0 (us.flatten ++ rest) = us.length + countUnitsFrom 0 rest := by
  induction us with
  | nil => simp
  | cons u us ih =>
    have h1 := ih (fun v hv => hu v (List.mem_cons_of_mem _ hv))
    have h2 := countUnitsFrom_pad u (us.flatten ++ rest) (hu u (List.mem_cons_self _ _))
    simp only [List.flatten_cons, List.append_assoc, List.length_cons]
    rw [h2, h1]; omega

theorem countUnitsFrom_connector (c rest : Str) (hc : IsConnector c) :
    countUnitsFrom 0 (c ++ rest) = countUnitsFrom 0 (' ' :: rest) := by
  rcases hc with rfl | rfl <;>
    simp [connBranch, connCorner, countUnitsFrom, startsUnit, List.isPrefixOf, padBar, padBlank]

theorem countUnitsFrom_eq_zero (s : Str) (h1 : ¬ Occurs padBar s) (h2 : ¬ Occurs padBlank s) :
    countUnitsFrom 0 s = 0 := by
  induction s with
  | nil => rfl
  | cons c rest ih =>
    have hs : startsUnit (c :: rest) = false := by
      unfold startsUnit
      rw [Bool.or_eq_false_iff]
      constructor
      · rw [Bool.eq_false_iff]; intro h
        exact h1 (List.isPrefixOf_iff_prefix.1 h).isInfix
      · rw [Bool.eq_false_iff]; intro h
        exact h2 (List.isPrefixOf_iff_prefix.1 h).isInfix
    rw [countUnitsFrom, if_neg (by simp [hs])]
    exact ih (fun h => h1 (List.infix_cons h)) (fun h => h2 (List.infix_cons h))

theorem lineDepth_shape (us : List Str) (conn rest : Str) (hu : ∀ u ∈ us, IsPad u)
    (hc : IsConnector conn) :
    lineDepth (us.flatten ++ (conn ++ rest)) = us.length + lineDepth (' ' :: rest) := by
  unfold lineDepth
  rw [countUnitsFrom_pads us _ hu, countUnitsFrom_connector conn rest hc]

theorem not_occurs_padBar_cons_space (s : Str) (h : ¬ Occurs padBar s) :
    ¬ Occurs padBar (' ' :: s) := by
  intro h'
  rcases List.infix_cons_iff.1 h' with hp | hi
  · simp [padBar] at hp
  · exact h hi

/-- C2 (amended).  On a line `prefix + connector + rest` whose prefix is `d` pads, the
depth the builders compute is `d` plus the number of unit matches found in the
connector's final space followed by `rest`; it is exactly `d` when `rest` has no
`'│   '` and the space followed by `rest` has no run of four spaces. -/
theorem lineDepth_prefix_connector (us : List Str) (conn rest : Str)
    (hu : ∀ u ∈ us, IsPad u) (hc : IsConnector conn) :
    lineDepth (us.flatten ++ (conn ++ rest)) = us.length + lineDepth (' ' :: rest) ∧
    (¬ Occurs padBar rest → ¬ Occurs padBlank (' ' :: rest) →
      lineDepth (us.flatten ++ (conn ++ rest)) = us.length) := by
  refine ⟨lineDepth_shape us conn rest hu hc, fun h1 h2 => ?_⟩
  rw [lineDepth_shape us conn rest hu hc]
  unfold lineDepth
  rw [countUnitsFrom_eq_zero _ (not_occurs_padBar_cons_space rest h1) h2]
  rfl

/-- Witness for C2 (amended): the line `'│   └── main.txt'` has depth 1. -/
theorem lineDepth_prefix_connector_witness :
    lineDepth ([padBar].flatten ++ (connCorner ++ "main.txt".toList)) =
        [padBar].length + lineDepth (' ' :: "main.txt".toList) ∧
    (¬ Occurs padBar "main.txt".toList → ¬ Occurs padBlank (' ' :: "main.txt".toList) →
      lineDepth ([padBar].flatten ++ (connCorner ++ "main.txt".toList)) = [padBar].length) :=
  lineDepth_prefix_connector [padBar] connCorner "main.txt".toList
    (by intro u hu; simp at hu; exact Or.inl hu) (Or.inr rfl)

/-- C2 as stated fails: the line `'└── README.md    # readme'` has no pad before its
connector, yet the depth computed for it is 1, because the four spaces before the
comment are counted as a unit. -/
theorem lineDepth_counts_units_after_connector :
    (∀ u ∈ ([] : List Str), IsPad u) ∧ IsConnector connCorner ∧
    lineDepth (([] : List Str).flatten ++ (connCorner ++ "README.md    # readme".toList)) ≠
      ([] : List Str).length := by
  refine ⟨by simp, Or.inr rfl, by decide⟩

/-! ## Line decoding: name -/

theorem afterDashGap_pad (u rest : Str) (hu : IsPad u) :
    afterDashGap (u ++ rest) = afterDashGap rest := by
  rcases hu with rfl | rfl <;>
    simp [padBar, padBlank, afterDashGap, dashGap, List.isPrefixOf, isLineTerminator]

theorem afterDashGap_pads (us : List Str) (rest : Str) (hu : ∀ u ∈ us, IsPad u) :
    afterDashGap (us.flatten ++ rest) = afterDashGap rest := by
  induction us with
  | nil => simp
  | cons u us ih =>
    simp only [List.flatten_cons, List.append_assoc]
    rw [afterDashGap_pad u _ (hu u (List.mem_cons_self _ _)),
      ih (fun v hv => hu v (List.mem_cons_of_mem _ hv))]

theorem afterDashGap_connector (c rest : Str) (hc : IsConnector c) :
    afterDashGap (c ++ rest) = some rest := by
  rcases hc with rfl | rfl <;>
    simp [connBranch, connCorner, afterDashGap, dashGap, List.isPrefixOf, isLineTerminator]

theorem afterDashGap_before (pre conn rest : Str) (hc : IsConnector conn)
    (h1 : ¬ Occurs dashGap pre) (h2 : ∀ c ∈ pre, isLineTerminator c = false) :
    afterDashGap (pre ++ (conn ++ rest)) = some rest := by
  induction pre with
  | nil => simpa using afterDashGap_connector conn rest hc
  | cons c pre ih =>
    have hpre : ¬ dashGap.isPrefixOf (c :: (pre ++ (conn ++ rest))) = true := by
      intro h
      have hp := List.isPrefixOf_iff_prefix.1 h
      match pre, h1 with
      | [], _ =>
        rcases hc with rfl | rfl <;> simp [dashGap, connBranch, connCorner] at hp
      | [a], _ =>
        rcases hc with rfl | rfl <;> simp [dashGap, connBranch, connCorner] at hp
      | a :: b :: tl, h1 =>
        apply h1
        have : dashGap <+: c :: a :: b :: tl := by
          simp [dashGap] at hp ⊢
          obtain ⟨h1, h2, h3⟩ := hp
          exact ⟨h1, h2, h3⟩
        exact this.isInfix
    have hterm : isLineTerminator c = false := h2 c (List.mem_cons_self _ _)
    rw [List.cons_append, afterDashGap, if_neg hpre, if_neg (by simp [hterm])]
    exact ih (fun h => h1 (List.infix_cons h)) (fun d hd => h2 d (List.mem_cons_of_mem _ hd))

theorem jsTrim_eq_self (s : Str)
    (hh : ∀ c, s.head? = some c → isJsSpace c = false)
    (hl : ∀ c, s.getLast? = some c → isJsSpace c = false) : jsTrim s = s := by
  unfold jsTrim
  have h1 : s.dropWhile isJsSpace = s := by
    cases s with
    | nil => rfl
    | cons a t =>
      have := hh a rfl
      simp [List.dropWhile_cons, this]
  rw [h1, List.rdropWhile_eq_self_iff]
  intro hne
  have := hl (s.getLast hne) (List.getLast?_eq_getLast _ hne)
  simp [this]

theorem not_mem_takeWhile_ne (c : Char) (s : Str) :
    c ∉ s.takeWhile (fun x => x != c) := by
  intro h
  have := List.mem_takeWhile_imp h
  simp at this

theorem mem_of_mem_jsTrim (c : Char) (s : Str) (h : c ∈ jsTrim s) : c ∈ s := by
  unfold jsTrim at h
  exact (List.dropWhile_sublist _).subset ((List.rdropWhile_prefix _ _).subset h)

theorem jsTrim_head (s : Str) (c : Char) (h : (jsTrim s).head? = some c) :
    isJsSpace c = false := by
  unfold jsTrim at h
  have hp := List.rdropWhile_prefix isJsSpace (s.dropWhile isJsSpace)
  have hd := List.head?_dropWhile_not isJsSpace s
  obtain ⟨t, ht⟩ := hp
  cases hr : List.rdropWhile isJsSpace (List.dropWhile isJsSpace s) with
  | nil => rw [hr] at h; simp at h
  | cons a l =>
    rw [hr] at h ht
    simp at h
    subst h
    rw [← ht] at hd
    simpa using hd

theorem jsTrim_getLast (s : Str) (c : Char) (h : (jsTrim s).getLast? = some c) :
    isJsSpace c = false := by
  unfold jsTrim at h
  have hne : List.rdropWhile isJsSpace (List.dropWhile isJsSpace s) ≠ [] := by
    intro h0; rw [h0] at h; simp at h
  have := List.rdropWhile_last_not isJsSpace (s.dropWhile isJsSpace) hne
  rw [List.getLast?_eq_getLast _ hne] at h
  simp at h
  rw [← h]
  simpa using this

theorem plainName_mark_head (name : Str) (b : Bool) (hn : PlainName name) (c : Char)
    (h : (name ++ dirMark b).head? = some c) : isJsSpace c = false := by
  obtain ⟨hne, -, -, hh, -⟩ := hn
  cases name with
  | nil => exact absurd rfl hne
  | cons a t => exact hh c (by simpa using h)

theorem plainName_mark_getLast (name : Str) (b : Bool) (hn : PlainName name) (c : Char)
    (h : (name ++ dirMark b).getLast? = some c) : isJsSpace c = false := by
  obtain ⟨hne, -, -, -, hl, -⟩ := hn
  cases b with
  | false =>
    simp only [dirMark, Bool.false_eq_true, if_false, List.append_nil] at h
    exact hl c h
  | true =>
    simp [dirMark] at h
    subst h; decide

theorem not_occurs_concat (sub s : Str) (a : Char) (hsub : sub.getLast? ≠ some a)
    (hs : ¬ Occurs sub s) : ¬ Occurs sub (s ++ [a]) := by
  intro h
  rcases List.infix_concat_iff.1 h with hsuf | hin
  · by_cases hne : sub = []
    · subst hne; exact hs List.nil_infix
    · obtain ⟨t, ht⟩ := hsuf
      have := congrArg List.getLast? ht
      rw [List.getLast?_append_of_ne_nil _ hne] at this
      simp at this
      exact hsub this
  · exact hs hin

theorem plainName_mark_depth (name : Str) (b : Bool) (hn : PlainName name) :
    lineDepth (' ' :: (name ++ dirMark b)) = 0 := by
  obtain ⟨hne, -, -, hh, -, hbar, hblank⟩ := hn
  have hbar' : ¬ Occurs padBar (name ++ dirMark b) := by
    cases b with
    | false => simpa [dirMark] using hbar
    | true =>
      simp only [dirMark, if_true]
      exact not_occurs_concat _ _ _ (by decide) hbar
  have hblank' : ¬ Occurs padBlank (name ++ dirMark b) := by
    cases b with
    | false => simpa [dirMark] using hblank
    | true =>
      simp only [dirMark, if_true]
      exact not_occurs_concat _ _ _ (by decide) hblank
  unfold lineDepth
  apply countUnitsFrom_eq_zero _ (not_occurs_padBar_cons_space _ hbar')
  intro h
  rcases List.infix_cons_iff.1 h with hp | hi
  · cases name with
    | nil => exact hne rfl
    | cons a t =>
      have ha := hh a rfl
      simp [padBlank] at hp
      rw [← hp.1] at ha
      simp [isJsSpace] at ha
  · exact hblank' hi

theorem nameOf_rendered (us : List Str) (conn name : Str) (b : Bool)
    (hu : ∀ u ∈ us, IsPad u) (hc : IsConnector conn) (hn : PlainName name) :
    nameOf (us.flatten ++ (conn ++ (name ++ dirMark b))) = name ++ dirMark b := by
  unfold nameOf rawNameOf
  rw [afterDashGap_pads us _ hu, afterDashGap_connector conn _ hc, Option.getD_some]
  have htw : (name ++ dirMark b).takeWhile (fun c => c != '#') = name ++ dirMark b := by
    rw [List.takeWhile_eq_self_iff]
    intro x hx
    rcases List.mem_append.1 hx with h | h
    · have : x ≠ '#' := fun e => hn.2.1 (e ▸ h)
      simpa using this
    · cases b <;> simp [dirMark] at h
      subst h; decide
  rw [htw]
  exact jsTrim_eq_self _ (plainName_mark_head name b hn) (plainName_mark_getLast name b hn)

theorem endsWithSlash_mark (name : Str) (b : Bool) (hn : PlainName name) :
    endsWithSlash (name ++ dirMark b) = b := by
  obtain ⟨hne, -, hslash, -⟩ := hn
  cases b with
  | true => simp [dirMark, endsWithSlash]
  | false =>
    simp only [dirMark, Bool.false_eq_true, if_false, List.append_nil, endsWithSlash]
    rw [List.getLast?_eq_getLast _ hne]
    have : name.getLast hne ≠ '/' := fun e => hslash (e ▸ List.getLast_mem hne)
    simpa using this

theorem stripSlash_mark (name : Str) (b : Bool) (hn : PlainName name) :
    stripSlash (name ++ dirMark b) = name := by
  unfold stripSlash
  rw [endsWithSlash_mark name b hn]
  cases b <;> simp [dirMark]

theorem decodeLine_of_plain (us : List Str) (conn name : Str) (isDirectory : Bool)
    (hu : ∀ u ∈ us, IsPad u) (hc : IsConnector conn) (hn : PlainName name) :
    decodeLine (us.flatten ++ (conn ++ (name ++ dirMark isDirectory))) =
      { depth := us.length, name := name ++ dirMark isDirectory,
        isDir := isDirectory, cleanName := name } := by
  unfold decodeLine
  rw [nameOf_rendered us conn name isDirectory hu hc hn, endsWithSlash_mark name _ hn,
    stripSlash_mark name _ hn, lineDepth_shape us conn _ hu hc,
    plainName_mark_depth name _ hn]
  rfl

/-- C3.  Line-level round trip: the rendered line `prefix + connector + name + mark`, with a
prefix of `d` pads and a plain name, decodes to depth `d`, to the directory flag it was
rendered with and to the bare name it was rendered from. -/
theorem decodeLine_rendered (us : List Str) (conn name : Str) (isDirectory : Bool)
    (hu : ∀ u ∈ us, IsPad u) (hc : IsConnector conn) (hn : PlainName name) :
    decodeLine (us.flatten ++ (conn ++ (name ++ dirMark isDirectory))) =
      { depth := us.length, name := name ++ dirMark isDirectory,
        isDir := isDirectory, cleanName := name } :=
  decodeLine_of_plain us conn name isDirectory hu hc hn

/-- Witness for C3: the line `'│   └── main.txt'`. -/
theorem decodeLine_rendered_witness :
    decodeLine ([padBar].flatten ++ (connCorner ++ ("main.txt".toList ++ dirMark false))) =
      { depth := [padBar].length, name := "main.txt".toList ++ dirMark false,
        isDir := false, cleanName := "main.txt".toList } :=
  decodeLine_rendered [padBar] connCorner "main.txt".toList false
    (by intro u hu; simp at hu; exact Or.inl hu) (Or.inr rfl) (by decide)

theorem afterFirstConnector_connector (c rest : Str) (hc : IsConnector c) :
    afterFirstConnector (c ++ rest) = some rest := by
  rcases hc with rfl | rfl <;>
    simp [connBranch, connCorner, afterFirstConnector, List.isPrefixOf]

theorem afterFirstConnector_before (pre conn rest : Str) (hc : IsConnector conn)
    (h1 : ¬ Occurs dashGap pre) :
    afterFirstConnector (pre ++ (conn ++ rest)) = some rest := by
  induction pre with
  | nil => simpa using afterFirstConnector_connector conn rest hc
  | cons c pre ih =>
    have hpre : ¬ (connBranch.isPrefixOf (c :: (pre ++ (conn ++ rest))) ||
        connCorner.isPrefixOf (c :: (pre ++ (conn ++ rest)))) = true := by
      intro h
      have hgap : dashGap <+: pre ++ (conn ++ rest) := by
        rw [Bool.or_eq_true] at h
        rcases h with h | h
        · have hp := List.isPrefixOf_iff_prefix.1 h
          rw [connBranch, List.cons_prefix_cons] at hp
          exact hp.2
        · have hp := List.isPrefixOf_iff_prefix.1 h
          rw [connCorner, List.cons_prefix_cons] at hp
          exact hp.2
      match pre, h1 with
      | [], _ =>
        rcases hc with rfl | rfl <;> simp [dashGap, connBranch, connCorner] at hgap
      | [a], _ =>
        rcases hc with rfl | rfl <;> simp [dashGap, connBranch, connCorner] at hgap
      | [a, b], _ =>
        rcases hc with rfl | rfl <;> simp [dashGap, connBranch, connCorner] at hgap
      | a :: b :: d :: tl, h1 =>
        apply h1
        have : dashGap <+: a :: b :: d :: tl := by
          simp [dashGap] at hgap ⊢
          obtain ⟨h1, h2, h3⟩ := hgap
          exact ⟨h1, h2, h3⟩
        exact List.infix_cons this.isInfix
    rw [List.cons_append, afterFirstConnector, if_neg hpre]
    exact ih (fun h => h1 (List.infix_cons h))

/-- C4 (amended).  Comment stripping.  For every line the decoded name has no `'#'` and no
white space at either end.  When the line is `pre + connector + rest` and `pre` holds no
`'── '` and no line terminator, the connector is the first one of the line and the decoded
name is the text after it, `rest`, cut at its first `'#'` and trimmed.  The line
`'├── foo.txt  # note'` decodes to depth 0, name `foo.txt`, not a directory. -/
theorem nameOf_comment_stripping :
    (∀ line : Str, '#' ∉ nameOf line ∧ (∀ c ∈ (nameOf line).head?, isJsSpace c = false) ∧
      (∀ c ∈ (nameOf line).getLast?, isJsSpace c = false)) ∧
    (∀ pre conn rest : Str, IsConnector conn → ¬ Occurs dashGap pre →
      (∀ c ∈ pre, isLineTerminator c = false) →
      nameOf (pre ++ (conn ++ rest)) = jsTrim (rest.takeWhile (fun c => c != '#')) ∧
      nameAfterFirstConnector (pre ++ (conn ++ rest)) = some (nameOf (pre ++ (conn ++ rest)))) ∧
    decodeLine "├── foo.txt  # note".toList =
      { depth := 0, name := "foo.txt".toList, isDir := false, cleanName := "foo.txt".toList } := by
  refine ⟨fun line => ⟨?_, ?_, ?_⟩, ?_, by decide⟩
  · intro h
    exact not_mem_takeWhile_ne '#' _ (mem_of_mem_jsTrim _ _ h)
  · intro c hc
    exact jsTrim_head _ c hc
  · intro c hc
    exact jsTrim_getLast _ c hc
  · intro pre conn rest hc h1 h2
    have hname : nameOf (pre ++ (conn ++ rest)) =
        jsTrim (rest.takeWhile (fun c => c != '#')) := by
      unfold nameOf rawNameOf
      rw [afterDashGap_before pre conn rest hc h1 h2, Option.getD_some]
    refine ⟨hname, ?_⟩
    rw [hname]
    unfold nameAfterFirstConnector
    rw [afterFirstConnector_before pre conn rest hc h1]
    rfl

/-- Witness for C4 (amended): the line `'│   ├── a.txt # x'`, read as `pre = '│   '`. -/
theorem nameOf_comment_stripping_witness :
    IsConnector connBranch ∧ ¬ Occurs dashGap padBar ∧
    (∀ c ∈ padBar, isLineTerminator c = false) ∧
    nameOf (padBar ++ (connBranch ++ "a.txt # x".toList)) =
      jsTrim ("a.txt # x".toList.takeWhile (fun c => c != '#')) ∧
    nameAfterFirstConnector (padBar ++ (connBranch ++ "a.txt # x".toList)) =
      some (nameOf (padBar ++ (connBranch ++ "a.txt # x".toList))) :=
  ⟨Or.inl rfl, by decide, by decide,
    nameOf_comment_stripping.2.1 padBar connBranch "a.txt # x".toList (Or.inl rfl)
      (by decide) (by decide)⟩

/-- C4 as stated fails: the line `'a── b├── c'` contains the connector `'├── '`, and the text
after its first connector is `c`, but the name the builders decode is `b├── c`: the
regular expression stops at the first `'── '`, which here is not part of a connector.
Likewise a carriage return before the connector keeps the expression from matching, and
the line `'\r├── x'` decodes to the name `├── x`. -/
theorem nameOf_not_after_first_connector :
    (nameAfterFirstConnector "a── b├── c".toList = some "c".toList ∧
      nameOf "a── b├── c".toList = "b├── c".toList ∧
      some (nameOf "a── b├── c".toList) ≠ nameAfterFirstConnector "a── b├── c".toList) ∧
    (nameAfterFirstConnector "\r├── x".toList = some "x".toList ∧
      nameOf "\r├── x".toList = "├── x".toList) := by
  refine ⟨⟨by decide, by decide, by decide⟩, by decide, by decide⟩

/-! ## The renderer: the loop -/

/-- The text of the loop with the last entry recognised by position in the remaining list. -/
theorem emitEntries_cons (descend : Entry → Str → Str) (pfx : Str) (index : Nat)
    (entry : Entry) (rest : List Entry) :
    emitEntries descend pfx ((index + (entry :: rest).length : Nat) - 1) index (entry :: rest) =
      (pfx ++ (if rest.isEmpty then connCorner else connBranch) ++ entry.name ++
        dirMark entry.isDirectory ++ ['\n']) ++
      (if entry.isDirectory then
        descend entry (pfx ++ (if rest.isEmpty then padBlank else padBar)) else []) ++
      emitEntries descend pfx ((index + 1 + rest.length : Nat) - 1) (index + 1) rest := by
  have hlast : decide ((index : Int) = ((index + (entry :: rest).length : Nat) : Int) - 1) =
      rest.isEmpty := by
    cases rest with
    | nil => simp
    | cons a t =>
      simp only [List.length_cons, List.isEmpty_cons, decide_eq_false_iff_not]
      push_cast; omega
  have hidx : ((index + (entry :: rest).length : Nat) : Int) - 1 =
      ((index + 1 + rest.length : Nat) : Int) - 1 := by
    simp only [List.length_cons]; push_cast; omega
  rw [emitEntries]
  simp only [hlast]
  rw [hidx]

theorem emitEntries_eq_emitText (descend : Entry → Str → Str) (pfx : Str)
    (entries : List Entry) (index : Nat) :
    emitEntries descend pfx ((index + entries.length : Nat) - 1) index entries =
      emitText descend pfx entries := by
  induction entries generalizing index with
  | nil => simp [emitEntries, emitText]
  | cons entry rest ih =>
    rw [emitEntries_cons, ih (index + 1), emitText]

theorem generateTree_unfold (lc : Str → Str → Int) (dir : List Entry) (pfx : Str)
    (ign : List Str) (depth maxDepth : Nat) :
    generateTree lc dir pfx ign depth maxDepth =
      if depth > maxDepth then []
      else emitText (fun entry nextPrefix =>
          generateTree lc entry.children nextPrefix ign (depth + 1) maxDepth)
        pfx (visibleEntries lc ign dir) := by
  rw [generateTree]
  split
  · rfl
  · have := emitEntries_eq_emitText (fun entry nextPrefix =>
        generateTree lc entry.children nextPrefix ign (depth + 1) maxDepth)
      pfx (visibleEntries lc ign dir) 0
    simp only [Nat.zero_add] at this
    exact this

theorem emitText_congr (d1 d2 : Entry → Str → Str) (pfx : Str) (entries : List Entry)
    (h : ∀ e ∈ entries, ∀ p, d1 e p = d2 e p) :
    emitText d1 pfx entries = emitText d2 pfx entries := by
  induction entries with
  | nil => rfl
  | cons e rest ih =>
    rw [emitText, emitText, h e (List.mem_cons_self _ _),
      ih (fun x hx p => h x (List.mem_cons_of_mem _ hx) p)]

theorem emitText_map (f : Entry → Entry) (descend : Entry → Str → Str) (pfx : Str)
    (entries : List Entry)
    (hn : ∀ e ∈ entries, (f e).name = e.name ∧ (f e).isDirectory = e.isDirectory) :
    emitText descend pfx (entries.map f) =
      emitText (fun e p => descend (f e) p) pfx entries := by
  induction entries with
  | nil => rfl
  | cons e rest ih =>
    obtain ⟨h1, h2⟩ := hn e (List.mem_cons_self _ _)
    have he : (List.map f rest).isEmpty = rest.isEmpty := by cases rest <;> rfl
    rw [List.map_cons, emitText, emitText, ih (fun x hx => hn x (List.mem_cons_of_mem _ hx)),
      h1, h2, he]

/-! ## Ignore filtering -/

theorem prune_name (ign : List Str) (e : Entry) : (e.prune ign).name = e.name := by
  cases e <;> simp [Entry.prune, Entry.name]

theorem prune_isDirectory (ign : List Str) (e : Entry) :
    (e.prune ign).isDirectory = e.isDirectory := by
  cases e <;> simp [Entry.prune, Entry.isDirectory]

theorem prune_children (ign : List Str) (e : Entry) :
    (e.prune ign).children = pruneList ign e.children := by
  cases e <;> simp [Entry.prune, Entry.children, pruneList]

theorem pruneList_eq (ign : List Str) (dir : List Entry) :
    pruneList ign dir =
      (dir.filter (fun entry => !ign.contains entry.name)).map (Entry.prune ign) := by
  induction dir with
  | nil => simp [pruneList]
  | cons e es ih =>
    rw [pruneList]
    by_cases h : ign.contains e.name = true
    · rw [if_pos h, ih, List.filter_cons_of_neg (by simp only [h]; decide)]
    · rw [if_neg h, ih, List.filter_cons_of_pos (by simpa using h), List.map_cons]

theorem compareEntries_prune (lc : Str → Str → Int) (ign : List Str) (a b : Entry) :
    compareEntries lc (a.prune ign) (b.prune ign) = compareEntries lc a b := by
  simp [compareEntries, prune_name, prune_isDirectory]

theorem visibleEntries_prune (lc : Str → Str → Int) (ign : List Str) (dir : List Entry) :
    visibleEntries lc [] (pruneList ign dir) =
      (visibleEntries lc ign dir).map (Entry.prune ign) := by
  unfold visibleEntries
  rw [pruneList_eq]
  have h0 : ∀ l : List Entry, l.filter (fun entry => !([] : List Str).contains entry.name) = l := by
    intro l; simp
  rw [h0]
  symm
  apply List.map_insertionSort
  intro a _ b _
  simp [entryLe, compareEntries_prune]

theorem generateTree_prune_aux (lc : Str → Str → Int) (ign : List Str) (maxDepth : Nat) :
    ∀ (n depth : Nat), maxDepth + 1 - depth = n → ∀ (dir : List Entry) (pfx : Str),
      generateTree lc dir pfx ign depth maxDepth =
        generateTree lc (pruneList ign dir) pfx [] depth maxDepth := by
  intro n
  induction n with
  | zero =>
    intro depth hn dir pfx
    rw [generateTree_unfold, generateTree_unfold, if_pos (by omega), if_pos (by omega)]
  | succ n ih =>
    intro depth hn dir pfx
    rw [generateTree_unfold, generateTree_unfold lc (pruneList ign dir)]
    rw [if_neg (by omega), if_neg (by omega), visibleEntries_prune, emitText_map]
    · apply emitText_congr
      intro e _ p
      simp only [prune_children]
      exact ih (depth + 1) (by omega) e.children p
    · intro e _
      exact ⟨prune_name ign e, prune_isDirectory ign e⟩

/-- The rendering of the sample tree under the root name `root` is the text of the
concrete scenario, with the line feed that ends its last line. -/
theorem renderedText_sample :
    renderedText codePointCompare "root".toList sampleTree ["node_modules".toList] 20 =
      sampleText ++ ['\n'] := by
  unfold renderedText
  rw [generateTree_unfold]
  simp only [sampleTree, visibleEntries, List.filter, List.contains, List.elem, Entry.name,
    List.insertionSort, List.orderedInsert, entryLe, compareEntries, Entry.isDirectory]
  simp [emitText, generateTree_unfold, visibleEntries, Entry.children, Entry.name,
    Entry.isDirectory, dirMark, connBranch, connCorner, padBar, padBlank, sampleText]

/-! ## Lines and text -/

theorem renderLines_nil : renderLines [] = [] := rfl

theorem renderLines_cons (l : TreeLine) (ls : List TreeLine) :
    renderLines (l :: ls) = l.text ++ ['\n'] ++ renderLines ls := by
  simp [renderLines]

theorem renderLines_append (ls ls' : List TreeLine) :
    renderLines (ls ++ ls') = renderLines ls ++ renderLines ls' := by
  simp [renderLines]

theorem renderLines_emitLines (dL : Entry → List Str → List TreeLine)
    (dT : Entry → Str → Str) (pads : List Str) (entries : List Entry)
    (h : ∀ e ∈ entries, ∀ ps, renderLines (dL e ps) = dT e ps.flatten) :
    renderLines (emitLines dL pads entries) = emitText dT pads.flatten entries := by
  induction entries with
  | nil => rfl
  | cons e rest ih =>
    rw [emitLines, emitText, renderLines_cons, renderLines_append,
      ih (fun x hx => h x (List.mem_cons_of_mem _ hx))]
    have hd : renderLines (if e.isDirectory then
          dL e (pads ++ [if rest.isEmpty then padBlank else padBar]) else []) =
        (if e.isDirectory then
          dT e (pads.flatten ++ (if rest.isEmpty then padBlank else padBar)) else []) := by
      split
      · rw [h e (List.mem_cons_self _ _)]; simp
      · rfl
    rw [hd]
    simp [TreeLine.text]

theorem treeLines_unfold (lc : Str → Str → Int) (dir : List Entry) (pads : List Str)
    (ign : List Str) (depth maxDepth : Nat) :
    treeLines lc dir pads ign depth maxDepth =
      if depth > maxDepth then []
      else emitLines (fun entry nextPads =>
          treeLines lc entry.children nextPads ign (depth + 1) maxDepth)
        pads (visibleEntries lc ign dir) := by
  rw [treeLines]

theorem generateTree_eq_renderLines_aux (lc : Str → Str → Int) (ign : List Str)
    (maxDepth : Nat) :
    ∀ (n depth : Nat), maxDepth + 1 - depth = n → ∀ (dir : List Entry) (pads : List Str),
      generateTree lc dir pads.flatten ign depth maxDepth =
        renderLines (treeLines lc dir pads ign depth maxDepth) := by
  intro n
  induction n with
  | zero =>
    intro depth hn dir pads
    rw [generateTree_unfold, treeLines_unfold, if_pos (by omega), if_pos (by omega)]
    rfl
  | succ n ih =>
    intro depth hn dir pads
    rw [generateTree_unfold, treeLines_unfold, if_neg (by omega), if_neg (by omega)]
    symm
    apply renderLines_emitLines
    intro e _ ps
    exact (ih (depth + 1) (by omega) e.children ps).symm

/-- The text of `generateTree` is the text of its lines. -/
theorem generateTree_eq_renderLines (lc : Str → Str → Int) (dir : List Entry)
    (pads : List Str) (ign : List Str) (depth maxDepth : Nat) :
    generateTree lc dir pads.flatten ign depth maxDepth =
      renderLines (treeLines lc dir pads ign depth maxDepth) :=
  generateTree_eq_renderLines_aux lc ign maxDepth _ depth rfl dir pads

theorem mem_emitLines (dL : Entry → List Str → List TreeLine) (pads : List Str)
    (entries : List Entry) (l : TreeLine) (h : l ∈ emitLines dL pads entries) :
    (l.pads = pads ∧ ∃ e ∈ entries, l.name = e.name ∧ l.isDirectory = e.isDirectory) ∨
    (∃ e ∈ entries, ∃ pad, IsPad pad ∧ e.isDirectory = true ∧ l ∈ dL e (pads ++ [pad])) := by
  induction entries with
  | nil => simp [emitLines] at h
  | cons e rest ih =>
    rw [emitLines, List.mem_cons, List.mem_append] at h
    rcases h with h | h | h
    · left
      subst h
      exact ⟨rfl, e, List.mem_cons_self _ _, rfl, rfl⟩
    · right
      by_cases hd : e.isDirectory = true
      · rw [if_pos hd] at h
        refine ⟨e, List.mem_cons_self _ _, _, ?_, hd, h⟩
        unfold IsPad
        split <;> simp
      · rw [if_neg hd] at h
        simp at h
    · rcases ih h with ⟨h1, x, hx, h2⟩ | ⟨x, hx, h2⟩
      · left; exact ⟨h1, x, List.mem_cons_of_mem _ hx, h2⟩
      · right; exact ⟨x, List.mem_cons_of_mem _ hx, h2⟩

theorem mem_visibleEntries (lc : Str → Str → Int) (ign : List Str) (dir : List Entry)
    (e : Entry) : e ∈ visibleEntries lc ign dir ↔ e ∈ dir ∧ e.name ∉ ign := by
  unfold visibleEntries
  rw [List.mem_insertionSort, List.mem_filter]
  simp

theorem treeLines_name_not_ignored_aux (lc : Str → Str → Int) (ign : List Str)
    (maxDepth : Nat) :
    ∀ (n depth : Nat), maxDepth + 1 - depth = n → ∀ (dir : List Entry) (pads : List Str),
      ∀ l ∈ treeLines lc dir pads ign depth maxDepth, l.name ∉ ign := by
  intro n
  induction n with
  | zero =>
    intro depth hn dir pads l hl
    rw [treeLines_unfold, if_pos (by omega)] at hl
    simp at hl
  | succ n ih =>
    intro depth hn dir pads l hl
    rw [treeLines_unfold, if_neg (by omega)] at hl
    rcases mem_emitLines _ _ _ _ hl with ⟨-, e, he, h1, -⟩ | ⟨e, -, pad, -, -, h⟩
    · rw [h1]
      exact ((mem_visibleEntries lc ign dir e).1 he).2
    · exact ih (depth + 1) (by omega) e.children _ l h

/-- C5.  Ignore filtering: rendering a tree under an ignore set gives the text of rendering,
under the empty ignore set, the tree with every ignored entry removed together with all
that is below it; and no line of the rendering carries an ignored name, at any depth. -/
theorem generateTree_ignore (lc : Str → Str → Int) (dir : List Entry) (pads : List Str)
    (ign : List Str) (depth maxDepth : Nat) :
    (∀ pfx : Str, generateTree lc dir pfx ign depth maxDepth =
      generateTree lc (pruneList ign dir) pfx [] depth maxDepth) ∧
    generateTree lc dir pads.flatten ign depth maxDepth =
      renderLines (treeLines lc dir pads ign depth maxDepth) ∧
    ∀ l ∈ treeLines lc dir pads ign depth maxDepth, l.name ∉ ign :=
  ⟨fun pfx => generateTree_prune_aux lc ign maxDepth _ depth rfl dir pfx,
    generateTree_eq_renderLines lc dir pads ign depth maxDepth,
    treeLines_name_not_ignored_aux lc ign maxDepth _ depth rfl dir pads⟩

/-! ## Depth of the lines -/

theorem treeLines_depth_aux (lc : Str → Str → Int) (ign : List Str) (maxDepth : Nat) :
    ∀ (n depth : Nat), maxDepth + 1 - depth = n → ∀ (dir : List Entry) (pads : List Str),
      ∀ l ∈ treeLines lc dir pads ign depth maxDepth,
        pads.length ≤ l.depth ∧ l.depth + depth ≤ pads.length + maxDepth ∧
        ∀ u ∈ l.pads, (∀ v ∈ pads, IsPad v) → IsPad u := by
  intro n
  induction n with
  | zero =>
    intro depth hn dir pads l hl
    rw [treeLines_unfold, if_pos (by omega)] at hl
    simp at hl
  | succ n ih =>
    intro depth hn dir pads l hl
    rw [treeLines_unfold, if_neg (by omega)] at hl
    rcases mem_emitLines _ _ _ _ hl with ⟨h1, -⟩ | ⟨e, -, pad, hpad, -, h⟩
    · unfold TreeLine.depth
      rw [h1]
      exact ⟨le_refl _, by omega, fun u hu hv => hv u hu⟩
    · obtain ⟨h1, h2, h3⟩ := ih (depth + 1) (by omega) e.children _ l h
      simp only [List.length_append, List.length_singleton] at h1 h2
      refine ⟨by omega, by omega, fun u hu hv => h3 u hu ?_⟩
      intro v hv'
      rcases List.mem_append.1 hv' with h | h
      · exact hv v h
      · simp at h; subst h; exact hpad

/-! ## Sibling order -/

theorem entryLe_total (lc : Str → Str → Int) (htotal : ∀ a b, lc a b ≤ 0 ∨ lc b a ≤ 0)
    (a b : Entry) : entryLe lc a b ∨ entryLe lc b a := by
  unfold entryLe compareEntries
  cases ha : a.isDirectory <;> cases hb : b.isDirectory <;> simp
  · exact htotal _ _
  · exact htotal _ _

theorem entryLe_trans (lc : Str → Str → Int)
    (htrans : ∀ a b c, lc a b ≤ 0 → lc b c ≤ 0 → lc a c ≤ 0)
    (a b c : Entry) : entryLe lc a b → entryLe lc b c → entryLe lc a c := by
  unfold entryLe compareEntries
  cases ha : a.isDirectory <;> cases hb : b.isDirectory <;> cases hc : c.isDirectory <;>
    simp <;> exact htrans _ _ _

theorem entryLe_spec (lc : Str → Str → Int) (a b : Entry) (h : entryLe lc a b) :
    (b.isDirectory = true → a.isDirectory = true) ∧
    (a.isDirectory = b.isDirectory → lc a.name b.name ≤ 0) := by
  unfold entryLe compareEntries at h
  revert h
  cases ha : a.isDirectory <;> cases hb : b.isDirectory <;> simp

theorem visibleEntries_sorted (lc : Str → Str → Int)
    (htotal : ∀ a b, lc a b ≤ 0 ∨ lc b a ≤ 0)
    (htrans : ∀ a b c, lc a b ≤ 0 → lc b c ≤ 0 → lc a c ≤ 0)
    (ign : List Str) (dir : List Entry) :
    (visibleEntries lc ign dir).Pairwise (entryLe lc) := by
  haveI : IsTotal Entry (entryLe lc) := ⟨entryLe_total lc htotal⟩
  haveI : IsTrans Entry (entryLe lc) := ⟨entryLe_trans lc htrans⟩
  exact List.sorted_insertionSort (entryLe lc) _

theorem childLines_emitLines (dL : Entry → List Str → List TreeLine) (pads : List Str)
    (entries : List Entry)
    (hdeep : ∀ e ps, ∀ l ∈ dL e ps, ps.length ≤ l.depth) :
    ((emitLines dL pads entries).filter (fun l => l.depth = pads.length)).map
        (fun l => (l.name, l.isDirectory)) =
      entries.map (fun e => (e.name, e.isDirectory)) := by
  induction entries with
  | nil => rfl
  | cons e rest ih =>
    rw [emitLines, List.filter_cons_of_pos (by simp [TreeLine.depth]), List.filter_append,
      List.map_cons, List.map_append, ih]
    have hnil : List.filter (fun l => decide (l.depth = pads.length))
        (if e.isDirectory then dL e (pads ++ [if rest.isEmpty then padBlank else padBar])
          else []) = [] := by
      rw [List.filter_eq_nil_iff]
      intro l hl
      split at hl
      · have := hdeep _ _ l hl
        simp only [List.length_append, List.length_singleton] at this
        simp only [decide_eq_true_eq]
        omega
      · simp at hl
    rw [hnil]
    rfl

/-- C6.  Sibling order.  With `localeCompare` a total and transitive order on names, the
lines `generateTree` emits for the children of a directory (the lines at the depth of the
call) are, in output order, the lines of the listed entries, every directory line stands
before every file line, and within the directories and within the files the names do not
decrease. -/
theorem generateTree_sibling_order (lc : Str → Str → Int)
    (htotal : ∀ a b, lc a b ≤ 0 ∨ lc b a ≤ 0)
    (htrans : ∀ a b c, lc a b ≤ 0 → lc b c ≤ 0 → lc a c ≤ 0)
    (dir : List Entry) (pads : List Str) (ign : List Str) (depth maxDepth : Nat) :
    generateTree lc dir pads.flatten ign depth maxDepth =
      renderLines (treeLines lc dir pads ign depth maxDepth) ∧
    (depth ≤ maxDepth →
      ((treeLines lc dir pads ign depth maxDepth).filter
          (fun l => l.depth = pads.length)).map (fun l => (l.name, l.isDirectory)) =
        (visibleEntries lc ign dir).map (fun e => (e.name, e.isDirectory))) ∧
    ((treeLines lc dir pads ign depth maxDepth).filter
        (fun l => l.depth = pads.length)).Pairwise
      (fun a b => (b.isDirectory = true → a.isDirectory = true) ∧
        (a.isDirectory = b.isDirectory → lc a.name b.name ≤ 0)) := by
  have hkey : depth ≤ maxDepth →
      ((treeLines lc dir pads ign depth maxDepth).filter
          (fun l => l.depth = pads.length)).map (fun l => (l.name, l.isDirectory)) =
        (visibleEntries lc ign dir).map (fun e => (e.name, e.isDirectory)) := by
    intro hd
    rw [treeLines_unfold, if_neg (by omega)]
    apply childLines_emitLines
    intro e ps l hl
    exact (treeLines_depth_aux lc ign maxDepth _ (depth + 1) rfl e.children ps l hl).1
  refine ⟨generateTree_eq_renderLines lc dir pads ign depth maxDepth, hkey, ?_⟩
  by_cases hd : depth ≤ maxDepth
  · have hs := visibleEntries_sorted lc htotal htrans ign dir
    have hs' : ((visibleEntries lc ign dir).map (fun e => (e.name, e.isDirectory))).Pairwise
        (fun a b : Str × Bool => (b.2 = true → a.2 = true) ∧ (a.2 = b.2 → lc a.1 b.1 ≤ 0)) := by
      rw [List.pairwise_map]
      exact hs.imp (fun {a b} h => entryLe_spec lc a b h)
    rw [← hkey hd, List.pairwise_map] at hs'
    exact hs'
  · rw [treeLines_unfold, if_pos (by omega)]
    simp

theorem codePointCompare_le (a b : Str) : codePointCompare a b ≤ 0 ↔ a ≤ b := by
  unfold codePointCompare
  by_cases h : a = b
  · simp [h]
  · by_cases h2 : a < b
    · simp [h, h2, le_of_lt h2]
    · simp [h, h2]
      exact lt_of_le_of_ne (le_of_not_lt h2) (Ne.symm h)

theorem codePointCompare_total (a b : Str) :
    codePointCompare a b ≤ 0 ∨ codePointCompare b a ≤ 0 := by
  rw [codePointCompare_le, codePointCompare_le]; exact le_total a b

theorem codePointCompare_trans (a b c : Str) :
    codePointCompare a b ≤ 0 → codePointCompare b c ≤ 0 → codePointCompare a c ≤ 0 := by
  rw [codePointCompare_le, codePointCompare_le, codePointCompare_le]; exact le_trans

theorem codePointCompare_antisymm (a b : Str) :
    codePointCompare a b ≤ 0 → codePointCompare b a ≤ 0 → a = b := by
  rw [codePointCompare_le, codePointCompare_le]; exact le_antisymm

/-- Witness for C6: the sample tree under the comparison by code points. -/
theorem generateTree_sibling_order_witness :
    generateTree codePointCompare sampleTree ([] : List Str).flatten [] 0 20 =
      renderLines (treeLines codePointCompare sampleTree [] [] 0 20) ∧
    (0 ≤ 20 →
      ((treeLines codePointCompare sampleTree [] [] 0 20).filter
          (fun l => l.depth = ([] : List Str).length)).map (fun l => (l.name, l.isDirectory)) =
        (visibleEntries codePointCompare [] sampleTree).map
          (fun e => (e.name, e.isDirectory))) ∧
    ((treeLines codePointCompare sampleTree [] [] 0 20).filter
        (fun l => l.depth = ([] : List Str).length)).Pairwise
      (fun a b => (b.isDirectory = true → a.isDirectory = true) ∧
        (a.isDirectory = b.isDirectory → codePointCompare a.name b.name ≤ 0)) :=
  generateTree_sibling_order codePointCompare codePointCompare_total codePointCompare_trans
    sampleTree [] [] 0 20

/-! ## Depth limit -/

theorem cut_name (f : List Entry → List Entry) (e : Entry) : (e.cut f).name = e.name := by
  cases e <;> rfl

theorem cut_isDirectory (f : List Entry → List Entry) (e : Entry) :
    (e.cut f).isDirectory = e.isDirectory := by
  cases e <;> rfl

theorem cut_children (f : List Entry → List Entry) (hf : f [] = []) (e : Entry) :
    (e.cut f).children = f e.children := by
  cases e <;> simp [Entry.cut, Entry.children, hf]

theorem cutBelow_nil (k : Nat) : cutBelow k [] = [] := by
  cases k <;> simp [cutBelow]

theorem visibleEntries_map (lc : Str → Str → Int) (ign : List Str) (f : Entry → Entry)
    (hf : ∀ e, (f e).name = e.name ∧ (f e).isDirectory = e.isDirectory) (dir : List Entry) :
    visibleEntries lc ign (dir.map f) = (visibleEntries lc ign dir).map f := by
  unfold visibleEntries
  rw [List.filter_map]
  have hfil : ((fun entry : Entry => !ign.contains entry.name) ∘ f) =
      (fun entry : Entry => !ign.contains entry.name) := by
    funext e; simp [(hf e).1]
  rw [hfil]
  symm
  apply List.map_insertionSort
  intro a _ b _
  simp [entryLe, compareEntries, (hf a).1, (hf a).2, (hf b).1, (hf b).2]

theorem generateTree_nil (lc : Str → Str → Int) (pfx : Str) (ign : List Str)
    (depth maxDepth : Nat) : generateTree lc [] pfx ign depth maxDepth = [] := by
  rw [generateTree_unfold]
  split
  · rfl
  · simp [visibleEntries, emitText]

theorem generateTree_cut_aux (lc : Str → Str → Int) (ign : List Str) (m M : Nat)
    (hM : m ≤ M) :
    ∀ (n depth : Nat), m + 1 - depth = n → ∀ (dir : List Entry) (pfx : Str),
      generateTree lc dir pfx ign depth m =
        generateTree lc (cutBelow n dir) pfx ign depth M := by
  intro n
  induction n with
  | zero =>
    intro depth hn dir pfx
    rw [generateTree_unfold, if_pos (by omega), cutBelow, generateTree_nil]
  | succ n ih =>
    intro depth hn dir pfx
    rw [generateTree_unfold, generateTree_unfold lc (cutBelow (n + 1) dir)]
    rw [if_neg (by omega), if_neg (by omega), cutBelow,
      visibleEntries_map lc ign _ (fun e => ⟨cut_name _ e, cut_isDirectory _ e⟩), emitText_map]
    · apply emitText_congr
      intro e _ p
      simp only [cut_children _ (cutBelow_nil n)]
      exact ih (depth + 1) (by omega) e.children p
    · intro e _
      exact ⟨cut_name _ e, cut_isDirectory _ e⟩

/-- C7.  Depth limit.  A call of `generateTree` at depth `d ≤ maxDepth` emits one line for
every listed entry; below a listed directory it emits nothing when `d + 1 > maxDepth` and
the rendering of the directory's listing otherwise.  No line has more prefix units than
`maxDepth` allows.  The text is the one an unlimited rendering gives for the tree with the
contents of the directories at the limit removed, so the rest of the tree renders
unchanged. -/
theorem generateTree_depth_limit (lc : Str → Str → Int) (dir : List Entry)
    (pads : List Str) (ign : List Str) (depth maxDepth : Nat) :
    (depth ≤ maxDepth → ∀ pfx : Str,
      generateTree lc dir pfx ign depth maxDepth =
        emitText (fun entry nextPrefix =>
            if depth + 1 > maxDepth then []
            else emitText (fun sub subPrefix =>
                generateTree lc sub.children subPrefix ign (depth + 2) maxDepth)
              nextPrefix (visibleEntries lc ign entry.children))
          pfx (visibleEntries lc ign dir)) ∧
    (generateTree lc dir pads.flatten ign depth maxDepth =
      renderLines (treeLines lc dir pads ign depth maxDepth) ∧
      ∀ l ∈ treeLines lc dir pads ign depth maxDepth,
        l.depth + depth ≤ pads.length + maxDepth) ∧
    (∀ (M : Nat) (pfx : Str), maxDepth ≤ M →
      generateTree lc dir pfx ign depth maxDepth =
        generateTree lc (cutBelow (maxDepth + 1 - depth) dir) pfx ign depth M) := by
  refine ⟨fun hd pfx => ?_, ⟨generateTree_eq_renderLines lc dir pads ign depth maxDepth,
    fun l hl => (treeLines_depth_aux lc ign maxDepth _ depth rfl dir pads l hl).2.1⟩,
    fun M pfx hM => generateTree_cut_aux lc ign maxDepth M hM _ depth rfl dir pfx⟩
  rw [generateTree_unfold, if_neg (by omega)]
  apply emitText_congr
  intro e _ p
  rw [generateTree_unfold]

/-- Witness for C7: the sample tree rendered with `maxDepth = 0`. -/
theorem generateTree_depth_limit_witness :
    (0 ≤ 0 → ∀ pfx : Str,
      generateTree codePointCompare sampleTree pfx [] 0 0 =
        emitText (fun entry nextPrefix =>
            if 0 + 1 > 0 then []
            else emitText (fun sub subPrefix =>
                generateTree codePointCompare sub.children subPrefix [] (0 + 2) 0)
              nextPrefix (visibleEntries codePointCompare [] entry.children))
          pfx (visibleEntries codePointCompare [] sampleTree)) ∧
    (generateTree codePointCompare sampleTree ([] : List Str).flatten [] 0 0 =
      renderLines (treeLines codePointCompare sampleTree [] [] 0 0) ∧
      ∀ l ∈ treeLines codePointCompare sampleTree [] [] 0 0,
        l.depth + 0 ≤ ([] : List Str).length + 0) ∧
    (∀ (M : Nat) (pfx : Str), 0 ≤ M →
      generateTree codePointCompare sampleTree pfx [] 0 0 =
        generateTree codePointCompare (cutBelow (0 + 1 - 0) sampleTree) pfx [] 0 M) :=
  generateTree_depth_limit codePointCompare sampleTree [] [] 0 0

/-! ## Ordering determinism -/

theorem sameEntry_name_eq {e e' : Entry} (h : SameEntry e e') : e.name = e'.name := by
  cases h <;> rfl

theorem sameEntry_isDirectory_eq {e e' : Entry} (h : SameEntry e e') :
    e.isDirectory = e'.isDirectory := by
  cases h <;> rfl

theorem sameEntry_children {e e' : Entry} (h : SameEntry e e') :
    SameListing e.children e'.children := by
  cases h with
  | file n => exact ⟨[], List.Perm.refl _, List.Forall₂.nil⟩
  | dir n cs mid cs' hp hf => exact ⟨mid, hp, hf⟩

theorem sameEntry_entryLe_iff (lc : Str → Str → Int) {a a' b b' : Entry}
    (ha : SameEntry a a') (hb : SameEntry b b') : entryLe lc a b ↔ entryLe lc a' b' := by
  unfold entryLe compareEntries
  rw [sameEntry_name_eq ha, sameEntry_name_eq hb, sameEntry_isDirectory_eq ha,
    sameEntry_isDirectory_eq hb]

theorem forall₂_orderedInsert (lc : Str → Str → Int) {a a' : Entry} (ha : SameEntry a a')
    {s s' : List Entry} (h : List.Forall₂ SameEntry s s') :
    List.Forall₂ SameEntry (List.orderedInsert (entryLe lc) a s)
      (List.orderedInsert (entryLe lc) a' s') := by
  induction h with
  | nil => exact List.Forall₂.cons ha List.Forall₂.nil
  | cons hb hs ih =>
    rename_i b b' t t'
    simp only [List.orderedInsert]
    by_cases hle : entryLe lc a b
    · rw [if_pos hle, if_pos ((sameEntry_entryLe_iff lc ha hb).1 hle)]
      exact List.Forall₂.cons ha (List.Forall₂.cons hb hs)
    · rw [if_neg hle, if_neg (fun h => hle ((sameEntry_entryLe_iff lc ha hb).2 h))]
      exact List.Forall₂.cons hb ih

theorem forall₂_insertionSort (lc : Str → Str → Int) {s s' : List Entry}
    (h : List.Forall₂ SameEntry s s') :
    List.Forall₂ SameEntry (List.insertionSort (entryLe lc) s)
      (List.insertionSort (entryLe lc) s') := by
  induction h with
  | nil => exact List.Forall₂.nil
  | cons ha _ ih => exact forall₂_orderedInsert lc ha ih

theorem forall₂_filter_name (p : Str → Bool) {s s' : List Entry}
    (h : List.Forall₂ SameEntry s s') :
    List.Forall₂ SameEntry (s.filter (fun e => p e.name)) (s'.filter (fun e => p e.name)) := by
  induction h with
  | nil => exact List.Forall₂.nil
  | @cons a a' t t' ha _ ih =>
    have hn := sameEntry_name_eq ha
    by_cases hp : p a.name = true
    · rw [List.filter_cons_of_pos (by simpa using hp),
        List.filter_cons_of_pos (by rw [← hn]; simpa using hp)]
      exact List.Forall₂.cons ha ih
    · rw [List.filter_cons_of_neg (by simpa using hp),
        List.filter_cons_of_neg (by rw [← hn]; simpa using hp)]
      exact ih

theorem entryLe_name_eq (lc : Str → Str → Int)
    (hanti : ∀ a b, lc a b ≤ 0 → lc b a ≤ 0 → a = b) (a b : Entry)
    (h1 : entryLe lc a b) (h2 : entryLe lc b a) : a.name = b.name := by
  unfold entryLe compareEntries at h1 h2
  revert h1 h2
  cases ha : a.isDirectory <;> cases hb : b.isDirectory <;> simp <;> exact hanti _ _

theorem eq_of_name_eq_of_nodup {l : List Entry} (hl : (l.map Entry.name).Nodup)
    {a b : Entry} (ha : a ∈ l) (hb : b ∈ l) (h : a.name = b.name) : a = b :=
  List.inj_on_of_nodup_map hl ha hb h

theorem visibleEntries_perm (lc : Str → Str → Int)
    (htotal : ∀ a b, lc a b ≤ 0 ∨ lc b a ≤ 0)
    (htrans : ∀ a b c, lc a b ≤ 0 → lc b c ≤ 0 → lc a c ≤ 0)
    (hanti : ∀ a b, lc a b ≤ 0 → lc b a ≤ 0 → a = b)
    (ign : List Str) {dir mid : List Entry} (hp : dir.Perm mid)
    (hd : (dir.map Entry.name).Nodup) :
    visibleEntries lc ign dir = visibleEntries lc ign mid := by
  have h1 := visibleEntries_sorted lc htotal htrans ign dir
  have h2 := visibleEntries_sorted lc htotal htrans ign mid
  have hperm : (visibleEntries lc ign dir).Perm (visibleEntries lc ign mid) := by
    unfold visibleEntries
    exact (List.perm_insertionSort _ _).trans
      ((hp.filter _).trans (List.perm_insertionSort _ _).symm)
  refine List.Perm.eq_of_sorted ?_ h1 h2 hperm
  intro a b ha hb hab hba
  have ha' := ((mem_visibleEntries lc ign dir a).1 ha).1
  have hb' := hp.symm.subset ((mem_visibleEntries lc ign mid b).1 hb).1
  exact eq_of_name_eq_of_nodup hd ha' hb' (entryLe_name_eq lc hanti a b hab hba)

theorem visibleEntries_forall₂ (lc : Str → Str → Int) (ign : List Str)
    {mid dir' : List Entry} (h : List.Forall₂ SameEntry mid dir') :
    List.Forall₂ SameEntry (visibleEntries lc ign mid) (visibleEntries lc ign dir') := by
  unfold visibleEntries
  exact forall₂_insertionSort lc (forall₂_filter_name (fun n => !ign.contains n) h)

theorem emitText_forall₂ (d d' : Entry → Str → Str) (pfx : Str) {es es' : List Entry}
    (h : List.Forall₂ (fun e e' => e.name = e'.name ∧ e.isDirectory = e'.isDirectory ∧
      (e.isDirectory = true → ∀ p, d e p = d' e' p)) es es') :
    emitText d pfx es = emitText d' pfx es' := by
  induction h with
  | nil => rfl
  | cons ha hs ih =>
    rename_i a a' t t'
    obtain ⟨h1, h2, h3⟩ := ha
    have he : t.isEmpty = t'.isEmpty := by
      cases hs <;> rfl
    rw [emitText, emitText, ih, h1, h2, he]
    congr 2
    by_cases hd : a'.isDirectory = true
    · rw [if_pos hd, if_pos hd, h3 (h2.trans hd)]
    · rw [if_neg hd, if_neg hd]

theorem mem_listingsOf {dir : List Entry} {e : Entry} (he : e ∈ dir) {l : List Entry}
    (hl : l ∈ e.listings) : l ∈ listingsOf dir := by
  induction dir with
  | nil => simp at he
  | cons a t ih =>
    rw [listingsOf, List.mem_append]
    rcases List.mem_cons.1 he with h | h
    · left; rw [← h]; exact hl
    · right; exact ih h

theorem allListings_children {dir : List Entry} {e : Entry} (he : e ∈ dir)
    (hdir : e.isDirectory = true) {l : List Entry} (hl : l ∈ allListings e.children) :
    l ∈ allListings dir := by
  cases e with
  | file n => simp [Entry.isDirectory] at hdir
  | dir n cs =>
    unfold allListings
    exact List.mem_cons_of_mem _ (mem_listingsOf he (by simpa [Entry.listings, allListings,
      Entry.children] using hl))

theorem distinctNames_children {dir : List Entry} (h : DistinctNames dir) {e : Entry}
    (he : e ∈ dir) (hdir : e.isDirectory = true) : DistinctNames e.children :=
  fun l hl => h l (allListings_children he hdir hl)

theorem distinctNames_root {dir : List Entry} (h : DistinctNames dir) :
    (dir.map Entry.name).Nodup :=
  h dir (List.mem_cons_self _ _)

theorem forall₂_and_mem {R : Entry → Entry → Prop} {P : Entry → Prop} {l l' : List Entry}
    (h : List.Forall₂ R l l') (hP : ∀ a ∈ l, P a) :
    List.Forall₂ (fun a b => R a b ∧ P a) l l' := by
  induction h with
  | nil => exact List.Forall₂.nil
  | @cons a b t t' hab _ ih =>
    exact List.Forall₂.cons ⟨hab, hP a (List.mem_cons_self _ _)⟩
      (ih (fun x hx => hP x (List.mem_cons_of_mem _ hx)))

theorem generateTree_same_aux (lc : Str → Str → Int)
    (htotal : ∀ a b, lc a b ≤ 0 ∨ lc b a ≤ 0)
    (htrans : ∀ a b c, lc a b ≤ 0 → lc b c ≤ 0 → lc a c ≤ 0)
    (hanti : ∀ a b, lc a b ≤ 0 → lc b a ≤ 0 → a = b)
    (ign : List Str) (maxDepth : Nat) :
    ∀ (n depth : Nat), maxDepth + 1 - depth = n → ∀ (dir dir' : List Entry) (pfx : Str),
      SameListing dir dir' → DistinctNames dir →
      generateTree lc dir pfx ign depth maxDepth =
        generateTree lc dir' pfx ign depth maxDepth := by
  intro n
  induction n with
  | zero =>
    intro depth hn dir dir' pfx _ _
    rw [generateTree_unfold, generateTree_unfold lc dir', if_pos (by omega), if_pos (by omega)]
  | succ n ih =>
    intro depth hn dir dir' pfx hsame hd
    obtain ⟨mid, hp, hf⟩ := hsame
    rw [generateTree_unfold, generateTree_unfold lc dir', if_neg (by omega), if_neg (by omega)]
    have hmem : ∀ a ∈ visibleEntries lc ign mid, a ∈ dir := fun a ha =>
      hp.symm.subset ((mem_visibleEntries lc ign mid a).1 ha).1
    rw [visibleEntries_perm lc htotal htrans hanti ign hp (distinctNames_root hd)]
    apply emitText_forall₂
    refine (forall₂_and_mem (visibleEntries_forall₂ lc ign hf) hmem).imp ?_
    intro e e' ⟨hs, he⟩
    refine ⟨sameEntry_name_eq hs, sameEntry_isDirectory_eq hs, fun hdir p => ?_⟩
    exact ih (depth + 1) (by omega) e.children e'.children p (sameEntry_children hs)
      (distinctNames_children hd he hdir)

/-- C8.  Ordering determinism.  With `localeCompare` a total order on names and sibling
names distinct, `generateTree` returns the same text whatever order the listing of each
directory is returned in. -/
theorem generateTree_order_independent (lc : Str → Str → Int)
    (htotal : ∀ a b, lc a b ≤ 0 ∨ lc b a ≤ 0)
    (htrans : ∀ a b c, lc a b ≤ 0 → lc b c ≤ 0 → lc a c ≤ 0)
    (hanti : ∀ a b, lc a b ≤ 0 → lc b a ≤ 0 → a = b)
    (dir dir' : List Entry) (pfx : Str) (ign : List Str) (depth maxDepth : Nat)
    (hsame : SameListing dir dir') (hd : DistinctNames dir) :
    generateTree lc dir pfx ign depth maxDepth =
      generateTree lc dir' pfx ign depth maxDepth :=
  generateTree_same_aux lc htotal htrans hanti ign maxDepth _ depth rfl dir dir' pfx hsame hd

theorem sampleTree_same : SameListing sampleTree sampleTreeSwapped :=
  ⟨[.dir "src".toList [.file "main.txt".toList], .file "README.md".toList],
    List.Perm.swap _ _ _,
    List.Forall₂.cons
      (SameEntry.dir _ _ _ _ (List.Perm.refl _)
        (List.Forall₂.cons (SameEntry.file _) List.Forall₂.nil))
      (List.Forall₂.cons (SameEntry.file _) List.Forall₂.nil)⟩

/-- Witness for C8: the sample tree and the same tree listed in the other order. -/
theorem generateTree_order_independent_witness :
    SameListing sampleTree sampleTreeSwapped ∧ DistinctNames sampleTree ∧
    generateTree codePointCompare sampleTree [] ["node_modules".toList] 0 20 =
      generateTree codePointCompare sampleTreeSwapped [] ["node_modules".toList] 0 20 :=
  ⟨sampleTree_same, by decide,
    generateTree_order_independent codePointCompare codePointCompare_total
      codePointCompare_trans codePointCompare_antisymm sampleTree sampleTreeSwapped []
      ["node_modules".toList] 0 20 sampleTree_same (by decide)⟩

/-! ## The concrete scenario -/

/-- C9.  The concrete scenario: on the text of the specification, against the target `/out`
of an empty filesystem, the build with `createFiles = true` leaves exactly the directories
`/out` and `/out/src` and the empty files `/out/src/main.txt` and `/out/README.md`; with
`createFiles = false` it leaves exactly the directories `/out` and `/out/src` and writes
no file. -/
theorem buildStructureFromTree_sample :
    (buildStructureFromTree posixFs [] sampleText ["out".toList] true).map BuildState.outcome =
      some
        ([(["out".toList, "README.md".toList], Node.file []),
          (["out".toList, "src".toList, "main.txt".toList], Node.file []),
          (["out".toList, "src".toList], Node.dir),
          (["out".toList], Node.dir)],
         [FsOp.mkdirTarget ["out".toList],
          FsOp.mkdirEntry ["out".toList, "src".toList],
          FsOp.mkdirParent ["out".toList, "src".toList],
          FsOp.writeFile ["out".toList, "src".toList, "main.txt".toList],
          FsOp.mkdirParent ["out".toList],
          FsOp.writeFile ["out".toList, "README.md".toList]]) ∧
    (buildStructureFromTree posixFs [] sampleText ["out".toList] false).map BuildState.outcome =
      some
        ([(["out".toList, "src".toList], Node.dir), (["out".toList], Node.dir)],
         [FsOp.mkdirTarget ["out".toList], FsOp.mkdirEntry ["out".toList, "src".toList]]) := by
  constructor <;> decide

/-! ## The flag `createFiles` -/

theorem writtenFiles_append (a b : List FsOp) :
    writtenFiles (a ++ b) = writtenFiles a ++ writtenFiles b := by
  induction a with
  | nil => rfl
  | cons o a ih => cases o <;> simp [writtenFiles, ih]

theorem pushedDirs_append (a b : List FsOp) :
    pushedDirs (a ++ b) = pushedDirs a ++ pushedDirs b := by
  induction a with
  | nil => rfl
  | cons o a ih => cases o <;> simp [pushedDirs, ih]

theorem buildLine_false_of_isDir {σ : Type} (api : FsApi σ) (st : BuildState σ) (line : Str)
    (h : (decodeLine line).isDir = true) :
    buildLine api false st line = buildLine api true st line := by
  unfold buildLine
  simp [h]

theorem buildLine_false_of_not_isDir {σ : Type} (api : FsApi σ) (st : BuildState σ)
    (line : Str) (h : (decodeLine line).isDir = false) :
    buildLine api false st line = st := by
  unfold buildLine
  simp [h]

theorem applyEntry_isDir_writtenFiles {σ : Type} (api : FsApi σ) (st : BuildState σ)
    (d : Decoded) (h : d.isDir = true) :
    writtenFiles (applyEntry api st d).ops = writtenFiles st.ops := by
  unfold applyEntry
  simp only [h, if_true]
  split
  · rfl
  · split
    · rfl
    · simp [writtenFiles_append, writtenFiles]

theorem buildLine_false_writtenFiles {σ : Type} (api : FsApi σ) (st : BuildState σ)
    (line : Str) : writtenFiles (buildLine api false st line).ops = writtenFiles st.ops := by
  cases h : (decodeLine line).isDir with
  | false => rw [buildLine_false_of_not_isDir api st line h]
  | true =>
    unfold buildLine
    simp only [h]
    by_cases hn : (decodeLine line).name = []
    · simp [hn]
    · simp only [hn, if_false, Bool.not_true, Bool.false_and, Bool.false_eq_true]
      exact applyEntry_isDir_writtenFiles api st _ h

theorem foldl_buildLine_false_writtenFiles {σ : Type} (api : FsApi σ) (lines : List Str)
    (st : BuildState σ) :
    writtenFiles (lines.foldl (buildLine api false) st).ops = writtenFiles st.ops := by
  induction lines generalizing st with
  | nil => rfl
  | cons l ls ih => rw [List.foldl_cons, ih, buildLine_false_writtenFiles]

theorem foldl_buildLine_false {σ : Type} (api : FsApi σ) (lines : List Str)
    (st : BuildState σ) :
    lines.foldl (buildLine api false) st =
      (lines.filter (fun line => (decodeLine line).isDir)).foldl (buildLine api true) st := by
  induction lines generalizing st with
  | nil => rfl
  | cons l ls ih =>
    rw [List.foldl_cons, ih]
    cases h : (decodeLine l).isDir with
    | false =>
      rw [buildLine_false_of_not_isDir api st l h, List.filter_cons_of_neg (by simp [h])]
    | true =>
      rw [buildLine_false_of_isDir api st l h, List.filter_cons_of_pos (by simp [h]),
        List.foldl_cons]

/-- C10 (amended).  The flag `createFiles` only gates file lines: from the same state a
directory line is processed the same way with `createFiles = false` as with
`createFiles = true`, and a file line changes nothing when `createFiles = false`; so a run
with `createFiles = false` does what a run with `createFiles = true` does on the
directory lines alone, and a build with `createFiles = false` never writes a file. -/
theorem buildLine_createFiles {σ : Type} (api : FsApi σ) :
    (∀ (st : BuildState σ) (line : Str), (decodeLine line).isDir = true →
      buildLine api false st line = buildLine api true st line) ∧
    (∀ (st : BuildState σ) (line : Str), (decodeLine line).isDir = false →
      buildLine api false st line = st) ∧
    (∀ (st : BuildState σ) (lines : List Str),
      lines.foldl (buildLine api false) st =
        (lines.filter (fun line => (decodeLine line).isDir)).foldl (buildLine api true) st) ∧
    (∀ (fs : σ) (treeStr : Str) (targetDir : Path) (st : BuildState σ),
      buildStructureFromTree api fs treeStr targetDir false = some st →
      writtenFiles st.ops = []) := by
  refine ⟨buildLine_false_of_isDir api, buildLine_false_of_not_isDir api,
    fun st lines => foldl_buildLine_false api lines st, ?_⟩
  intro fs treeStr targetDir st h
  unfold buildStructureFromTree at h
  simp only at h
  split at h
  · cases h; rfl
  · split at h
    · cases h
    · cases h
      rw [foldl_buildLine_false_writtenFiles]
      rfl

/-- Witness for C10 (amended): the directory line `'├── src/'`, the file line
`'└── README.md'` and the build of the sample text, on the model filesystem. -/
theorem buildLine_createFiles_witness :
    ((decodeLine "├── src/".toList).isDir = true ∧
      buildLine posixFs false { fs := [], pathStack := [["out".toList]], ops := [] }
          "├── src/".toList =
        buildLine posixFs true { fs := [], pathStack := [["out".toList]], ops := [] }
          "├── src/".toList) ∧
    ((decodeLine "└── README.md".toList).isDir = false ∧
      buildLine posixFs false { fs := [], pathStack := [["out".toList]], ops := [] }
          "└── README.md".toList =
        { fs := [], pathStack := [["out".toList]], ops := [] }) ∧
    (∀ st, buildStructureFromTree posixFs [] sampleText ["out".toList] false = some st →
      writtenFiles st.ops = []) :=
  ⟨⟨by decide, (buildLine_createFiles posixFs).1 _ _ (by decide)⟩,
    ⟨by decide, (buildLine_createFiles posixFs).2.1 _ _ (by decide)⟩,
    fun st h => (buildLine_createFiles posixFs).2.2.2 [] sampleText ["out".toList] st h⟩

/-- C10 as stated fails: on a text in which the file line `'├── f'` is followed by the
deeper line `'│   └── b/'`, the build with `createFiles = true` creates `/t/a` and `/t/b`,
and the build with `createFiles = false` creates `/t/a` and `/t/a/b`: the file line pops
the stack only when files are created. -/
theorem pushedDirs_depend_on_createFiles :
    (buildStructureFromTree posixFs [] fileThenDeeperText ["t".toList] true).map
        (fun st => pushedDirs st.ops) =
      some [["t".toList, "a".toList], ["t".toList, "b".toList]] ∧
    (buildStructureFromTree posixFs [] fileThenDeeperText ["t".toList] false).map
        (fun st => pushedDirs st.ops) =
      some [["t".toList, "a".toList], ["t".toList, "a".toList, "b".toList]] ∧
    (buildStructureFromTree posixFs [] fileThenDeeperText ["t".toList] true).map
        (fun st => pushedDirs st.ops) ≠
      (buildStructureFromTree posixFs [] fileThenDeeperText ["t".toList] false).map
        (fun st => pushedDirs st.ops) := by
  refine ⟨by decide, by decide, by decide⟩

/-! ## The filesystem model -/

theorem lookup_root (fs : Fs) : Fs.lookup fs [] = some Node.dir := by
  simp [Fs.lookup]

theorem lookup_cons (fs : Fs) (p q : Path) (n : Node) (hp : p ≠ []) :
    Fs.lookup ((p, n) :: fs) q = if q = p then some n else Fs.lookup fs q := by
  unfold Fs.lookup
  by_cases hq : q = []
  · subst hq
    simp [Ne.symm hp]
  · by_cases hqp : q = p
    · subst hqp
      simp [hq]
    · have : ¬ p = q := fun h => hqp h.symm
      simp [hq, hqp, List.find?_cons, this]

theorem lookup_filter_ne (fs : Fs) (p q : Path) (hqp : q ≠ p) :
    Fs.lookup (fs.filter (fun e => e.1 ≠ p)) q = Fs.lookup fs q := by
  unfold Fs.lookup
  by_cases hq : q = []
  · simp [hq]
  · simp only [hq, if_false]
    congr 1
    induction fs with
    | nil => rfl
    | cons e t ih =>
      by_cases he : e.1 = p
      · have h1 : ¬ e.1 = q := fun h => hqp (h.symm.trans he)
        rw [List.filter_cons_of_neg (by simp [he]), ih, List.find?_cons_of_neg _ (by simp [h1])]
      · rw [List.filter_cons_of_pos (by simp [he])]
        by_cases h1 : e.1 = q
        · rw [List.find?_cons_of_pos _ (by simp [h1]), List.find?_cons_of_pos _ (by simp [h1])]
        · rw [List.find?_cons_of_neg _ (by simp [h1]), List.find?_cons_of_neg _ (by simp [h1]),
            ih]

/-- The path `q` is one of the directories a recursive `mkdir` of `base ++ segs` walks
through below `base`. -/
theorem between_cons (base : Path) (seg : Str) (rest : List Str) (q : Path) :
    (base <+: q ∧ q <+: base ++ seg :: rest ∧ q ≠ base) ↔
      (q = base ++ [seg] ∨
        (base ++ [seg] <+: q ∧ q <+: (base ++ [seg]) ++ rest ∧ q ≠ base ++ [seg])) := by
  constructor
  · rintro ⟨⟨t, rfl⟩, h2, h3⟩
    rw [List.prefix_append_right_inj] at h2
    cases t with
    | nil => simp at h3
    | cons a t' =>
      rw [List.cons_prefix_cons] at h2
      obtain ⟨rfl, h2⟩ := h2
      by_cases ht : t' = []
      · left; subst ht; rfl
      · right
        refine ⟨⟨t', by simp⟩, ?_, ?_⟩
        · rw [List.append_assoc, List.prefix_append_right_inj]
          simpa using h2
        · intro h
          have := congrArg List.length h
          simp at this
          exact ht this
  · rintro (rfl | ⟨⟨t, rfl⟩, h2, h3⟩)
    · refine ⟨⟨[seg], rfl⟩, ?_, ?_⟩
      · rw [List.prefix_append_right_inj]
        simp
      · intro h
        have := congrArg List.length h
        simp at this
    · refine ⟨⟨seg :: t, by simp⟩, ?_, ?_⟩
      · rw [List.append_assoc, List.append_assoc, List.prefix_append_right_inj] at h2
        rw [List.append_assoc, List.prefix_append_right_inj]
        simpa using h2
      · intro h
        have := congrArg List.length h
        simp at this

theorem mkdirFrom_spec (segs : List Str) :
    ∀ (base : Path) (fs : Fs),
      (∀ q, base <+: q → q <+: base ++ segs → q ≠ base →
        ∀ c, Fs.lookup fs q ≠ some (Node.file c)) →
      ∃ fs', Fs.mkdirFrom fs base segs = some fs' ∧
        ∀ q, Fs.lookup fs' q =
          if base <+: q ∧ q <+: base ++ segs ∧ q ≠ base then some Node.dir
          else Fs.lookup fs q := by
  induction segs with
  | nil =>
    intro base fs _
    refine ⟨fs, rfl, fun q => ?_⟩
    rw [if_neg]
    rintro ⟨h1, h2, h3⟩
    rw [List.append_nil] at h2
    exact h3 (List.IsPrefix.eq_of_length_le h2 h1.length_le)
  | cons seg rest ih =>
    intro base fs hfile
    have hne : base ++ [seg] ≠ [] := by simp
    have hb : base <+: base ++ [seg] ∧ base ++ [seg] <+: base ++ seg :: rest ∧
        base ++ [seg] ≠ base := (between_cons base seg rest _).2 (Or.inl rfl)
    rw [Fs.mkdirFrom]
    cases hl : Fs.lookup fs (base ++ [seg]) with
    | none =>
      simp only
      have hfile' : ∀ q, base ++ [seg] <+: q → q <+: (base ++ [seg]) ++ rest →
          q ≠ base ++ [seg] →
          ∀ c, Fs.lookup ((base ++ [seg], Node.dir) :: fs) q ≠ some (Node.file c) := by
        intro q h1 h2 h3 c
        rw [lookup_cons _ _ _ _ hne, if_neg h3]
        have := (between_cons base seg rest q).2 (Or.inr ⟨h1, h2, h3⟩)
        exact hfile q this.1 this.2.1 this.2.2 c
      obtain ⟨fs', h1, h2⟩ := ih (base ++ [seg]) _ hfile'
      refine ⟨fs', h1, fun q => ?_⟩
      rw [h2 q, lookup_cons _ _ _ _ hne]
      by_cases hq : q = base ++ [seg]
      · subst hq
        rw [if_neg (by simp), if_pos rfl, if_pos hb]
      · rw [if_neg hq]
        by_cases hbt : base ++ [seg] <+: q ∧ q <+: (base ++ [seg]) ++ rest ∧ q ≠ base ++ [seg]
        · rw [if_pos hbt, if_pos ((between_cons base seg rest q).2 (Or.inr hbt))]
        · rw [if_neg hbt, if_neg]
          intro h
          rcases (between_cons base seg rest q).1 h with h | h
          · exact hq h
          · exact hbt h
    | some node =>
      cases node with
      | file c => exact absurd hl (hfile _ hb.1 hb.2.1 hb.2.2 c)
      | dir =>
        simp only
        have hfile' : ∀ q, base ++ [seg] <+: q → q <+: (base ++ [seg]) ++ rest →
            q ≠ base ++ [seg] → ∀ c, Fs.lookup fs q ≠ some (Node.file c) := by
          intro q h1 h2 h3 c
          have := (between_cons base seg rest q).2 (Or.inr ⟨h1, h2, h3⟩)
          exact hfile q this.1 this.2.1 this.2.2 c
        obtain ⟨fs', h1, h2⟩ := ih (base ++ [seg]) fs hfile'
        refine ⟨fs', h1, fun q => ?_⟩
        rw [h2 q]
        by_cases hq : q = base ++ [seg]
        · subst hq
          rw [if_neg (by simp), if_pos hb, hl]
        · by_cases hbt : base ++ [seg] <+: q ∧ q <+: (base ++ [seg]) ++ rest ∧
              q ≠ base ++ [seg]
          · rw [if_pos hbt, if_pos ((between_cons base seg rest q).2 (Or.inr hbt))]
          · rw [if_neg hbt, if_neg]
            intro h
            rcases (between_cons base seg rest q).1 h with h | h
            · exact hq h
            · exact hbt h

/-- A recursive `mkdir` succeeds when no file stands on the way, and then every prefix of
the path is a directory and nothing else changes. -/
theorem mkdirp_spec (fs : Fs) (p : Path)
    (hfile : ∀ q, q <+: p → ∀ c, Fs.lookup fs q ≠ some (Node.file c)) :
    ∃ fs', Fs.mkdirp fs p = some fs' ∧
      ∀ q, Fs.lookup fs' q = if q <+: p then some Node.dir else Fs.lookup fs q := by
  obtain ⟨fs', h1, h2⟩ := mkdirFrom_spec p [] fs
    (fun q _ hq _ c => hfile q (by simpa using hq) c)
  refine ⟨fs', h1, fun q => ?_⟩
  rw [h2 q]
  by_cases hq : q = []
  · subst hq
    simp [lookup_root]
  · have : ([] <+: q ∧ q <+: [] ++ p ∧ q ≠ []) ↔ q <+: p := by simp [hq]
    simp only [this]

/-- Writing an empty file succeeds when the path is not a directory and its parent is one,
and then the path holds an empty file and nothing else changes. -/
theorem writeEmpty_spec (fs : Fs) (p : Path) (hp : Fs.lookup fs p ≠ some Node.dir)
    (hparent : Fs.lookup fs p.dropLast = some Node.dir) :
    ∃ fs', Fs.writeEmpty fs p = some fs' ∧
      ∀ q, Fs.lookup fs' q = if q = p then some (Node.file []) else Fs.lookup fs q := by
  have hne : p ≠ [] := by
    intro h; subst h; exact hp (lookup_root fs)
  refine ⟨_, by rw [Fs.writeEmpty, if_neg hp, if_pos hparent], fun q => ?_⟩
  rw [lookup_cons _ _ _ _ hne]
  by_cases hq : q = p
  · rw [if_pos hq, if_pos hq]
  · rw [if_neg hq, if_neg hq, lookup_filter_ne fs p q hq]

/-! ## Paths and the pop loop -/

theorem splitSlash_of_not_mem (name : Str) (h : '/' ∉ name) : splitSlash name = [name] := by
  induction name with
  | nil => rfl
  | cons c rest ih =>
    have hc : c ≠ '/' := fun e => h (e ▸ List.mem_cons_self _ _)
    have hr : '/' ∉ rest := fun e => h (List.mem_cons_of_mem _ e)
    rw [splitSlash, if_neg hc, ih hr]

theorem pathJoin_name (base : Path) (name : Str) (hn : RoundTripName name) :
    pathJoin base name = base ++ [name] := by
  obtain ⟨⟨hne, -, hslash, -⟩, -, hdot, hdots⟩ := hn
  unfold pathJoin
  rw [splitSlash_of_not_mem name hslash]
  simp [joinSegments, hne, hdot, hdots]

theorem popWhileLonger_eq_take (bound : Nat) :
    ∀ (fuel : Nat) (stack : List Path), stack.length ≤ bound + fuel →
      popWhileLonger bound fuel stack = stack.take bound := by
  intro fuel
  induction fuel with
  | zero =>
    intro stack h
    rw [popWhileLonger, List.take_of_length_le (by omega)]
  | succ fuel ih =>
    intro stack h
    rw [popWhileLonger]
    split
    · rename_i hlen
      rw [ih stack.dropLast (by rw [List.length_dropLast]; omega), List.dropLast_eq_take,
        List.take_take]
      congr 1
      omega
    · rw [List.take_of_length_le (by omega)]

theorem popStack_eq_take (depth : Nat) (stack : List Path) :
    popStack depth stack = stack.take (depth + 1) :=
  popWhileLonger_eq_take (depth + 1) stack.length stack (by omega)

theorem popStack_append (depth : Nat) (base extra : List Path)
    (h : base.length = depth + 1) : popStack depth (base ++ extra) = base := by
  rw [popStack_eq_take, ← h, List.take_left']
  rfl

/-! ## One rendered line -/

theorem text_eq (l : TreeLine) :
    l.text = l.pads.flatten ++
      ((if l.isLast then connCorner else connBranch) ++ (l.name ++ dirMark l.isDirectory)) :=
  rfl

theorem isConnector_ite (b : Bool) : IsConnector (if b then connCorner else connBranch) := by
  cases b
  · exact Or.inl rfl
  · exact Or.inr rfl

theorem decodeLine_text (l : TreeLine) (hpads : ∀ u ∈ l.pads, IsPad u)
    (hname : PlainName l.name) :
    decodeLine l.text =
      { depth := l.pads.length, name := l.name ++ dirMark l.isDirectory,
        isDir := l.isDirectory, cleanName := l.name } := by
  rw [text_eq]
  exact decodeLine_of_plain l.pads _ l.name l.isDirectory hpads (isConnector_ite _) hname

theorem buildLine_text (createFiles : Bool) (st : BuildState Fs) (l : TreeLine)
    (hpads : ∀ u ∈ l.pads, IsPad u) (hname : PlainName l.name)
    (hflag : l.isDirectory = true ∨ createFiles = true) :
    buildLine posixFs createFiles st l.text =
      applyEntry posixFs st
        { depth := l.pads.length, name := l.name ++ dirMark l.isDirectory,
          isDir := l.isDirectory, cleanName := l.name } := by
  unfold buildLine
  simp only [decodeLine_text l hpads hname]
  have hne : l.name ++ dirMark l.isDirectory ≠ [] := by
    intro h
    exact hname.1 (List.append_eq_nil.1 h).1
  rw [if_neg hne, if_neg]
  rcases hflag with h | h <;> simp [h]

theorem applyEntry_rendered (st : BuildState Fs) (l : TreeLine) (base extra : List Path)
    (cur : Path) (hname : RoundTripName l.name)
    (hstack : st.pathStack = base ++ extra) (hlen : base.length = l.pads.length + 1)
    (hcur : base.getLast? = some cur)
    (hanc : ∀ q, q <+: cur → Fs.lookup st.fs q = some Node.dir)
    (hfresh : Fs.lookup st.fs (cur ++ [l.name]) = none) :
    (applyEntry posixFs st
        { depth := l.pads.length, name := l.name ++ dirMark l.isDirectory,
          isDir := l.isDirectory, cleanName := l.name }).pathStack =
      base ++ (if l.isDirectory then [cur ++ [l.name]] else []) ∧
    ∀ q, Fs.lookup (applyEntry posixFs st
        { depth := l.pads.length, name := l.name ++ dirMark l.isDirectory,
          isDir := l.isDirectory, cleanName := l.name }).fs q =
      if q = cur ++ [l.name] then some (nodeOf l.isDirectory) else Fs.lookup st.fs q := by
  unfold applyEntry
  simp only [hstack, popStack_append l.pads.length base extra hlen, hcur,
    pathJoin_name cur l.name hname]
  cases hd : l.isDirectory with
  | true =>
    simp only [if_true]
    have hfile : ∀ q, q <+: cur ++ [l.name] → ∀ c, Fs.lookup st.fs q ≠ some (Node.file c) := by
      intro q hq c
      rcases List.prefix_concat_iff.1 hq with h | h
      · rw [h, hfresh]; simp
      · rw [hanc q h]; simp
    obtain ⟨fs1, h1, h2⟩ := mkdirp_spec st.fs (cur ++ [l.name]) hfile
    have h1' : posixFs.mkdir st.fs (cur ++ [l.name]) = some fs1 := h1
    simp only [h1']
    refine ⟨trivial, fun q => ?_⟩
    rw [h2 q]
    by_cases hq : q = cur ++ [l.name]
    · rw [if_pos hq, if_pos (hq ▸ List.prefix_refl _)]; rfl
    · rw [if_neg hq]
      by_cases hq' : q <+: cur ++ [l.name]
      · rw [if_pos hq']
        rcases List.prefix_concat_iff.1 hq' with h | h
        · exact absurd h hq
        · exact (hanc q h).symm
      · rw [if_neg hq']
  | false =>
    simp only [Bool.false_eq_true, if_false]
    have hdn : pathDirname (cur ++ [l.name]) = cur := by simp [pathDirname]
    have hfile : ∀ q, q <+: cur → ∀ c, Fs.lookup st.fs q ≠ some (Node.file c) := by
      intro q hq c
      rw [hanc q hq]; simp
    obtain ⟨fs1, h1, h2⟩ := mkdirp_spec st.fs cur hfile
    have h2' : ∀ q, Fs.lookup fs1 q = Fs.lookup st.fs q := by
      intro q
      rw [h2 q]
      split
      · rename_i h; exact (hanc q h).symm
      · rfl
    have h1' : posixFs.mkdir st.fs cur = some fs1 := h1
    obtain ⟨fs2, h3, h4⟩ := writeEmpty_spec fs1 (cur ++ [l.name])
      (by rw [h2', hfresh]; simp)
      (by rw [List.dropLast_concat, h2']; exact hanc cur (List.prefix_refl _))
    have h3' : posixFs.writeFile fs1 (cur ++ [l.name]) = some fs2 := h3
    simp only [hdn, h1', h3']
    refine ⟨by simp, fun q => ?_⟩
    rw [h4 q, h2' q]
    rfl

/-! ## Relative paths of a tree -/

theorem mem_pathsOf (es : List Entry) (rel : Path) (b : Bool) :
    (rel, b) ∈ pathsOf es ↔ ∃ e ∈ es, (rel, b) ∈ e.paths := by
  induction es with
  | nil => simp [pathsOf]
  | cons e t ih =>
    rw [pathsOf, List.mem_append, ih]
    simp

theorem mem_paths (e : Entry) (rel : Path) (b : Bool) :
    (rel, b) ∈ e.paths ↔
      (rel = [e.name] ∧ b = e.isDirectory) ∨
      (e.isDirectory = true ∧ ∃ rel', rel = e.name :: rel' ∧ (rel', b) ∈ pathsOf e.children) := by
  cases e with
  | file n => simp [Entry.paths, Entry.name, Entry.isDirectory]
  | dir n cs =>
    simp only [Entry.paths, Entry.name, Entry.isDirectory, Entry.children, List.mem_cons,
      List.mem_map, Prod.mk.injEq, true_and, Prod.exists]
    constructor
    · rintro (h | ⟨a, c, h1, h2, h3⟩)
      · exact Or.inl h
      · exact Or.inr ⟨a, h2.symm, h3 ▸ h1⟩
    · rintro (h | ⟨a, h1, h2⟩)
      · exact Or.inl h
      · exact Or.inr ⟨a, b, h2, h1.symm, rfl⟩

theorem paths_head (e : Entry) (rel : Path) (b : Bool) (h : (rel, b) ∈ e.paths) :
    ∃ rel', rel = e.name :: rel' := by
  rcases (mem_paths e rel b).1 h with ⟨h, -⟩ | ⟨-, rel', h, -⟩
  · exact ⟨[], h⟩
  · exact ⟨rel', h⟩

/-! ## Composition of runs -/

theorem runLines_nil (cf : Bool) (st : BuildState Fs) : runLines cf st [] = st := rfl

theorem runLines_cons (cf : Bool) (st : BuildState Fs) (l : TreeLine) (ls : List TreeLine) :
    runLines cf st (l :: ls) = runLines cf (buildLine posixFs cf st l.text) ls := rfl

theorem runLines_append (cf : Bool) (st : BuildState Fs) (ls ls' : List TreeLine) :
    runLines cf st (ls ++ ls') = runLines cf (runLines cf st ls) ls' := by
  simp [runLines, List.foldl_append]

theorem built_refl (cur : Path) (base : List Path) (st : BuildState Fs)
    (hstack : ∃ extra, st.pathStack = base ++ extra) :
    Built cur (fun _ _ => False) base st st :=
  ⟨hstack, fun p n => by simp⟩

theorem built_trans {cur : Path} {S1 S2 : Path → Bool → Prop} {base : List Path}
    {st st1 st2 : BuildState Fs} (h1 : Built cur S1 base st st1)
    (h2 : Built cur S2 base st1 st2) :
    Built cur (fun rel b => S1 rel b ∨ S2 rel b) base st st2 := by
  refine ⟨h2.1, fun p n => ?_⟩
  rw [h2.2 p n, h1.2 p n]
  constructor
  · rintro ((h | ⟨rel, b, h, hp, hn⟩) | ⟨rel, b, h, hp, hn⟩)
    · exact Or.inl h
    · exact Or.inr ⟨rel, b, Or.inl h, hp, hn⟩
    · exact Or.inr ⟨rel, b, Or.inr h, hp, hn⟩
  · rintro (h | ⟨rel, b, h | h, hp, hn⟩)
    · exact Or.inl (Or.inl h)
    · exact Or.inl (Or.inr ⟨rel, b, h, hp, hn⟩)
    · exact Or.inr ⟨rel, b, h, hp, hn⟩

theorem built_congr {cur : Path} {S S' : Path → Bool → Prop} {base : List Path}
    {st st' : BuildState Fs} (h : Built cur S base st st')
    (hS : ∀ rel b, S rel b ↔ S' rel b) : Built cur S' base st st' := by
  refine ⟨h.1, fun p n => ?_⟩
  rw [h.2 p n]
  simp only [hS]

theorem built_lift {cur : Path} {name : Str} {S : Path → Bool → Prop} {base : List Path}
    {st st' : BuildState Fs} (h : Built (cur ++ [name]) S (base ++ [cur ++ [name]]) st st') :
    Built cur (fun rel b => ∃ rel', rel = name :: rel' ∧ S rel' b) base st st' := by
  obtain ⟨⟨extra, hs⟩, hl⟩ := h
  refine ⟨⟨[cur ++ [name]] ++ extra, by rw [hs, List.append_assoc]⟩, fun p n => ?_⟩
  rw [hl p n]
  constructor
  · rintro (h | ⟨rel, b, h, hp, hn⟩)
    · exact Or.inl h
    · exact Or.inr ⟨name :: rel, b, ⟨rel, rfl, h⟩, by rw [hp]; simp, hn⟩
  · rintro (h | ⟨rel, b, ⟨rel', hr, h⟩, hp, hn⟩)
    · exact Or.inl h
    · exact Or.inr ⟨rel', b, h, by rw [hp, hr]; simp, hn⟩

theorem ready_of_built {cur : Path} {S : Path → Bool → Prop} {base : List Path}
    {st st' : BuildState Fs} {es : List Entry} (es' : List Entry) (hr : Ready cur es st)
    (hb : Built cur S base st st') (hsub : ∀ e ∈ es', e ∈ es)
    (hS : ∀ rel b, S rel b → ∃ x rel', rel = x :: rel' ∧ ∀ e ∈ es', e.name ≠ x) :
    Ready cur es' st' := by
  refine ⟨fun q hq => (hb.2 q _).2 (Or.inl (hr.1 q hq)), fun e he p hp => ?_⟩
  cases hl : Fs.lookup st'.fs p with
  | none => rfl
  | some n =>
    exfalso
    rcases (hb.2 p n).1 hl with h | ⟨rel, b, h, hp', -⟩
    · rw [hr.2 e (hsub e he) p hp] at h
      cases h
    · obtain ⟨x, rel', hrel, hx⟩ := hS rel b h
      rw [hp', hrel, List.prefix_append_right_inj, List.cons_prefix_cons] at hp
      exact hx e he hp.1

/-! ## The build of a rendered tree -/

theorem built_entry (dL : Entry → List Str → List TreeLine) (ign : List Str) (k : Nat)
    (hrec : ∀ (e : Entry) (pads : List Str) (base : List Path) (cur : Path)
      (st : BuildState Fs), e.isDirectory = true → TreeOk ign k e.children →
      (∀ u ∈ pads, IsPad u) → base.length = pads.length + 1 → base.getLast? = some cur →
      (∃ extra, st.pathStack = base ++ extra) → Ready cur e.children st →
      Built cur (fun rel b => (rel, b) ∈ pathsOf e.children) base st
        (runLines true st (dL e pads)))
    (e : Entry) (isLast : Bool) (pads : List Str) (base : List Path) (cur : Path)
    (st : BuildState Fs) (hpads : ∀ u ∈ pads, IsPad u) (hname : RoundTripName e.name)
    (hkids : e.isDirectory = true → TreeOk ign k e.children)
    (hlen : base.length = pads.length + 1) (hcur : base.getLast? = some cur)
    (hstack : ∃ extra, st.pathStack = base ++ extra) (hready : Ready cur [e] st) :
    Built cur (fun rel b => (rel, b) ∈ e.paths) base st
      (runLines true st
        ({ pads := pads, isLast := isLast, name := e.name, isDirectory := e.isDirectory } ::
          (if e.isDirectory then dL e (pads ++ [if isLast then padBlank else padBar])
            else []))) := by
  obtain ⟨extra, hstack⟩ := hstack
  have hfresh : Fs.lookup st.fs (cur ++ [e.name]) = none :=
    hready.2 e (List.mem_singleton_self e) _ (List.prefix_refl _)
  rw [runLines_cons, buildLine_text true st _ hpads hname.1 (Or.inr rfl)]
  obtain ⟨hs1, hl1⟩ := applyEntry_rendered st
    { pads := pads, isLast := isLast, name := e.name, isDirectory := e.isDirectory }
    base extra cur hname hstack hlen hcur hready.1 hfresh
  generalize applyEntry posixFs st _ = st1 at hs1 hl1
  simp only at hs1 hl1
  have hline : ∀ p n, Fs.lookup st1.fs p = some n ↔
      (Fs.lookup st.fs p = some n ∨ (p = cur ++ [e.name] ∧ n = nodeOf e.isDirectory)) := by
    intro p n
    rw [hl1 p]
    by_cases hp : p = cur ++ [e.name]
    · rw [if_pos hp, hp, hfresh]
      simp [eq_comm]
    · rw [if_neg hp]
      simp [hp]
  cases hd : e.isDirectory with
  | false =>
    rw [hd] at hs1 hline
    simp only [Bool.false_eq_true, if_false, runLines_nil, List.append_nil] at hs1 ⊢
    refine ⟨⟨[], by rw [hs1, List.append_nil]⟩, fun p n => ?_⟩
    rw [hline p n]
    constructor
    · rintro (h | ⟨hp, hn⟩)
      · exact Or.inl h
      · exact Or.inr ⟨[e.name], false, (mem_paths e _ _).2 (Or.inl ⟨rfl, hd.symm⟩), hp, hn⟩
    · rintro (h | ⟨rel, b, h, hp, hn⟩)
      · exact Or.inl h
      · rcases (mem_paths e rel b).1 h with ⟨h1, h2⟩ | ⟨h1, -⟩
        · rw [hd] at h2
          exact Or.inr ⟨by rw [hp, h1], by rw [hn, h2]⟩
        · rw [hd] at h1; cases h1
  | true =>
    rw [hd] at hs1 hline
    simp only [if_true] at hs1 ⊢
    have hready1 : Ready (cur ++ [e.name]) e.children st1 := by
      refine ⟨fun q hq => ?_, fun c _ p hp => ?_⟩
      · rcases List.prefix_concat_iff.1 hq with h | h
        · exact (hline q _).2 (Or.inr ⟨h, rfl⟩)
        · exact (hline q _).2 (Or.inl (hready.1 q h))
      · have hne : p ≠ cur ++ [e.name] := by
          intro h
          have := hp.length_le
          rw [h] at this
          simp at this
        rw [hl1 p, if_neg hne]
        exact hready.2 e (List.mem_singleton_self e) p
          ((List.prefix_append _ _).trans hp)
    have hsub := hrec e (pads ++ [if isLast then padBlank else padBar])
      (base ++ [cur ++ [e.name]]) (cur ++ [e.name]) st1 hd (hkids hd)
      (by
        intro u hu
        rcases List.mem_append.1 hu with h | h
        · exact hpads u h
        · simp only [List.mem_singleton] at h
          rw [h]; unfold IsPad; split <;> simp)
      (by simp [hlen]) (by simp) ⟨[], by rw [hs1, List.append_nil]⟩ hready1
    have hlift := built_lift hsub
    refine ⟨hlift.1, fun p n => ?_⟩
    rw [hlift.2 p n, hline p n]
    constructor
    · rintro ((h | ⟨hp, hn⟩) | ⟨rel, b, ⟨rel', hr, h⟩, hp, hn⟩)
      · exact Or.inl h
      · exact Or.inr ⟨[e.name], true, (mem_paths e _ _).2 (Or.inl ⟨rfl, hd.symm⟩), hp, hn⟩
      · exact Or.inr ⟨rel, b, (mem_paths e _ _).2 (Or.inr ⟨hd, rel', hr, h⟩), hp, hn⟩
    · rintro (h | ⟨rel, b, h, hp, hn⟩)
      · exact Or.inl (Or.inl h)
      · rcases (mem_paths e rel b).1 h with ⟨h1, h2⟩ | ⟨-, rel', h1, h2⟩
        · rw [hd] at h2
          exact Or.inl (Or.inr ⟨by rw [hp, h1], by rw [hn, h2]⟩)
        · exact Or.inr ⟨rel, b, ⟨rel', h1, h2⟩, hp, hn⟩

theorem built_emitLines (dL : Entry → List Str → List TreeLine) (ign : List Str) (k : Nat)
    (hrec : ∀ (e : Entry) (pads : List Str) (base : List Path) (cur : Path)
      (st : BuildState Fs), e.isDirectory = true → TreeOk ign k e.children →
      (∀ u ∈ pads, IsPad u) → base.length = pads.length + 1 → base.getLast? = some cur →
      (∃ extra, st.pathStack = base ++ extra) → Ready cur e.children st →
      Built cur (fun rel b => (rel, b) ∈ pathsOf e.children) base st
        (runLines true st (dL e pads)))
    (pads : List Str) (base : List Path) (cur : Path) (hpads : ∀ u ∈ pads, IsPad u)
    (hlen : base.length = pads.length + 1) (hcur : base.getLast? = some cur) :
    ∀ (es : List Entry) (st : BuildState Fs), (∀ e ∈ es, RoundTripName e.name) →
      (es.map Entry.name).Nodup →
      (∀ e ∈ es, e.isDirectory = true → TreeOk ign k e.children) →
      (∃ extra, st.pathStack = base ++ extra) → Ready cur es st →
      Built cur (fun rel b => (rel, b) ∈ pathsOf es) base st
        (runLines true st (emitLines dL pads es)) := by
  intro es
  induction es with
  | nil =>
    intro st _ _ _ hstack _
    rw [emitLines, runLines_nil]
    exact built_congr (built_refl cur base st hstack) (fun rel b => by simp [pathsOf])
  | cons e rest ih =>
    intro st hnames hnodup hkids hstack hready
    rw [emitLines, ← List.cons_append, runLines_append]
    have hready1 : Ready cur [e] st :=
      ⟨hready.1, fun x hx p hp => hready.2 x (by
        rw [List.mem_singleton] at hx; rw [hx]; exact List.mem_cons_self _ _) p hp⟩
    have h1 := built_entry dL ign k hrec e rest.isEmpty pads base cur st hpads
      (hnames e (List.mem_cons_self _ _)) (hkids e (List.mem_cons_self _ _)) hlen hcur hstack
      hready1
    rw [List.map_cons, List.nodup_cons] at hnodup
    have hready2 := ready_of_built rest hready h1
      (fun x hx => List.mem_cons_of_mem _ hx)
      (fun rel b h => by
        obtain ⟨rel', hrel⟩ := paths_head e rel b h
        exact ⟨e.name, rel', hrel, fun x hx hxe =>
          hnodup.1 (List.mem_map.2 ⟨x, hx, hxe⟩)⟩)
    have h2 := ih _ (fun x hx => hnames x (List.mem_cons_of_mem _ hx)) hnodup.2
      (fun x hx => hkids x (List.mem_cons_of_mem _ hx)) h1.1 hready2
    exact built_congr (built_trans h1 h2)
      (fun rel b => by rw [pathsOf, List.mem_append])

theorem height_pos (e : Entry) : 1 ≤ e.height := by
  cases e <;> simp [Entry.height]

theorem height_le_heightOf {dir : List Entry} {e : Entry} (he : e ∈ dir) :
    e.height ≤ heightOf dir := by
  induction dir with
  | nil => simp at he
  | cons a t ih =>
    rw [heightOf]
    rcases List.mem_cons.1 he with h | h
    · rw [h]; exact le_max_left _ _
    · exact le_trans (ih h) (le_max_right _ _)

theorem eq_nil_of_heightOf_le_zero {dir : List Entry} (h : heightOf dir ≤ 0) : dir = [] := by
  cases dir with
  | nil => rfl
  | cons a t =>
    have h1 := height_le_heightOf (List.mem_cons_self a t)
    have h2 := height_pos a
    omega

theorem heightOf_children {dir : List Entry} {e : Entry} (he : e ∈ dir)
    (hd : e.isDirectory = true) {n : Nat} (h : heightOf dir ≤ n + 1) :
    heightOf e.children ≤ n := by
  have h1 := height_le_heightOf he
  cases e with
  | file _ => simp [Entry.isDirectory] at hd
  | dir name cs =>
    simp only [Entry.height] at h1
    simp only [Entry.children]
    omega

theorem treeOk_children {ign : List Str} {n : Nat} {dir : List Entry}
    (h : TreeOk ign (n + 1) dir) {e : Entry} (he : e ∈ dir) (hd : e.isDirectory = true) :
    TreeOk ign n e.children :=
  ⟨fun l hl => h.1 l (allListings_children he hd hl), distinctNames_children h.2.1 he hd,
    heightOf_children he hd h.2.2⟩

theorem built_treeLines (lc : Str → Str → Int) (ign : List Str) (maxDepth : Nat) :
    ∀ (n depth : Nat), maxDepth + 1 - depth = n →
      ∀ (dir : List Entry) (pads : List Str) (base : List Path) (cur : Path)
        (st : BuildState Fs), TreeOk ign n dir → (∀ u ∈ pads, IsPad u) →
        base.length = pads.length + 1 → base.getLast? = some cur →
        (∃ extra, st.pathStack = base ++ extra) → Ready cur dir st →
        Built cur (fun rel b => (rel, b) ∈ pathsOf dir) base st
          (runLines true st (treeLines lc dir pads ign depth maxDepth)) := by
  intro n
  induction n with
  | zero =>
    intro depth hn dir pads base cur st hok _ _ _ hstack _
    rw [treeLines_unfold, if_pos (by omega), runLines_nil,
      eq_nil_of_heightOf_le_zero hok.2.2]
    exact built_congr (built_refl cur base st hstack) (fun rel b => by simp [pathsOf])
  | succ n ih =>
    intro depth hn dir pads base cur st hok hpads hlen hcur hstack hready
    rw [treeLines_unfold, if_neg (by omega)]
    have hmem : ∀ e, e ∈ visibleEntries lc ign dir ↔ e ∈ dir := by
      intro e
      rw [mem_visibleEntries]
      exact ⟨fun h => h.1, fun h => ⟨h, (hok.1 dir (List.mem_cons_self _ _) e h).2⟩⟩
    have hnodup : ((visibleEntries lc ign dir).map Entry.name).Nodup := by
      have hp : (visibleEntries lc ign dir).Perm
          (dir.filter (fun entry => !ign.contains entry.name)) := List.perm_insertionSort _ _
      refine (hp.map Entry.name).nodup_iff.2 ?_
      exact List.Nodup.sublist ((List.filter_sublist _).map Entry.name)
        (distinctNames_root hok.2.1)
    have h := built_emitLines
      (fun entry nextPads => treeLines lc entry.children nextPads ign (depth + 1) maxDepth)
      ign n
      (fun e pads base cur st hd hk hp hl hc hs hr =>
        ih (depth + 1) (by omega) e.children pads base cur st hk hp hl hc hs hr)
      pads base cur hpads hlen hcur (visibleEntries lc ign dir) st
      (fun e he => (hok.1 dir (List.mem_cons_self _ _) e ((hmem e).1 he)).1) hnodup
      (fun e he hd => treeOk_children hok ((hmem e).1 he) hd) hstack
      ⟨hready.1, fun e he => hready.2 e ((hmem e).1 he)⟩
    refine built_congr h (fun rel b => ?_)
    rw [mem_pathsOf, mem_pathsOf]
    exact ⟨fun ⟨e, he, hp⟩ => ⟨e, (hmem e).1 he, hp⟩, fun ⟨e, he, hp⟩ => ⟨e, (hmem e).2 he, hp⟩⟩

/-! ## From the text to its lines -/

theorem splitLines_of_not_mem (a : Str) (h : '\n' ∉ a) : splitLines a = [a] := by
  induction a with
  | nil => rfl
  | cons c rest ih =>
    have hc : c ≠ '\n' := fun e => h (e ▸ List.mem_cons_self _ _)
    rw [splitLines, if_neg hc, ih (fun e => h (List.mem_cons_of_mem _ e))]

theorem splitLines_append_nl (a rest : Str) (h : '\n' ∉ a) :
    splitLines (a ++ '\n' :: rest) = a :: splitLines rest := by
  induction a with
  | nil => simp [splitLines]
  | cons c a ih =>
    have hc : c ≠ '\n' := fun e => h (e ▸ List.mem_cons_self _ _)
    rw [List.cons_append, splitLines, if_neg hc, ih (fun e => h (List.mem_cons_of_mem _ e))]

theorem joinedLines_cons (l : TreeLine) (ls : List TreeLine) :
    joinedLines (l :: ls) = '\n' :: (l.text ++ joinedLines ls) := by
  simp [joinedLines]

theorem splitLines_joinedLines (ls : List TreeLine) (hls : ∀ l ∈ ls, '\n' ∉ l.text) :
    ∀ a : Str, '\n' ∉ a → splitLines (a ++ joinedLines ls) = a :: ls.map TreeLine.text := by
  induction ls with
  | nil =>
    intro a ha
    simp [joinedLines, splitLines_of_not_mem a ha]
  | cons l ls ih =>
    intro a ha
    rw [joinedLines_cons, splitLines_append_nl a _ ha,
      ih (fun x hx => hls x (List.mem_cons_of_mem _ hx)) l.text
        (hls l (List.mem_cons_self _ _)), List.map_cons]

theorem nl_renderLines (ls : List TreeLine) :
    '\n' :: renderLines ls = joinedLines ls ++ ['\n'] := by
  induction ls with
  | nil => rfl
  | cons l ls ih =>
    rw [renderLines_cons, joinedLines_cons, List.append_assoc, List.singleton_append, ih]
    simp

theorem dropWhile_append_stop (p : Char → Bool) (a : Str) (c : Char) (rest : Str)
    (hc : p c = false) :
    (a ++ c :: rest).dropWhile p = a.dropWhile p ++ c :: rest := by
  induction a with
  | nil => simp [List.dropWhile_cons, hc]
  | cons x a ih =>
    rw [List.cons_append, List.dropWhile_cons, List.dropWhile_cons]
    split
    · exact ih
    · rfl

theorem pad_not_nl (u : Str) (hu : IsPad u) : '\n' ∉ u := by
  rcases hu with rfl | rfl <;> decide

theorem goodLine_text_not_nl (l : TreeLine) (h : GoodLine l) : '\n' ∉ l.text := by
  obtain ⟨hp, hn⟩ := h
  rw [text_eq]
  intro hmem
  rcases List.mem_append.1 hmem with h1 | h1
  · obtain ⟨u, hu, hc⟩ := List.mem_flatten.1 h1
    exact pad_not_nl u (hp u hu) hc
  · rcases List.mem_append.1 h1 with h2 | h2
    · split at h2
      · revert h2; decide
      · revert h2; decide
    · rcases List.mem_append.1 h2 with h3 | h3
      · exact hn.2.1 h3
      · unfold dirMark at h3
        split at h3
        · revert h3; decide
        · simp at h3

theorem goodLine_text_getLast (l : TreeLine) (h : GoodLine l) (c : Char)
    (hc : l.text.getLast? = some c) : isJsSpace c = false := by
  have hne : l.name ++ dirMark l.isDirectory ≠ [] := by
    intro h0
    exact h.2.1.1 (List.append_eq_nil.1 h0).1
  rw [text_eq, List.getLast?_append_of_ne_nil _ (by simp [hne]),
    List.getLast?_append_of_ne_nil _ hne] at hc
  exact plainName_mark_getLast l.name l.isDirectory h.2.1 c hc

theorem goodLine_text_ne_nil (l : TreeLine) (h : GoodLine l) : l.text ≠ [] := by
  rw [text_eq]
  intro h0
  have := (List.append_eq_nil.1 (List.append_eq_nil.1 (List.append_eq_nil.1 h0).2).2).1
  exact h.2.1.1 this

theorem getLast_append_joinedLines (ls : List TreeLine) (hls : ∀ l ∈ ls, GoodLine l) :
    ∀ a : Str, a ≠ [] → (∀ c, a.getLast? = some c → isJsSpace c = false) →
      ∀ c, (a ++ joinedLines ls).getLast? = some c → isJsSpace c = false := by
  induction ls with
  | nil =>
    intro a _ ha c hc
    exact ha c (by simpa [joinedLines] using hc)
  | cons l ls ih =>
    intro a _ _ c hc
    have hl := hls l (List.mem_cons_self _ _)
    rw [joinedLines_cons, ← List.cons_append, ← List.append_assoc] at hc
    refine ih (fun x hx => hls x (List.mem_cons_of_mem _ hx)) (a ++ '\n' :: l.text)
      (by simp) ?_ c hc
    intro d hd
    have hne := goodLine_text_ne_nil l hl
    rw [List.getLast?_append_of_ne_nil _ (by simp), ← List.singleton_append,
      List.getLast?_append_of_ne_nil _ hne] at hd
    exact goodLine_text_getLast l hl d hd

theorem treeLines_roundTripName_aux (lc : Str → Str → Int) (ign : List Str) (maxDepth : Nat) :
    ∀ (n depth : Nat), maxDepth + 1 - depth = n → ∀ (dir : List Entry) (pads : List Str),
      RoundTripTree ign dir →
      ∀ l ∈ treeLines lc dir pads ign depth maxDepth, RoundTripName l.name := by
  intro n
  induction n with
  | zero =>
    intro depth hn dir pads _ l hl
    rw [treeLines_unfold, if_pos (by omega)] at hl
    simp at hl
  | succ n ih =>
    intro depth hn dir pads hok l hl
    rw [treeLines_unfold, if_neg (by omega)] at hl
    rcases mem_emitLines _ _ _ _ hl with ⟨-, e, he, h1, -⟩ | ⟨e, he, pad, -, hd, h⟩
    · rw [h1]
      exact (hok dir (List.mem_cons_self _ _) e ((mem_visibleEntries lc ign dir e).1 he).1).1
    · exact ih (depth + 1) (by omega) e.children _
        (fun x hx => hok x (allListings_children ((mem_visibleEntries lc ign dir e).1 he).1
          hd hx)) l h

theorem treeLines_goodLine (lc : Str → Str → Int) (ign : List Str) (maxDepth : Nat)
    (dir : List Entry) (h : RoundTripTree ign dir) :
    ∀ l ∈ treeLines lc dir [] ign 0 maxDepth, GoodLine l := by
  intro l hl
  refine ⟨fun u hu => ?_, treeLines_roundTripName_aux lc ign maxDepth _ 0 rfl dir [] h l hl⟩
  exact (treeLines_depth_aux lc ign maxDepth _ 0 rfl dir [] l hl).2.2 u hu (by simp)

theorem renderedText_eq (lc : Str → Str → Int) (rootName : Str) (dir : List Entry)
    (ign : List Str) (maxDepth : Nat) :
    renderedText lc rootName dir ign maxDepth =
      (rootName ++ '/' :: joinedLines (treeLines lc dir [] ign 0 maxDepth)) ++ ['\n'] := by
  unfold renderedText
  have h := generateTree_eq_renderLines lc dir [] ign 0 maxDepth
  simp only [List.flatten_nil] at h
  rw [h]
  have h2 := nl_renderLines (treeLines lc dir [] ign 0 maxDepth)
  simp only [List.append_assoc, List.cons_append, List.nil_append, h2]

theorem jsTrim_rendered (rootName : Str) (ls : List TreeLine) (hls : ∀ l ∈ ls, GoodLine l) :
    jsTrim ((rootName ++ '/' :: joinedLines ls) ++ ['\n']) =
      (rootName.dropWhile isJsSpace ++ ['/']) ++ joinedLines ls := by
  unfold jsTrim
  rw [List.append_assoc, List.cons_append,
    dropWhile_append_stop isJsSpace rootName '/' _ (by decide)]
  have hshape : List.dropWhile isJsSpace rootName ++ '/' :: (joinedLines ls ++ ['\n']) =
      ((List.dropWhile isJsSpace rootName ++ ['/']) ++ joinedLines ls) ++ ['\n'] := by
    simp
  rw [hshape, List.rdropWhile_concat_pos _ _ _ (by decide), List.rdropWhile_eq_self_iff]
  intro hne
  have := getLast_append_joinedLines ls hls (List.dropWhile isJsSpace rootName ++ ['/'])
    (by simp) (by
      intro c hc
      rw [List.getLast?_append_of_ne_nil _ (by simp)] at hc
      simp at hc
      subst hc; decide)
    _ (List.getLast?_eq_getLast _ hne)
  rw [this]
  decide

/-- The lines the buffered builder loops over, for a rendered text: the texts of the lines
of the rendering. -/
theorem lines_of_renderedText (lc : Str → Str → Int) (rootName : Str) (dir : List Entry)
    (ign : List Str) (maxDepth : Nat) (hroot : '\n' ∉ rootName)
    (hdir : RoundTripTree ign dir) :
    splitLines (jsTrim (renderedText lc rootName dir ign maxDepth)) =
      (rootName.dropWhile isJsSpace ++ ['/']) ::
        (treeLines lc dir [] ign 0 maxDepth).map TreeLine.text := by
  have hgood := treeLines_goodLine lc ign maxDepth dir hdir
  rw [renderedText_eq, jsTrim_rendered rootName _ hgood]
  apply splitLines_joinedLines _ (fun l hl => goodLine_text_not_nl l (hgood l hl))
  intro h
  rcases List.mem_append.1 h with h1 | h1
  · exact hroot ((List.dropWhile_sublist _).subset h1)
  · revert h1; decide

/-! ## The round trip -/

theorem option_eq_of_iff {α : Type} {a b : Option α} (h : ∀ n, a = some n ↔ b = some n) :
    a = b := by
  cases a with
  | none =>
    cases b with
    | none => rfl
    | some y => exact absurd ((h y).2 rfl) (by simp)
  | some x => exact ((h x).1 rfl).symm

theorem build_renderedText (lc : Str → Str → Int) (rootName : Str) (dir : List Entry)
    (ign : List Str) (maxDepth : Nat) (target : Path) (fs : Fs)
    (hroot : '\n' ∉ rootName) (htree : TreeOk ign (maxDepth + 1) dir)
    (hclear : ∀ q, q <+: target → ∀ c, Fs.lookup fs q ≠ some (Node.file c))
    (hempty : ∀ p, target <+: p → p ≠ target → Fs.lookup fs p = none) :
    ∃ st, buildStructureFromTree posixFs fs (renderedText lc rootName dir ign maxDepth)
        target true = some st ∧
      (∀ rel n, rel ≠ [] → (Fs.lookup st.fs (target ++ rel) = some n ↔
        ∃ b, (rel, b) ∈ pathsOf dir ∧ n = nodeOf b)) ∧
      (∀ q, q <+: target → Fs.lookup st.fs q = some Node.dir) ∧
      (∀ p, ¬ target <+: p → ¬ p <+: target → Fs.lookup st.fs p = Fs.lookup fs p) := by
  obtain ⟨fs1, hmk, hl1⟩ := mkdirp_spec fs target hclear
  have hmk' : posixFs.mkdir fs target = some fs1 := hmk
  have hlines := lines_of_renderedText lc rootName dir ign maxDepth hroot htree.1
  have hbuilt := built_treeLines lc ign maxDepth (maxDepth + 1) 0 rfl dir [] [target] target
    { fs := fs1, pathStack := [target], ops := [FsOp.mkdirTarget target] } htree
    (by simp) rfl rfl ⟨[], rfl⟩
    ⟨fun q hq => by simp only [hl1 q, if_pos hq], fun e _ p hp => by
      have hlen := hp.length_le
      simp only [List.length_append, List.length_singleton] at hlen
      have hnp : ¬ p <+: target := fun h => by have := h.length_le; omega
      have hne : p ≠ target := fun h => by rw [h] at hlen; omega
      simp only [hl1 p, if_neg hnp]
      exact hempty p ((List.prefix_append _ _).trans hp) hne⟩
  refine ⟨runLines true
    { fs := fs1, pathStack := [target], ops := [FsOp.mkdirTarget target] }
    (treeLines lc dir [] ign 0 maxDepth), ?_, ?_, ?_, ?_⟩
  · unfold buildStructureFromTree
    simp only [hlines, hmk', List.length_cons, List.drop_succ_cons, List.drop_zero]
    rw [if_neg (by omega)]
    rfl
  · intro rel n hrel
    rw [hbuilt.2 (target ++ rel) n]
    have hnp : ¬ target ++ rel <+: target := fun h => by
      have := h.length_le
      simp only [List.length_append] at this
      have : rel.length = 0 := by omega
      exact hrel (List.length_eq_zero.1 this)
    have hnone : Fs.lookup fs1 (target ++ rel) = none := by
      rw [hl1, if_neg hnp]
      refine hempty _ (List.prefix_append _ _) (fun h => hnp ?_)
      rw [h]
    rw [hnone]
    constructor
    · rintro (h | ⟨rel', b, h1, h2, h3⟩)
      · cases h
      · rw [List.append_cancel_left h2]
        exact ⟨b, h1, h3⟩
    · rintro ⟨b, h1, h2⟩
      exact Or.inr ⟨rel, b, h1, rfl, h2⟩
  · intro q hq
    exact (hbuilt.2 q _).2 (Or.inl (by simp only [hl1 q, if_pos hq]))
  · intro p h1 h2
    apply option_eq_of_iff
    intro n
    rw [hbuilt.2 p n]
    simp only [hl1 p, if_neg h2]
    constructor
    · rintro (h | ⟨rel, b, -, hp, -⟩)
      · exact h
      · exact absurd (hp ▸ List.prefix_append _ _) h1
    · exact fun h => Or.inl h

/-- C1.  Render/build round trip.  Take a tree whose entries all have round-trip names
that are not ignored, with distinct sibling names and at most `maxDepth + 1` levels, a
root name without a line feed, and a target with no file on its path and nothing below it.
The build, with `createFiles = true`, of the text `rootName + '/\n' + generateTree(tree)`
succeeds, and below the target it leaves exactly the entries of the tree: a path relative
to the target holds a node exactly when it is the relative path of an entry of the tree,
and the node is a directory for a directory entry and an empty file for a file entry.
The target and its ancestors are directories and nothing else changes. -/
theorem buildStructureFromTree_generateTree (lc : Str → Str → Int) (rootName : Str)
    (dir : List Entry) (ign : List Str) (maxDepth : Nat) (target : Path) (fs : Fs)
    (hroot : '\n' ∉ rootName) (htree : TreeOk ign (maxDepth + 1) dir)
    (hclear : ∀ q, q <+: target → ∀ c, Fs.lookup fs q ≠ some (Node.file c))
    (hempty : ∀ p, target <+: p → p ≠ target → Fs.lookup fs p = none) :
    ∃ st, buildStructureFromTree posixFs fs (renderedText lc rootName dir ign maxDepth)
        target true = some st ∧
      (∀ rel n, rel ≠ [] → (Fs.lookup st.fs (target ++ rel) = some n ↔
        ∃ b, (rel, b) ∈ pathsOf dir ∧ n = nodeOf b)) ∧
      (∀ q, q <+: target → Fs.lookup st.fs q = some Node.dir) ∧
      (∀ p, ¬ target <+: p → ¬ p <+: target → Fs.lookup st.fs p = Fs.lookup fs p) :=
  build_renderedText lc rootName dir ign maxDepth target fs hroot htree hclear hempty

theorem lookup_nil_ne_file (q : Path) (c : Str) :
    Fs.lookup [] q ≠ some (Node.file c) := by
  unfold Fs.lookup
  split <;> simp

theorem lookup_nil_of_ne (p : Path) (h : p ≠ []) : Fs.lookup [] p = none := by
  simp [Fs.lookup, h]

/-- Witness for C1: the sample tree, rendered under the root name `root` and built
against the target `/out` of an empty filesystem. -/
theorem buildStructureFromTree_generateTree_witness :
    '\n' ∉ "root".toList ∧ TreeOk ["node_modules".toList] (20 + 1) sampleTree ∧
    ∃ st, buildStructureFromTree posixFs []
        (renderedText codePointCompare "root".toList sampleTree ["node_modules".toList] 20)
        ["out".toList] true = some st ∧
      (∀ rel n, rel ≠ [] → (Fs.lookup st.fs (["out".toList] ++ rel) = some n ↔
        ∃ b, (rel, b) ∈ pathsOf sampleTree ∧ n = nodeOf b)) ∧
      (∀ q, q <+: ["out".toList] → Fs.lookup st.fs q = some Node.dir) ∧
      (∀ p, ¬ ["out".toList] <+: p → ¬ p <+: ["out".toList] →
        Fs.lookup st.fs p = Fs.lookup [] p) :=
  ⟨by decide, by decide,
    buildStructureFromTree_generateTree codePointCompare "root".toList sampleTree
      ["node_modules".toList] 20 ["out".toList] [] (by decide) (by decide)
      (fun q _ c => lookup_nil_ne_file q c)
      (fun p hp hne => lookup_nil_of_ne p (fun h => by
        rw [h] at hp
        simp at hp))⟩

/-! ## The buffered builder as a fold over its lines -/

theorem splitLines_ne_nil (s : Str) : splitLines s ≠ [] := by
  induction s with
  | nil => simp [splitLines]
  | cons c rest ih =>
    rw [splitLines]
    split
    · simp
    · split <;> simp

theorem buildStructureFromTree_eq_fold {σ : Type} (api : FsApi σ) (fs : σ) (treeStr : Str)
    (targetDir : Path) (createFiles : Bool) :
    buildStructureFromTree api fs treeStr targetDir createFiles =
      (api.mkdir fs targetDir).map (fun fs1 =>
        (linesOf treeStr).foldl (buildLine api createFiles) (buildInit fs1 targetDir)) := by
  unfold buildStructureFromTree
  have hlen : ¬ (splitLines (jsTrim treeStr)).length = 0 := by
    intro h
    exact splitLines_ne_nil _ (List.length_eq_zero.1 h)
  simp only [hlen, if_false]
  cases api.mkdir fs targetDir <;> rfl

/-! ## The length of the stack after the pop loop -/

theorem popStack_length (depth : Nat) (stack : List Path) :
    (popStack depth stack).length = min stack.length (depth + 1) := by
  rw [popStack_eq_take, List.length_take]
  exact Nat.min_comm _ _

theorem applyEntry_pathStack {σ : Type} (api : FsApi σ) (st : BuildState σ) (d : Decoded) :
    (applyEntry api st d).pathStack = popStack d.depth st.pathStack ∨
    ∃ top, (popStack d.depth st.pathStack).getLast? = some top ∧
      (applyEntry api st d).pathStack =
        popStack d.depth st.pathStack ++ [pathJoin top d.cleanName] := by
  unfold applyEntry
  simp only
  split
  · left; rfl
  · rename_i top htop
    split
    · split
      · left; rfl
      · right; exact ⟨top, htop, rfl⟩
    · split
      · left; rfl
      · split <;> (left; rfl)

/-- C11 (amended).  After the pop loop of a line of decoded depth `depth`, the stack has
`min (length before, depth + 1)` elements: at most `depth + 1`, and exactly `depth + 1`
exactly when it had at least that many before the line.  The entry is joined onto the last
element of the popped stack, and the stack after the line is the popped stack, with the
joined path pushed when a directory was created. -/
theorem pathStack_length_after_pop {σ : Type} (api : FsApi σ) (st : BuildState σ)
    (d : Decoded) :
    (popStack d.depth st.pathStack).length = min st.pathStack.length (d.depth + 1) ∧
    ((popStack d.depth st.pathStack).length = d.depth + 1 ↔
      d.depth + 1 ≤ st.pathStack.length) ∧
    ((applyEntry api st d).pathStack = popStack d.depth st.pathStack ∨
      ∃ top, (popStack d.depth st.pathStack).getLast? = some top ∧
        (applyEntry api st d).pathStack =
          popStack d.depth st.pathStack ++ [pathJoin top d.cleanName]) := by
  refine ⟨popStack_length _ _, ?_, applyEntry_pathStack api st d⟩
  rw [popStack_length]
  omega

/-- C11 as stated fails: in the text `'root/\n│   └── x/'` the line `'│   └── x/'` is not
skipped and has depth 1, the stack before it is `[/t]`, and after the pop loop it still has
one element, not two; the directory is joined onto the target, at index 0. -/
theorem pathStack_short_after_pop :
    linesOf deepFirstText = ["│   └── x/".toList] ∧
    (decodeLine "│   └── x/".toList).name ≠ [] ∧
    (decodeLine "│   └── x/".toList).depth = 1 ∧
    (popStack (decodeLine "│   └── x/".toList).depth [["t".toList]]).length ≠
      (decodeLine "│   └── x/".toList).depth + 1 ∧
    (buildStructureFromTree posixFs [] deepFirstText ["t".toList] true).map
        (fun st => st.pathStack) =
      some [["t".toList], ["t".toList, "x".toList]] := by
  refine ⟨by decide, by decide, by decide, by decide, by decide⟩

/-! ## The root of the stack -/

theorem head?_take_succ {α : Type} (l : List α) (n : Nat) :
    (l.take (n + 1)).head? = l.head? := by
  cases l <;> rfl

theorem head?_append_of_head? {α : Type} (l l' : List α) (a : α) (h : l.head? = some a) :
    (l ++ l').head? = some a := by
  cases l with
  | nil => simp at h
  | cons x t => simpa using h

theorem applyEntry_head {σ : Type} (api : FsApi σ) (st : BuildState σ) (d : Decoded)
    (t : Path) (h : st.pathStack.head? = some t) :
    (applyEntry api st d).pathStack.head? = some t := by
  have hpop : (popStack d.depth st.pathStack).head? = some t := by
    rw [popStack_eq_take, head?_take_succ, h]
  rcases applyEntry_pathStack api st d with h1 | ⟨top, -, h1⟩
  · rw [h1, hpop]
  · rw [h1]
    exact head?_append_of_head? _ _ _ hpop

theorem buildLine_head {σ : Type} (api : FsApi σ) (cf : Bool) (st : BuildState σ)
    (line : Str) (t : Path) (h : st.pathStack.head? = some t) :
    (buildLine api cf st line).pathStack.head? = some t := by
  unfold buildLine
  simp only
  split
  · exact h
  · split
    · exact h
    · exact applyEntry_head api st _ t h

theorem foldl_buildLine_head {σ : Type} (api : FsApi σ) (cf : Bool) (lines : List Str)
    (st : BuildState σ) (t : Path) (h : st.pathStack.head? = some t) :
    (lines.foldl (buildLine api cf) st).pathStack.head? = some t := by
  induction lines generalizing st with
  | nil => exact h
  | cons l ls ih => exact ih _ (buildLine_head api cf st l t h)

theorem popSlotsWhileLonger_eq_take (bound : Nat) :
    ∀ (fuel : Nat) (stack : List (Option Path)), stack.length ≤ bound + fuel →
      popSlotsWhileLonger bound fuel stack = stack.take bound := by
  intro fuel
  induction fuel with
  | zero =>
    intro stack h
    rw [popSlotsWhileLonger, List.take_of_length_le (by omega)]
  | succ fuel ih =>
    intro stack h
    rw [popSlotsWhileLonger]
    split
    · rename_i hlen
      rw [ih stack.dropLast (by rw [List.length_dropLast]; omega), List.dropLast_eq_take,
        List.take_take]
      congr 1
      omega
    · rw [List.take_of_length_le (by omega)]

theorem popSlots_eq_take (depth : Nat) (stack : List (Option Path)) :
    popSlots depth stack = stack.take (depth + 1) :=
  popSlotsWhileLonger_eq_take (depth + 1) stack.length stack (by omega)

theorem setLength_head (n : Nat) (stack : List (Option Path)) (x : Option Path)
    (h : stack.head? = some x) : (setLength (n + 1) stack).head? = some x := by
  unfold setLength
  apply head?_append_of_head?
  rw [head?_take_succ, h]

theorem streamApply_pathStack {σ : Type} (api : FsApi σ) (st : StreamState σ) (d : Decoded) :
    (streamApply api st d).pathStack =
        (if d.depth < st.lastDepth then setLength (d.depth + 1) (popSlots d.depth st.pathStack)
          else popSlots d.depth st.pathStack) ∨
    ∃ p, (streamApply api st d).pathStack =
        (if d.depth < st.lastDepth then setLength (d.depth + 1) (popSlots d.depth st.pathStack)
          else popSlots d.depth st.pathStack) ++ [some p] := by
  unfold streamApply
  simp only
  split
  · split
    · split
      · left; rfl
      · right; exact ⟨_, rfl⟩
    · split
      · left; rfl
      · split <;> (left; rfl)
  · left; rfl

theorem streamApply_head {σ : Type} (api : FsApi σ) (st : StreamState σ) (d : Decoded)
    (x : Option Path) (h : st.pathStack.head? = some x) :
    (streamApply api st d).pathStack.head? = some x := by
  have hpop : (popSlots d.depth st.pathStack).head? = some x := by
    rw [popSlots_eq_take, head?_take_succ, h]
  have hstack : (if d.depth < st.lastDepth then
      setLength (d.depth + 1) (popSlots d.depth st.pathStack)
      else popSlots d.depth st.pathStack).head? = some x := by
    split
    · exact setLength_head _ _ _ hpop
    · exact hpop
  rcases streamApply_pathStack api st d with h1 | ⟨p, h1⟩
  · rw [h1, hstack]
  · rw [h1]
    exact head?_append_of_head? _ _ _ hstack

theorem streamDecode_head {σ : Type} (api : FsApi σ) (all : Bool) (st : StreamState σ)
    (line : Str) (x : Option Path) (h : st.pathStack.head? = some x) :
    (streamDecode api all st line).pathStack.head? = some x := by
  unfold streamDecode
  simp only
  split
  · exact h
  · split
    · exact h
    · exact streamApply_head api st _ x h

theorem streamLine_head {σ : Type} (api : FsApi σ) (all : Bool) (st : StreamState σ)
    (line : Str) (x : Option Path) (h : st.pathStack.head? = some x) :
    (streamLine api all st line).pathStack.head? = some x := by
  unfold streamLine
  split
  · exact h
  · split
    · exact h
    · exact streamDecode_head api all _ line x h

theorem foldl_streamLine_head {σ : Type} (api : FsApi σ) (all : Bool) (lines : List Str)
    (st : StreamState σ) (x : Option Path) (h : st.pathStack.head? = some x) :
    (lines.foldl (streamLine api all) st).pathStack.head? = some x := by
  induction lines generalizing st with
  | nil => exact h
  | cons l ls ih => exact ih _ (streamLine_head api all st l x h)

/-- C19.  The root stays at the bottom of the stack.  In the buffered builder and in the
stdin line loop, for every input and whatever the filesystem calls answer, after every
line (after the first `k` lines, for every `k`) `pathStack` is not empty and its element
of index 0 is the resolved target directory; so it is in the state each builder ends in. -/
theorem pathStack_root {σ : Type} (api : FsApi σ) (fs : σ) (targetDir : Path)
    (flag : Bool) :
    (∀ (treeStr : Str) (fs1 : σ) (k : Nat),
      (((linesOf treeStr).take k).foldl (buildLine api flag)
        (buildInit fs1 targetDir)).pathStack.head? = some targetDir) ∧
    (∀ (treeStr : Str) (st : BuildState σ),
      buildStructureFromTree api fs treeStr targetDir flag = some st →
      st.pathStack.head? = some targetDir ∧ st.pathStack ≠ []) ∧
    (∀ (lines : List Str) (fs1 : σ) (k : Nat),
      ((lines.take k).foldl (streamLine api flag)
        (streamInit fs1 targetDir)).pathStack.head? = some (some targetDir)) ∧
    (∀ (lines : List Str) (st : StreamState σ),
      stdinLoop api fs lines targetDir flag = some st →
      st.pathStack.head? = some (some targetDir) ∧ st.pathStack ≠ []) := by
  refine ⟨fun treeStr fs1 k => foldl_buildLine_head api flag _ _ _ rfl, ?_,
    fun lines fs1 k => foldl_streamLine_head api flag _ _ _ rfl, ?_⟩
  · intro treeStr st h
    rw [buildStructureFromTree_eq_fold] at h
    cases hm : api.mkdir fs targetDir with
    | none => rw [hm] at h; cases h
    | some fs1 =>
      rw [hm] at h
      simp only [Option.map_some', Option.some.injEq] at h
      have := foldl_buildLine_head api flag (linesOf treeStr) (buildInit fs1 targetDir)
        targetDir rfl
      rw [h] at this
      exact ⟨this, fun h0 => by rw [h0] at this; cases this⟩
  · intro lines st h
    unfold stdinLoop at h
    cases hm : api.mkdir fs targetDir with
    | none => rw [hm] at h; cases h
    | some fs1 =>
      rw [hm] at h
      simp only [Option.some.injEq] at h
      have := foldl_streamLine_head api flag lines (streamInit fs1 targetDir)
        (some targetDir) rfl
      rw [h] at this
      exact ⟨this, fun h0 => by rw [h0] at this; cases this⟩

/-- Witness for C19: the build of the sample text and the stdin line loop on its lines,
against the target `/out` of an empty filesystem. -/
theorem pathStack_root_witness :
    (∀ st, buildStructureFromTree posixFs [] sampleText ["out".toList] true = some st →
      st.pathStack.head? = some ["out".toList] ∧ st.pathStack ≠ []) ∧
    (∀ st, stdinLoop posixFs [] (splitLines sampleText) ["out".toList] true = some st →
      st.pathStack.head? = some (some ["out".toList]) ∧ st.pathStack ≠ []) :=
  ⟨fun st h => (pathStack_root posixFs [] ["out".toList] true).2.1 sampleText st h,
    fun st h => (pathStack_root posixFs [] ["out".toList] true).2.2.2 (splitLines sampleText)
      st h⟩

/-! ## The build stays inside the target -/

theorem pathJoin_segment (top : Path) (c : Str) (hc : SegmentName c) :
    pathJoin top c = if c = [] then top else top ++ [c] := by
  obtain ⟨hslash, hdot, hdots⟩ := hc
  unfold pathJoin
  rw [splitSlash_of_not_mem c hslash]
  by_cases h : c = []
  · simp [joinSegments, h]
  · simp [joinSegments, h, hdot, hdots]

theorem prefix_pathJoin (target top : Path) (c : Str) (hc : SegmentName c)
    (h : target <+: top) : target <+: pathJoin top c := by
  rw [pathJoin_segment top c hc]
  split
  · exact h
  · exact h.trans (List.prefix_append _ _)

theorem pathDirname_pathJoin (top : Path) (c : Str) (hc : SegmentName c) (hne : c ≠ []) :
    pathDirname (pathJoin top c) = top := by
  rw [pathJoin_segment top c hc, if_neg hne]
  simp [pathDirname]

theorem mem_popStack {depth : Nat} {stack : List Path} {p : Path}
    (h : p ∈ popStack depth stack) : p ∈ stack := by
  rw [popStack_eq_take] at h
  exact List.mem_of_mem_take h

theorem applyEntry_inside {σ : Type} (api : FsApi σ) (st : BuildState σ) (d : Decoded)
    (target : Path) (hc : SegmentName d.cleanName) (hfile : d.isDir = false → d.cleanName ≠ [])
    (h : Inside target st.pathStack st.ops) :
    Inside target (applyEntry api st d).pathStack (applyEntry api st d).ops := by
  obtain ⟨hs, ho⟩ := h
  have hpop : ∀ p ∈ popStack d.depth st.pathStack, target <+: p :=
    fun p hp => hs p (mem_popStack hp)
  unfold applyEntry
  simp only
  split
  · exact ⟨hpop, ho⟩
  · rename_i top htop
    have htop' : target <+: top := hpop top (List.mem_of_getLast?_eq_some htop)
    have hcur : target <+: pathJoin top d.cleanName := prefix_pathJoin target top _ hc htop'
    split
    · split
      · exact ⟨hpop, ho⟩
      · refine ⟨fun p hp => ?_, fun op hop => ?_⟩
        · rcases List.mem_append.1 hp with h1 | h1
          · exact hpop p h1
          · rw [List.mem_singleton] at h1; rw [h1]; exact hcur
        · rcases List.mem_append.1 hop with h1 | h1
          · exact ho op h1
          · rw [List.mem_singleton] at h1; rw [h1]; exact hcur
    · rename_i hdir
      have hparent : pathDirname (pathJoin top d.cleanName) = top :=
        pathDirname_pathJoin top _ hc (hfile (by simpa using hdir))
      split
      · exact ⟨hpop, ho⟩
      · split
        · refine ⟨hpop, fun op hop => ?_⟩
          rcases List.mem_append.1 hop with h1 | h1
          · exact ho op h1
          · rw [List.mem_singleton] at h1; rw [h1, FsOp.path, hparent]; exact htop'
        · refine ⟨hpop, fun op hop => ?_⟩
          rcases List.mem_append.1 hop with h1 | h1
          · exact ho op h1
          · simp only [List.mem_cons, List.mem_singleton, List.not_mem_nil, or_false] at h1
            rcases h1 with h1 | h1
            · rw [h1, FsOp.path, hparent]; exact htop'
            · rw [h1]; exact hcur

theorem cleanName_ne_nil_of_file (line : Str) (hname : (decodeLine line).name ≠ [])
    (hfile : (decodeLine line).isDir = false) : (decodeLine line).cleanName ≠ [] := by
  unfold decodeLine at *
  simp only at *
  unfold stripSlash
  rw [hfile]
  simpa using hname

theorem buildLine_inside {σ : Type} (api : FsApi σ) (cf : Bool) (st : BuildState σ)
    (line : Str) (target : Path) (hc : SegmentName (decodeLine line).cleanName)
    (h : Inside target st.pathStack st.ops) :
    Inside target (buildLine api cf st line).pathStack (buildLine api cf st line).ops := by
  unfold buildLine
  simp only
  split
  · exact h
  · rename_i hname
    split
    · exact h
    · exact applyEntry_inside api st _ target hc
        (fun hf => cleanName_ne_nil_of_file line hname hf) h

theorem foldl_buildLine_inside {σ : Type} (api : FsApi σ) (cf : Bool) (target : Path)
    (lines : List Str) (st : BuildState σ)
    (hc : ∀ line ∈ lines, SegmentName (decodeLine line).cleanName)
    (h : Inside target st.pathStack st.ops) :
    Inside target (lines.foldl (buildLine api cf) st).pathStack
      (lines.foldl (buildLine api cf) st).ops := by
  induction lines generalizing st with
  | nil => exact h
  | cons l ls ih =>
    exact ih _ (fun x hx => hc x (List.mem_cons_of_mem _ hx))
      (buildLine_inside api cf st l target (hc l (List.mem_cons_self _ _)) h)

/-- C20 (amended).  The build stays inside the target: when the bare name decoded from
every line the builder loops over contains no `'/'` and is neither `.` nor `..`, every
path a filesystem call of `buildStructureFromTree` succeeds on, and every path on its
stack, is the resolved target directory or lies below it, whatever the filesystem calls
answer. -/
theorem buildStructureFromTree_inside {σ : Type} (api : FsApi σ) (fs : σ) (treeStr : Str)
    (targetDir : Path) (createFiles : Bool) (st : BuildState σ)
    (hnames : ∀ line ∈ linesOf treeStr, SegmentName (decodeLine line).cleanName)
    (hbuild : buildStructureFromTree api fs treeStr targetDir createFiles = some st) :
    (∀ op ∈ st.ops, targetDir <+: op.path) ∧ (∀ p ∈ st.pathStack, targetDir <+: p) := by
  rw [buildStructureFromTree_eq_fold] at hbuild
  cases hm : api.mkdir fs targetDir with
  | none => rw [hm] at hbuild; cases hbuild
  | some fs1 =>
    rw [hm] at hbuild
    simp only [Option.map_some', Option.some.injEq] at hbuild
    have hinit : Inside targetDir (buildInit fs1 targetDir).pathStack
        (buildInit fs1 targetDir).ops := by
      refine ⟨fun p hp => ?_, fun op hop => ?_⟩
      · simp only [buildInit, List.mem_singleton] at hp
        rw [hp]
      · simp only [buildInit, List.mem_singleton] at hop
        rw [hop, FsOp.path]
    have := foldl_buildLine_inside api createFiles targetDir (linesOf treeStr)
      (buildInit fs1 targetDir) hnames hinit
    rw [hbuild] at this
    exact ⟨this.2, this.1⟩

/-- Witness for C20 (amended): the build of the sample text against the target `/out` of
an empty filesystem. -/
theorem buildStructureFromTree_inside_witness :
    (∀ line ∈ linesOf sampleText, SegmentName (decodeLine line).cleanName) ∧
    ∀ st, buildStructureFromTree posixFs [] sampleText ["out".toList] true = some st →
      (∀ op ∈ st.ops, ["out".toList] <+: op.path) ∧
      (∀ p ∈ st.pathStack, ["out".toList] <+: p) :=
  ⟨by decide, fun st h =>
    buildStructureFromTree_inside posixFs [] sampleText ["out".toList] true st (by decide) h⟩

/-- C20 as stated fails: in the text `'root/\n└── ../\n    └── evil/'` no decoded bare name
contains a path separator, and the build against the target `/t` creates the directory
`/evil`, outside the target: `path.join` resolves the name `..` to the parent of the
target, which is pushed onto the stack. -/
theorem buildStructureFromTree_escapes :
    (∀ line ∈ linesOf dotDotText, '/' ∉ (decodeLine line).cleanName) ∧
    (buildStructureFromTree posixFs [] dotDotText ["t".toList] true).map
        (fun st => st.ops) =
      some [FsOp.mkdirTarget ["t".toList], FsOp.mkdirEntry [],
        FsOp.mkdirEntry ["evil".toList]] ∧
    (buildStructureFromTree posixFs [] dotDotText ["t".toList] true).map
        (fun st => Fs.lookup st.fs ["evil".toList]) = some (some Node.dir) ∧
    ¬ ["t".toList] <+: ["evil".toList] := by
  refine ⟨by decide, by decide, by decide, by decide⟩

/-! ## The first line -/

theorem drop_one_splitLines (t : Str) : (splitLines t).drop 1 = linesAfterFirstNewline t := by
  induction t with
  | nil => rfl
  | cons c rest ih =>
    unfold linesAfterFirstNewline at ih ⊢
    rw [splitLines, afterFirstNewline]
    by_cases hc : c = '\n'
    · simp [hc]
    · rw [if_neg hc, if_neg hc, ← ih]
      cases hs : splitLines rest with
      | nil => exact absurd hs (splitLines_ne_nil rest)
      | cons l ls => rfl

/-- C13 (amended).  The first line of the trimmed text is discarded, whatever it contains,
and every later line is processed: the build creates the target and then folds the
per-line step over exactly the lines after the first line feed of `treeStr.trim()`. -/
theorem buildStructureFromTree_first_line {σ : Type} (api : FsApi σ) (fs : σ)
    (treeStr : Str) (targetDir : Path) (createFiles : Bool) :
    linesOf treeStr = linesAfterFirstNewline (jsTrim treeStr) ∧
    buildStructureFromTree api fs treeStr targetDir createFiles =
      (api.mkdir fs targetDir).map (fun fs1 =>
        (linesAfterFirstNewline (jsTrim treeStr)).foldl (buildLine api createFiles)
          (buildInit fs1 targetDir)) := by
  have h : linesOf treeStr = linesAfterFirstNewline (jsTrim treeStr) :=
    drop_one_splitLines (jsTrim treeStr)
  refine ⟨h, ?_⟩
  rw [buildStructureFromTree_eq_fold, h]

/-- C13 as stated fails: the text `'\n├── a/\n├── b/'` starts with a blank line; the lines
after its first line feed are `'├── a/'` and `'├── b/'`, and folding the per-line step
over them creates `/t/a` and `/t/b`, but the build creates only `/t/b`: the text is
trimmed first, so the line discarded is `'├── a/'`. -/
theorem buildStructureFromTree_trims_first :
    linesAfterFirstNewline leadingBlankText = ["├── a/".toList, "├── b/".toList] ∧
    ((linesAfterFirstNewline leadingBlankText).foldl (buildLine posixFs true)
        (buildInit [(["t".toList], Node.dir)] ["t".toList])).ops =
      [FsOp.mkdirTarget ["t".toList], FsOp.mkdirEntry ["t".toList, "a".toList],
        FsOp.mkdirEntry ["t".toList, "b".toList]] ∧
    (buildStructureFromTree posixFs [] leadingBlankText ["t".toList] true).map
        (fun st => st.ops) =
      some [FsOp.mkdirTarget ["t".toList], FsOp.mkdirEntry ["t".toList, "b".toList]] := by
  refine ⟨by decide, by decide, by decide⟩

/-! ## Skipped lines -/

theorem buildLine_of_name_nil {σ : Type} (api : FsApi σ) (cf : Bool) (st : BuildState σ)
    (line : Str) (h : (decodeLine line).name = []) : buildLine api cf st line = st := by
  unfold buildLine
  simp [h]

theorem streamDecode_of_name_nil {σ : Type} (api : FsApi σ) (all : Bool)
    (st : StreamState σ) (line : Str) (h : (decodeLine line).name = []) :
    streamDecode api all st line = st := by
  unfold streamDecode
  simp [h]

theorem streamLine_of_name_nil {σ : Type} (api : FsApi σ) (all : Bool) (st : StreamState σ)
    (line : Str) (h : (decodeLine line).name = []) :
    streamLine api all st line = st ∨
    streamLine api all st line = { st with foundFirstValidLine := true } := by
  unfold streamLine
  split
  · left; rfl
  · split
    · left; rfl
    · right; exact streamDecode_of_name_nil api all _ line h

theorem streamState_found_eta {σ : Type} (st : StreamState σ)
    (h : st.foundFirstValidLine = true) : { st with foundFirstValidLine := true } = st := by
  cases st
  simp only at h
  simp [h]

theorem streamLine_of_name_nil_eq {σ : Type} (api : FsApi σ) (all : Bool)
    (st : StreamState σ) (line : Str) (h : (decodeLine line).name = [])
    (hfound : st.foundFirstValidLine = true ∨ isHierarchyLine line = false) :
    streamLine api all st line = st := by
  unfold streamLine
  split
  · rfl
  · rcases hfound with hf | hh
    · simp only [hf, Bool.not_true, Bool.false_and, Bool.false_eq_true, if_false]
      rw [streamState_found_eta st hf]
      exact streamDecode_of_name_nil api all st line h
    · cases hf : st.foundFirstValidLine with
      | true =>
        simp only [Bool.not_true, Bool.false_and, Bool.false_eq_true, if_false]
        rw [streamState_found_eta st hf]
        exact streamDecode_of_name_nil api all st line h
      | false => simp [hh]

/-- C16 (amended).  A line whose name is empty after removing the comment and trimming is
skipped.  In the buffered builder it leaves the state unchanged, so the remaining lines
are processed as if it were absent.  In the stdin line loop it makes no filesystem call
and leaves `pathStack` and `lastDepth` unchanged, but it can still set
`foundFirstValidLine`; when that variable is already set, or the line is not a hierarchy
line, the state is unchanged and the remaining lines are processed as if it were
absent. -/
theorem skipped_line_noop {σ : Type} (api : FsApi σ) (flag : Bool) (line : Str)
    (hname : (decodeLine line).name = []) :
    (∀ (st : BuildState σ) (rest : List Str),
      buildLine api flag st line = st ∧
      (line :: rest).foldl (buildLine api flag) st = rest.foldl (buildLine api flag) st) ∧
    (∀ st : StreamState σ,
      (streamLine api flag st line).fs = st.fs ∧
      (streamLine api flag st line).pathStack = st.pathStack ∧
      (streamLine api flag st line).ops = st.ops ∧
      (streamLine api flag st line).lastDepth = st.lastDepth) ∧
    (∀ (st : StreamState σ) (rest : List Str),
      st.foundFirstValidLine = true ∨ isHierarchyLine line = false →
      streamLine api flag st line = st ∧
      (line :: rest).foldl (streamLine api flag) st =
        rest.foldl (streamLine api flag) st) := by
  refine ⟨fun st rest => ?_, fun st => ?_, fun st rest hf => ?_⟩
  · have h := buildLine_of_name_nil api flag st line hname
    exact ⟨h, by rw [List.foldl_cons, h]⟩
  · rcases streamLine_of_name_nil api flag st line hname with h | h <;> rw [h] <;>
      exact ⟨rfl, rfl, rfl, rfl⟩
  · have h := streamLine_of_name_nil_eq api flag st line hname hf
    exact ⟨h, by rw [List.foldl_cons, h]⟩

/-- Witness for C16 (amended): the line `'├── # comment'`, on the model filesystem. -/
theorem skipped_line_noop_witness :
    (decodeLine "├── # comment".toList).name = [] ∧
    (∀ (st : BuildState Fs) (rest : List Str),
      buildLine posixFs true st "├── # comment".toList = st ∧
      ("├── # comment".toList :: rest).foldl (buildLine posixFs true) st =
        rest.foldl (buildLine posixFs true) st) :=
  ⟨by decide, (skipped_line_noop posixFs true "├── # comment".toList (by decide)).1⟩

/-- C16 as stated fails for the stdin line loop: the line `'├── # comment'` has an empty
name, yet it is a hierarchy line and sets `foundFirstValidLine`, so the line `'docs/'`
after it is applied and creates `/t/docs`, while without the comment line it is skipped
as a root path. -/
theorem stdinLoop_comment_line_counts :
    (decodeLine "├── # comment".toList).name = [] ∧
    (stdinLoop posixFs [] ["├── # comment".toList, "docs/".toList] ["t".toList] true).map
        (fun st => st.ops) =
      some [FsOp.mkdirTarget ["t".toList], FsOp.mkdirEntry ["t".toList, "docs".toList]] ∧
    (stdinLoop posixFs [] ["docs/".toList] ["t".toList] true).map (fun st => st.ops) =
      some [FsOp.mkdirTarget ["t".toList]] := by
  refine ⟨by decide, by decide, by decide⟩

/-! ## The entry heuristic of the stdin line loop -/

theorem forall_space_of_jsTrim_eq_nil (l : Str) (h : jsTrim l = []) :
    ∀ c ∈ l, isJsSpace c = true := by
  unfold jsTrim at h
  have h1 : l.dropWhile isJsSpace = [] := by
    cases hd : l.dropWhile isJsSpace with
    | nil => rfl
    | cons a t =>
      exfalso
      have hhead := List.head?_dropWhile_not isJsSpace l
      rw [hd] at hhead h
      simp only [List.head?_cons] at hhead
      rw [List.rdropWhile_eq_nil_iff] at h
      have := h a (List.mem_cons_self _ _)
      rw [hhead] at this
      cases this
  rw [List.dropWhile_eq_nil_iff] at h1
  exact h1

theorem jsTrim_ne_nil_of_mem (l : Str) (c : Char) (hc : c ∈ l) (hs : isJsSpace c = false) :
    jsTrim l ≠ [] := by
  intro h
  have := forall_space_of_jsTrim_eq_nil l h c hc
  rw [hs] at this
  cases this

theorem jsTrim_ne_nil_of_hierarchy (line : Str) (h : isHierarchyLine line = true) :
    jsTrim line ≠ [] := by
  unfold isHierarchyLine includesStr at h
  simp only [Bool.or_eq_true, decide_eq_true_eq] at h
  rcases h with (h | h) | h
  · exact jsTrim_ne_nil_of_mem line '├' (h.subset (by simp)) (by decide)
  · exact jsTrim_ne_nil_of_mem line '└' (h.subset (by simp)) (by decide)
  · exact jsTrim_ne_nil_of_mem line '│' (h.subset (by simp)) (by decide)

theorem streamApply_found {σ : Type} (api : FsApi σ) (st : StreamState σ) (d : Decoded) :
    (streamApply api st d).foundFirstValidLine = st.foundFirstValidLine := by
  unfold streamApply
  simp only
  split
  · split
    · split <;> rfl
    · split
      · rfl
      · split <;> rfl
  · rfl

theorem streamDecode_found {σ : Type} (api : FsApi σ) (all : Bool) (st : StreamState σ)
    (line : Str) :
    (streamDecode api all st line).foundFirstValidLine = st.foundFirstValidLine := by
  unfold streamDecode
  simp only
  split
  · rfl
  · split
    · rfl
    · exact streamApply_found api st _

theorem streamLine_before_first {σ : Type} (api : FsApi σ) (all : Bool)
    (st : StreamState σ) (line : Str) (hf : st.foundFirstValidLine = false)
    (hh : isHierarchyLine line = false) : streamLine api all st line = st := by
  unfold streamLine
  split
  · rfl
  · simp [hf, hh]

theorem foldl_streamLine_before_first {σ : Type} (api : FsApi σ) (all : Bool)
    (lines : List Str) (st : StreamState σ) (hf : st.foundFirstValidLine = false)
    (hh : ∀ l ∈ lines, isHierarchyLine l = false) :
    lines.foldl (streamLine api all) st = st := by
  induction lines with
  | nil => rfl
  | cons l ls ih =>
    rw [List.foldl_cons, streamLine_before_first api all st l hf
      (hh l (List.mem_cons_self _ _))]
    exact ih (fun x hx => hh x (List.mem_cons_of_mem _ hx))

theorem streamLine_of_found {σ : Type} (api : FsApi σ) (all : Bool) (st : StreamState σ)
    (line : Str) (hf : st.foundFirstValidLine = true) (hb : jsTrim line ≠ []) :
    streamLine api all st line = streamDecode api all st line := by
  unfold streamLine
  rw [if_neg hb]
  simp only [hf, Bool.not_true, Bool.false_and, Bool.false_eq_true, if_false]
  rw [streamState_found_eta st hf]

theorem streamLine_found_mono {σ : Type} (api : FsApi σ) (all : Bool) (st : StreamState σ)
    (line : Str) (hf : st.foundFirstValidLine = true) :
    (streamLine api all st line).foundFirstValidLine = true := by
  unfold streamLine
  split
  · exact hf
  · split
    · exact hf
    · rw [streamDecode_found]

theorem streamLine_found_of_hierarchy {σ : Type} (api : FsApi σ) (all : Bool)
    (st : StreamState σ) (line : Str) (hh : isHierarchyLine line = true) :
    (streamLine api all st line).foundFirstValidLine = true := by
  unfold streamLine
  rw [if_neg (jsTrim_ne_nil_of_hierarchy line hh)]
  have hr : isRootPathLine line = false := by
    unfold isRootPathLine
    simp [hh]
  simp only [hh, hr, Bool.not_true, Bool.or_self, Bool.and_false, Bool.false_eq_true,
    if_false]
  rw [streamDecode_found]

theorem foldl_streamLine_found {σ : Type} (api : FsApi σ) (all : Bool) (lines : List Str)
    (st : StreamState σ) (hf : st.foundFirstValidLine = true) :
    (lines.foldl (streamLine api all) st).foundFirstValidLine = true := by
  induction lines generalizing st with
  | nil => exact hf
  | cons l ls ih => exact ih _ (streamLine_found_mono api all st l hf)

/-- C15.  The entry heuristic of the stdin line loop.  As long as no hierarchy line has
arrived, every line leaves the whole state unchanged: no filesystem call, the same
`pathStack` and `lastDepth`.  A hierarchy line sets `foundFirstValidLine`, and once set it
stays set; from then on every non-blank line is handed to the decoding and creation part
of the loop. -/
theorem streamLine_entry_heuristic {σ : Type} (api : FsApi σ) (all : Bool) :
    (∀ (st : StreamState σ) (line : Str), st.foundFirstValidLine = false →
      isHierarchyLine line = false → streamLine api all st line = st) ∧
    (∀ (fs1 : σ) (targetDir : Path) (lines : List Str),
      (∀ l ∈ lines, isHierarchyLine l = false) →
      lines.foldl (streamLine api all) (streamInit fs1 targetDir) =
        streamInit fs1 targetDir) ∧
    (∀ (st : StreamState σ) (line : Str), isHierarchyLine line = true →
      (streamLine api all st line).foundFirstValidLine = true) ∧
    (∀ (st : StreamState σ) (lines : List Str), st.foundFirstValidLine = true →
      (lines.foldl (streamLine api all) st).foundFirstValidLine = true) ∧
    (∀ (st : StreamState σ) (line : Str), st.foundFirstValidLine = true →
      jsTrim line ≠ [] → streamLine api all st line = streamDecode api all st line) :=
  ⟨streamLine_before_first api all,
    fun fs1 targetDir lines hh =>
      foldl_streamLine_before_first api all lines (streamInit fs1 targetDir) rfl hh,
    streamLine_found_of_hierarchy api all,
    fun st lines hf => foldl_streamLine_found api all lines st hf,
    streamLine_of_found api all⟩

/-- Witness for C15: the root line `'root/'` before any hierarchy line, and the hierarchy
line `'├── src/'`, on the model filesystem. -/
theorem streamLine_entry_heuristic_witness :
    (isHierarchyLine "root/".toList = false ∧
      streamLine posixFs true (streamInit [] ["out".toList]) "root/".toList =
        streamInit [] ["out".toList]) ∧
    (isHierarchyLine "├── src/".toList = true ∧
      (streamLine posixFs true (streamInit [] ["out".toList])
        "├── src/".toList).foundFirstValidLine = true) :=
  ⟨⟨by decide, (streamLine_entry_heuristic posixFs true).1 _ _ rfl (by decide)⟩,
    ⟨by decide, (streamLine_entry_heuristic posixFs true).2.2.1 _ _ (by decide)⟩⟩

/-! ## Lines joined by line feeds -/

theorem joinLines_cons_cons (l l2 : Str) (ls : List Str) :
    joinLines (l :: l2 :: ls) = l ++ '\n' :: joinLines (l2 :: ls) := rfl

theorem splitLines_joinLines (l : Str) (ls : List Str) (h : ∀ x ∈ l :: ls, '\n' ∉ x) :
    splitLines (joinLines (l :: ls)) = l :: ls := by
  induction ls generalizing l with
  | nil => exact splitLines_of_not_mem l (h l (List.mem_cons_self _ _))
  | cons l2 ls ih =>
    rw [joinLines_cons_cons, splitLines_append_nl l _ (h l (List.mem_cons_self _ _)),
      ih l2 (fun x hx => h x (List.mem_cons_of_mem _ hx))]

theorem joinLines_last (l : Str) (ls : List Str) (x : Str)
    (hx : (l :: ls).getLast? = some x) (hne : x ≠ []) :
    joinLines (l :: ls) ≠ [] ∧ (joinLines (l :: ls)).getLast? = x.getLast? := by
  induction ls generalizing l with
  | nil =>
    simp only [List.getLast?_singleton, Option.some.injEq] at hx
    subst hx
    exact ⟨hne, rfl⟩
  | cons l2 ls ih =>
    rw [List.getLast?_cons_cons] at hx
    obtain ⟨h1, h2⟩ := ih l2 hx
    rw [joinLines_cons_cons]
    refine ⟨by simp, ?_⟩
    rw [List.getLast?_append_of_ne_nil _ (by simp), ← List.singleton_append,
      List.getLast?_append_of_ne_nil _ h1, h2]

theorem dropWhile_append_of_ne_nil (p : Char → Bool) (a rest : Str)
    (h : a.dropWhile p ≠ []) : (a ++ rest).dropWhile p = a.dropWhile p ++ rest := by
  induction a with
  | nil => exact absurd rfl h
  | cons x a ih =>
    rw [List.cons_append, List.dropWhile_cons, List.dropWhile_cons]
    rw [List.dropWhile_cons] at h
    split
    · rename_i hx
      simp only [hx, if_true] at h
      exact ih h
    · rfl

theorem dropWhile_ne_nil_of_jsTrim (a : Str) (h : jsTrim a ≠ []) :
    a.dropWhile isJsSpace ≠ [] := by
  intro h0
  apply h
  unfold jsTrim
  rw [h0]
  rfl

/-- The lines the buffered builder loops over, for lines joined by line feeds: the lines
after the first, when the first line is not blank and the last line does not end in white
space. -/
theorem linesOf_joinLines (first : Str) (rest : List Str) (hfirst : jsTrim first ≠ [])
    (hnl : ∀ x ∈ first :: rest, '\n' ∉ x)
    (hlast : ∀ l ∈ rest.getLast?, l ≠ [] ∧ ∀ c ∈ l.getLast?, isJsSpace c = false) :
    linesOf (joinLines (first :: rest)) = rest := by
  unfold linesOf
  cases rest with
  | nil =>
    have h1 : '\n' ∉ jsTrim first := fun h =>
      hnl first (List.mem_cons_self _ _) (mem_of_mem_jsTrim _ _ h)
    simp only [joinLines]
    rw [splitLines_of_not_mem _ h1]
    rfl
  | cons l ls =>
    have hd := dropWhile_ne_nil_of_jsTrim first hfirst
    obtain ⟨x, hx⟩ : ∃ x, (l :: ls).getLast? = some x :=
      ⟨(l :: ls).getLast (by simp), List.getLast?_eq_getLast _ _⟩
    obtain ⟨hxne, hxlast⟩ := hlast x hx
    obtain ⟨hjoin, hjlast⟩ := joinLines_last l ls x hx hxne
    have htrim : jsTrim (joinLines (first :: l :: ls)) =
        first.dropWhile isJsSpace ++ '\n' :: joinLines (l :: ls) := by
      unfold jsTrim
      rw [joinLines_cons_cons, dropWhile_append_of_ne_nil isJsSpace first _ hd,
        List.rdropWhile_eq_self_iff]
      intro hne
      have hg := List.getLast?_eq_getLast _ hne
      generalize (List.dropWhile isJsSpace first ++ '\n' :: joinLines (l :: ls)).getLast hne = c
        at hg ⊢
      rw [List.getLast?_append_of_ne_nil _ (by simp), ← List.singleton_append,
        List.getLast?_append_of_ne_nil _ hjoin, hjlast] at hg
      exact Bool.eq_false_iff.1 (hxlast _ hg)
    have h1 : '\n' ∉ first.dropWhile isJsSpace := fun h =>
      hnl first (List.mem_cons_self _ _) ((List.dropWhile_sublist _).subset h)
    rw [htrim, splitLines_append_nl _ _ h1,
      splitLines_joinLines l ls (fun x hx => hnl x (List.mem_cons_of_mem _ hx))]
    rfl

/-! ## The stdin line loop against the buffered builder -/

theorem popSlots_map_some (depth : Nat) (stack : List Path) :
    popSlots depth (stack.map some) = (popStack depth stack).map some := by
  rw [popSlots_eq_take, popStack_eq_take, List.map_take]

theorem setLength_of_length (n : Nat) (stack : List (Option Path)) (h : stack.length = n) :
    setLength n stack = stack := by
  unfold setLength
  rw [List.take_of_length_le (by omega), h, Nat.sub_self]
  simp

theorem streamApply_sim {σ : Type} (api : FsApi σ) (s : StreamState σ) (b : BuildState σ)
    (d : Decoded) (hrel : s.view = b.view)
    (hno : ¬ (d.depth < s.lastDepth ∧
      (popSlots d.depth s.pathStack).length < d.depth + 1)) :
    (streamApply api s d).view = (applyEntry api b d).view := by
  obtain ⟨sfs, sstack, sops, slast, sfound⟩ := s
  obtain ⟨bfs, bstack, bops⟩ := b
  simp only [StreamState.view, BuildState.view, Prod.mk.injEq] at hrel
  obtain ⟨rfl, rfl, rfl⟩ := hrel
  simp only at hno
  have hstack : (if d.depth < slast then
        setLength (d.depth + 1) (popSlots d.depth (bstack.map some))
      else popSlots d.depth (bstack.map some)) = (popStack d.depth bstack).map some := by
    split
    · rename_i hlt
      have hlen : (popSlots d.depth (bstack.map some)).length = d.depth + 1 := by
        have h1 : ¬ (popSlots d.depth (bstack.map some)).length < d.depth + 1 :=
          fun h => hno ⟨hlt, h⟩
        have h2 : (popSlots d.depth (bstack.map some)).length ≤ d.depth + 1 := by
          rw [popSlots_eq_take, List.length_take]
          exact Nat.min_le_left _ _
        omega
      rw [setLength_of_length _ _ hlen, popSlots_map_some]
    · exact popSlots_map_some _ _
  unfold streamApply applyEntry
  simp only [hstack, List.getLast?_map]
  cases (popStack d.depth bstack).getLast? with
  | none => rfl
  | some top =>
    simp only [Option.map_some']
    cases d.isDir with
    | true =>
      simp only [if_true]
      cases api.mkdir sfs (pathJoin top d.cleanName) with
      | none => rfl
      | some fs1 => simp [StreamState.view, BuildState.view]
    | false =>
      simp only [Bool.false_eq_true, if_false]
      cases api.mkdir sfs (pathDirname (pathJoin top d.cleanName)) with
      | none => rfl
      | some fs1 =>
        simp only
        cases api.writeFile fs1 (pathJoin top d.cleanName) <;> rfl

theorem streamLine_sim {σ : Type} (api : FsApi σ) (all : Bool) (s : StreamState σ)
    (b : BuildState σ) (line : Str) (hrel : s.view = b.view)
    (hh : isHierarchyLine line = true) (hno : stretches all s line = false) :
    (streamLine api all s line).view = (buildLine api all b line).view := by
  have hb := jsTrim_ne_nil_of_hierarchy line hh
  have hr : isRootPathLine line = false := by
    unfold isRootPathLine
    simp [hh]
  unfold streamLine
  rw [if_neg hb]
  simp only [hh, hr, Bool.not_true, Bool.or_self, Bool.and_false, Bool.false_eq_true,
    if_false]
  unfold streamDecode buildLine
  simp only
  by_cases hname : (decodeLine line).name = []
  · rw [if_pos hname, if_pos hname]
    exact hrel
  · rw [if_neg hname, if_neg hname]
    by_cases hskip : (!(decodeLine line).isDir && !all) = true
    · rw [if_pos hskip, if_pos hskip]
      exact hrel
    · rw [if_neg hskip, if_neg hskip]
      refine streamApply_sim api
        { s with foundFirstValidLine := true } b (decodeLine line) hrel ?_
      rintro ⟨h1, h2⟩
      have hflag : ((decodeLine line).isDir || all) = true := by
        cases hd : (decodeLine line).isDir <;> cases ha : all <;> simp_all
      unfold stretches at hno
      simp [hb, hh, hr, hname, hflag, h1, h2] at hno

theorem connector_hierarchy (line : Str)
    (h : Occurs connBranch line ∨ Occurs connCorner line) : isHierarchyLine line = true := by
  unfold isHierarchyLine includesStr
  simp only [Bool.or_eq_true, decide_eq_true_eq]
  rcases h with h | h
  · left; left
    exact List.IsInfix.trans ⟨[], [' '], rfl⟩ h
  · left; right
    exact List.IsInfix.trans ⟨[], [' '], rfl⟩ h

theorem foldl_streamLine_sim {σ : Type} (api : FsApi σ) (all : Bool) (lines : List Str)
    (s : StreamState σ) (b : BuildState σ) (hrel : s.view = b.view)
    (hh : ∀ l ∈ lines, isHierarchyLine l = true)
    (hno : noStretch api all s lines = true) :
    (lines.foldl (streamLine api all) s).view = (lines.foldl (buildLine api all) b).view := by
  induction lines generalizing s b with
  | nil => exact hrel
  | cons l ls ih =>
    rw [noStretch, Bool.and_eq_true] at hno
    rw [List.foldl_cons, List.foldl_cons]
    exact ih _ _
      (streamLine_sim api all s b l hrel (hh l (List.mem_cons_self _ _))
        (by simpa using hno.1))
      (fun x hx => hh x (List.mem_cons_of_mem _ hx)) hno.2

theorem stdinLoop_eq_build {σ : Type} (api : FsApi σ) (fs : σ) (first : Str)
    (rest : List Str) (targetDir : Path) (all : Bool)
    (hfirst : isHierarchyLine first = false ∧ jsTrim first ≠ [])
    (hnl : ∀ x ∈ first :: rest, '\n' ∉ x)
    (hrest : ∀ l ∈ rest, Occurs connBranch l ∨ Occurs connCorner l)
    (hlast : ∀ l ∈ rest.getLast?, ∀ c ∈ l.getLast?, isJsSpace c = false)
    (hno : ∀ fs1, api.mkdir fs targetDir = some fs1 →
      noStretch api all (streamInit fs1 targetDir) (first :: rest) = true) :
    (stdinLoop api fs (first :: rest) targetDir all).map StreamState.view =
      (buildStructureFromTree api fs (joinLines (first :: rest)) targetDir all).map
        BuildState.view := by
  have hlines : linesOf (joinLines (first :: rest)) = rest := by
    apply linesOf_joinLines first rest hfirst.2 hnl
    intro l hl
    refine ⟨?_, hlast l hl⟩
    have hmem := List.mem_of_getLast?_eq_some hl
    have := jsTrim_ne_nil_of_hierarchy l (connector_hierarchy l (hrest l hmem))
    intro h0
    rw [h0] at this
    exact this rfl
  rw [buildStructureFromTree_eq_fold, hlines]
  unfold stdinLoop
  cases hm : api.mkdir fs targetDir with
  | none => rfl
  | some fs1 =>
    simp only [Option.map_some', Option.some.injEq]
    have hno1 := hno fs1 hm
    rw [noStretch, Bool.and_eq_true,
      streamLine_before_first api all _ first rfl hfirst.1] at hno1
    rw [List.foldl_cons, streamLine_before_first api all _ first rfl hfirst.1]
    exact foldl_streamLine_sim api all rest _ _ rfl
      (fun l hl => connector_hierarchy l (hrest l hl)) hno1.2

/-- C12 (amended).  The stdin line loop against the buffered builder.  Take lines without
line feeds: a first line that is not blank and has no hierarchy glyph, then lines that
each contain a connector, the last of which does not end in white space; and suppose that
no line, when it arrives, has its stack lengthened by the assignment
`pathStack.length = depth + 1`.  Then the stdin line loop and `buildStructureFromTree`, run
on these lines joined by line feeds with the same target and flag, both fail to create
the target or end with the same filesystem, the same stack and the same sequence of
successful directory and file creations. -/
theorem stdinLoop_refines {σ : Type} (api : FsApi σ) (fs : σ) (first : Str)
    (rest : List Str) (targetDir : Path) (all : Bool)
    (hfirst : isHierarchyLine first = false ∧ jsTrim first ≠ [])
    (hnl : ∀ x ∈ first :: rest, '\n' ∉ x)
    (hrest : ∀ l ∈ rest, Occurs connBranch l ∨ Occurs connCorner l)
    (hlast : ∀ l ∈ rest.getLast?, ∀ c ∈ l.getLast?, isJsSpace c = false)
    (hno : ∀ fs1, api.mkdir fs targetDir = some fs1 →
      noStretch api all (streamInit fs1 targetDir) (first :: rest) = true) :
    (stdinLoop api fs (first :: rest) targetDir all).map StreamState.view =
      (buildStructureFromTree api fs (joinLines (first :: rest)) targetDir all).map
        BuildState.view :=
  stdinLoop_eq_build api fs first rest targetDir all hfirst hnl hrest hlast hno

theorem mkdirp_empty_out :
    posixFs.mkdir [] ["out".toList] = some [(["out".toList], Node.dir)] := by
  decide

/-- Witness for C12 (amended): the lines of the sample text, against the target `/out` of
an empty filesystem. -/
theorem stdinLoop_refines_witness :
    (isHierarchyLine "root/".toList = false ∧ jsTrim "root/".toList ≠ []) ∧
    (∀ l ∈ ["├── src/".toList, "│   └── main.txt".toList, "└── README.md".toList],
      Occurs connBranch l ∨ Occurs connCorner l) ∧
    (stdinLoop posixFs []
        ("root/".toList ::
          ["├── src/".toList, "│   └── main.txt".toList, "└── README.md".toList])
        ["out".toList] true).map StreamState.view =
      (buildStructureFromTree posixFs []
        (joinLines ("root/".toList ::
          ["├── src/".toList, "│   └── main.txt".toList, "└── README.md".toList]))
        ["out".toList] true).map BuildState.view :=
  ⟨by decide, by decide,
    stdinLoop_refines posixFs [] "root/".toList
      ["├── src/".toList, "│   └── main.txt".toList, "└── README.md".toList]
      ["out".toList] true (by decide) (by decide) (by decide) (by decide)
      (fun fs1 h => by
        rw [mkdirp_empty_out] at h
        cases h
        decide)⟩

/-- C12 as stated fails.  On the lines `'root/'`, `'├── x/'`, `'└── a/    '` the stdin line
loop counts the four spaces that end the last line as a unit and creates `/t/x/a`, while
the buffered builder trims the joined text and creates `/t/a`.  On the lines `'root/'`,
`'│   │   │   └── a/'`, `'│   │   └── b/'`, whose depth jumps, the assignment
`pathStack.length = depth + 1` lengthens the stack of the stdin line loop with an empty
slot, the join fails and only `/t/a` is created, while the buffered builder creates
`/t/a` and `/t/a/b`. -/
theorem stdinLoop_differs :
    ((∀ l ∈ trailingSpaceLines.drop 1, Occurs connBranch l ∨ Occurs connCorner l) ∧
      (stdinLoop posixFs [] trailingSpaceLines ["t".toList] true).map (fun st => st.ops) =
        some [FsOp.mkdirTarget ["t".toList], FsOp.mkdirEntry ["t".toList, "x".toList],
          FsOp.mkdirEntry ["t".toList, "x".toList, "a".toList]] ∧
      (buildStructureFromTree posixFs [] (joinLines trailingSpaceLines) ["t".toList]
          true).map (fun st => st.ops) =
        some [FsOp.mkdirTarget ["t".toList], FsOp.mkdirEntry ["t".toList, "x".toList],
          FsOp.mkdirEntry ["t".toList, "a".toList]]) ∧
    ((∀ l ∈ depthJumpLines.drop 1, Occurs connBranch l ∨ Occurs connCorner l) ∧
      (stdinLoop posixFs [] depthJumpLines ["t".toList] true).map
          (fun st => (st.ops, st.pathStack)) =
        some ([FsOp.mkdirTarget ["t".toList], FsOp.mkdirEntry ["t".toList, "a".toList]],
          [some ["t".toList], some ["t".toList, "a".toList], none]) ∧
      (buildStructureFromTree posixFs [] (joinLines depthJumpLines) ["t".toList]
          true).map (fun st => st.ops) =
        some [FsOp.mkdirTarget ["t".toList], FsOp.mkdirEntry ["t".toList, "a".toList],
          FsOp.mkdirEntry ["t".toList, "a".toList, "b".toList]]) := by
  refine ⟨⟨by decide, by decide, by decide⟩, ⟨by decide, by decide, by decide⟩⟩


/-! ## A line inserted into the text -/

theorem applyEntry_ops_grow {σ : Type} (api : FsApi σ) (st : BuildState σ) (d : Decoded) :
    st.ops <+: (applyEntry api st d).ops := by
  unfold applyEntry
  simp only
  split
  · exact List.prefix_refl _
  · split
    · split
      · exact List.prefix_refl _
      · exact List.prefix_append _ _
    · split
      · exact List.prefix_refl _
      · split
        · exact List.prefix_append _ _
        · exact List.prefix_append _ _

theorem buildLine_ops_grow {σ : Type} (api : FsApi σ) (createFiles : Bool)
    (st : BuildState σ) (line : Str) : st.ops <+: (buildLine api createFiles st line).ops := by
  unfold buildLine
  simp only
  split
  · exact List.prefix_refl _
  · split
    · exact List.prefix_refl _
    · exact applyEntry_ops_grow api st _

theorem foldl_buildLine_ops_grow {σ : Type} (api : FsApi σ) (createFiles : Bool)
    (lines : List Str) (st : BuildState σ) :
    st.ops <+: (lines.foldl (buildLine api createFiles) st).ops := by
  induction lines generalizing st with
  | nil => exact List.prefix_refl _
  | cons l ls ih =>
    rw [List.foldl_cons]
    exact (buildLine_ops_grow api createFiles st l).trans (ih _)

/-- C14 (amended).  A line inserted into a tree text after its first line: the lines after
the first are `pre ++ post` without it and `pre ++ x :: post` with it.  Then
`buildStructureFromTree` completes on the text with the line exactly when it completes on
the text without it; the part of both runs before the inserted line is the same, so every
creation made for the lines of `pre` is made in both runs, in the same order at the head of
the record; and when nothing is left of the inserted line as a name (a blank line or a
comment line) the two runs end in the same state.  Nothing is said of the entries of the
lines after an inserted line that has a name: that line is decoded as an entry of its
own. -/
theorem buildStructureFromTree_inserted_line {σ : Type} (api : FsApi σ) (fs : σ)
    (treeStr treeStr2 : Str) (pre post : List Str) (x : Str) (targetDir : Path)
    (createFiles : Bool)
    (hwithout : linesOf treeStr = pre ++ post)
    (hwith : linesOf treeStr2 = pre ++ x :: post) :
    (buildStructureFromTree api fs treeStr2 targetDir createFiles).isSome =
        (buildStructureFromTree api fs treeStr targetDir createFiles).isSome ∧
    (∀ fs1, api.mkdir fs targetDir = some fs1 →
      buildStructureFromTree api fs treeStr targetDir createFiles =
          some (post.foldl (buildLine api createFiles)
            (pre.foldl (buildLine api createFiles) (buildInit fs1 targetDir))) ∧
      buildStructureFromTree api fs treeStr2 targetDir createFiles =
          some (post.foldl (buildLine api createFiles)
            (buildLine api createFiles
              (pre.foldl (buildLine api createFiles) (buildInit fs1 targetDir)) x)) ∧
      ∀ st st2, buildStructureFromTree api fs treeStr targetDir createFiles = some st →
        buildStructureFromTree api fs treeStr2 targetDir createFiles = some st2 →
        (pre.foldl (buildLine api createFiles) (buildInit fs1 targetDir)).ops <+: st.ops ∧
        (pre.foldl (buildLine api createFiles) (buildInit fs1 targetDir)).ops <+: st2.ops) ∧
    ((decodeLine x).name = [] →
      buildStructureFromTree api fs treeStr2 targetDir createFiles =
        buildStructureFromTree api fs treeStr targetDir createFiles) := by
  rw [buildStructureFromTree_eq_fold, buildStructureFromTree_eq_fold, hwithout, hwith]
  simp only [List.foldl_append, List.foldl_cons]
  refine ⟨?_, ?_, ?_⟩
  · cases api.mkdir fs targetDir <;> rfl
  · intro fs1 h
    rw [h]
    refine ⟨rfl, rfl, ?_⟩
    intro st st2 hst hst2
    simp only [Option.map_some', Option.some.injEq] at hst hst2
    subst hst
    subst hst2
    exact ⟨foldl_buildLine_ops_grow api createFiles post _,
      (buildLine_ops_grow api createFiles _ x).trans
        (foldl_buildLine_ops_grow api createFiles post _)⟩
  · intro hname
    cases api.mkdir fs targetDir with
    | none => rfl
    | some fs1 =>
      simp only [Option.map_some']
      rw [buildLine_of_name_nil api createFiles _ x hname]

/-- Witness for C14 (amended): the comment line `# note` inserted before the last line of
the rendering of `twoFilesTree`. -/
theorem buildStructureFromTree_inserted_line_witness :
    linesOf twoFilesText =
        ["└── src/".toList, "    ├── a.txt".toList] ++ ["    └── b.txt".toList] ∧
    linesOf twoFilesCommentText =
        ["└── src/".toList, "    ├── a.txt".toList] ++
          "# note".toList :: ["    └── b.txt".toList] ∧
    (decodeLine "# note".toList).name = [] ∧
    buildStructureFromTree posixFs [] twoFilesCommentText ["t".toList] true =
      buildStructureFromTree posixFs [] twoFilesText ["t".toList] true :=
  ⟨by decide, by decide, by decide,
    (buildStructureFromTree_inserted_line posixFs [] twoFilesText twoFilesCommentText
      ["└── src/".toList, "    ├── a.txt".toList] ["    └── b.txt".toList] "# note".toList
      ["t".toList] true (by decide) (by decide)).2.2 (by decide)⟩

theorem renderedText_twoFiles :
    renderedText codePointCompare "root".toList twoFilesTree [] 20 = twoFilesText := by
  unfold renderedText
  rw [generateTree_unfold]
  simp only [twoFilesTree, visibleEntries, List.filter, List.contains, List.elem, Entry.name,
    List.insertionSort, List.orderedInsert, entryLe, compareEntries, Entry.isDirectory]
  simp [emitText, generateTree_unfold, visibleEntries, Entry.children, Entry.name,
    Entry.isDirectory, dirMark, connBranch, connCorner, padBar, padBlank, twoFilesText]

/-- C14 as stated fails.  The text `twoFilesText` is the rendering of `twoFilesTree`, and
`twoFilesGarbageText` is that text with the line `garbage`, which has no connector glyph,
inserted before its last line.  Without the line the build creates the file
`/t/src/b.txt`.  With it the line `garbage` is decoded as an entry of depth 0, the stack
is popped down to the target, the file `/t/garbage` is created, and the last line creates
`/t/b.txt`: the file `/t/src/b.txt` is not created. -/
theorem buildStructureFromTree_inserted_line_moves_entries :
    renderedText codePointCompare "root".toList twoFilesTree [] 20 = twoFilesText ∧
    linesOf twoFilesText =
        ["└── src/".toList, "    ├── a.txt".toList] ++ ["    └── b.txt".toList] ∧
    linesOf twoFilesGarbageText =
        ["└── src/".toList, "    ├── a.txt".toList] ++
          "garbage".toList :: ["    └── b.txt".toList] ∧
    isHierarchyLine "garbage".toList = false ∧
    (buildStructureFromTree posixFs [] twoFilesText ["t".toList] true).map
        (fun st => (Fs.lookup st.fs ["t".toList, "src".toList, "b.txt".toList],
          Fs.lookup st.fs ["t".toList, "b.txt".toList])) =
      some (some (Node.file []), none) ∧
    (buildStructureFromTree posixFs [] twoFilesGarbageText ["t".toList] true).map
        (fun st => (Fs.lookup st.fs ["t".toList, "src".toList, "b.txt".toList],
          Fs.lookup st.fs ["t".toList, "b.txt".toList],
          Fs.lookup st.fs ["t".toList, "garbage".toList])) =
      some (none, some (Node.file []), some (Node.file [])) := by
  refine ⟨renderedText_twoFiles, by decide, by decide, by decide, by decide, by decide⟩


/-! ## Nesting of the rendered lines -/

theorem wellNested_nil (base : Nat) : WellNested base [] := by
  refine ⟨by simp, by simp, ?_⟩
  intro pre l post h
  simp at h

theorem hasParentLine_append (front pre : List TreeLine) (l : TreeLine)
    (h : HasParentLine pre l) : HasParentLine (front ++ pre) l := by
  obtain ⟨pre1, p, mid, hpre, hdir, hdepth, hmid⟩ := h
  exact ⟨front ++ pre1, p, mid, by rw [hpre, List.append_assoc], hdir, hdepth, hmid⟩

theorem wellNested_append (base : Nat) (a b : List TreeLine) (ha : WellNested base a)
    (hb : WellNested base b) : WellNested base (a ++ b) := by
  refine ⟨?_, ?_, ?_⟩
  · intro l hl
    rcases List.mem_append.1 hl with h | h
    · exact ha.1 l h
    · exact hb.1 l h
  · intro l hl
    cases a with
    | nil => exact hb.2.1 l hl
    | cons x xs => exact ha.2.1 l hl
  · intro pre l post h hlt
    rcases List.append_eq_append_iff.1 h with ⟨as, hpre, hb2⟩ | ⟨cs, ha2, hpost⟩
    · rw [hpre]
      exact hasParentLine_append a as l (hb.2.2 as l post hb2 hlt)
    · cases cs with
      | nil =>
        rw [List.append_nil] at ha2
        rw [List.nil_append] at hpost
        have := hasParentLine_append a [] l (hb.2.2 [] l post hpost.symm hlt)
        rw [List.append_nil, ha2] at this
        exact this
      | cons x xs =>
        rw [List.cons_append, List.cons.injEq] at hpost
        rw [← hpost.1] at ha2
        exact ha.2.2 pre l xs ha2 hlt

theorem wellNested_cons (base : Nat) (p : TreeLine) (sub : List TreeLine)
    (hp : p.depth = base) (hdir : sub ≠ [] → p.isDirectory = true)
    (hsub : WellNested (base + 1) sub) : WellNested base (p :: sub) := by
  refine ⟨?_, ?_, ?_⟩
  · intro l hl
    rcases List.mem_cons.1 hl with h | h
    · rw [h, hp]
    · exact Nat.le_of_succ_le (hsub.1 l h)
  · intro l hl
    simp only [List.head?_cons, Option.mem_def, Option.some.injEq] at hl
    rw [← hl, hp]
  · intro pre l post h hlt
    cases pre with
    | nil =>
      rw [List.nil_append, List.cons.injEq] at h
      rw [← h.1, hp] at hlt
      exact absurd hlt (Nat.lt_irrefl _)
    | cons x xs =>
      rw [List.cons_append, List.cons.injEq] at h
      obtain ⟨hx, hsplit⟩ := h
      subst hx
      have hmem : l ∈ sub := by rw [hsplit]; simp
      have hne : sub ≠ [] := List.ne_nil_of_mem hmem
      rcases Nat.eq_or_lt_of_le (hsub.1 l hmem) with heq | hgt
      · refine ⟨[], p, xs, rfl, hdir hne, by rw [hp, heq], ?_⟩
        intro m hm
        rw [← heq]
        exact hsub.1 m (by rw [hsplit]; simp [hm])
      · exact hasParentLine_append [p] xs l (hsub.2.2 xs l post hsplit hgt)

theorem wellNested_emitLines (dL : Entry → List Str → List TreeLine) (pads : List Str)
    (entries : List Entry) (hdL : ∀ e ps, WellNested ps.length (dL e ps)) :
    WellNested pads.length (emitLines dL pads entries) := by
  induction entries with
  | nil => exact wellNested_nil _
  | cons e rest ih =>
    rw [emitLines, ← List.cons_append]
    refine wellNested_append _ _ _ (wellNested_cons _ _ _ rfl ?_ ?_) ih
    · intro hne
      by_cases hd : e.isDirectory = true
      · exact hd
      · rw [if_neg hd] at hne
        exact absurd rfl hne
    · split
      · have := hdL e (pads ++ [if rest.isEmpty then padBlank else padBar])
        rw [List.length_append, List.length_singleton] at this
        exact this
      · exact wellNested_nil _

theorem wellNested_treeLines_aux (lc : Str → Str → Int) (ign : List Str) (maxDepth : Nat) :
    ∀ (n depth : Nat), maxDepth + 1 - depth = n → ∀ (dir : List Entry) (pads : List Str),
      WellNested pads.length (treeLines lc dir pads ign depth maxDepth) := by
  intro n
  induction n with
  | zero =>
    intro depth hn dir pads
    rw [treeLines_unfold, if_pos (by omega)]
    exact wellNested_nil _
  | succ n ih =>
    intro depth hn dir pads
    rw [treeLines_unfold, if_neg (by omega)]
    apply wellNested_emitLines
    intro e ps
    exact ih (depth + 1) (by omega) e.children ps

theorem wellNested_treeLines (lc : Str → Str → Int) (dir : List Entry) (pads : List Str)
    (ign : List Str) (depth maxDepth : Nat) :
    WellNested pads.length (treeLines lc dir pads ign depth maxDepth) :=
  wellNested_treeLines_aux lc ign maxDepth _ depth rfl dir pads

/-- In well nested lines the depth rises by at most one from a line to the next, and only
after a directory line. -/
theorem wellNested_step (base : Nat) (ls pre post : List TreeLine) (a b : TreeLine)
    (h : WellNested base ls) (hsplit : ls = pre ++ a :: b :: post) :
    b.depth ≤ a.depth + 1 ∧ (b.depth = a.depth + 1 → a.isDirectory = true) := by
  have ha : base ≤ a.depth := h.1 a (by rw [hsplit]; simp)
  have hb : base ≤ b.depth := h.1 b (by rw [hsplit]; simp)
  rcases Nat.eq_or_lt_of_le hb with heq | hlt
  · exact ⟨by omega, fun h1 => by omega⟩
  · have hsplit2 : ls = (pre ++ [a]) ++ b :: post := by
      rw [hsplit, List.append_assoc, List.singleton_append]
    obtain ⟨pre1, p, mid, hpre, hdir, hdepth, hmid⟩ := h.2.2 _ b post hsplit2 hlt
    rcases List.eq_nil_or_concat mid with hnil | ⟨mid1, m, hm⟩
    · subst hnil
      have hpa : p = a := by
        have := congrArg List.getLast? hpre
        simpa using this.symm
      subst hpa
      exact ⟨by omega, fun _ => hdir⟩
    · have hma : m = a := by
        have h2 : pre ++ [a] = (pre1 ++ p :: mid1) ++ [m] := by
          rw [hpre, hm]
          simp
        have h3 := List.append_inj_right' h2 rfl
        simpa using h3.symm
      have := hmid a (by rw [hm, ← hma]; simp)
      exact ⟨by omega, fun h1 => by omega⟩

/-- C17.  The lines `generateTree` emits for a directory are well nested.  The text is the
text of the lines `treeLines` gives, each made of its prefix units, a connector and the
name; every prefix unit is one of the two four-character pads, and the depth of a line is
the number of its units.  The first line has depth 0; every line of depth `d > 0` has
before it a directory line of depth `d - 1` with no line of depth less than `d` between
the two; so from one line to the next the depth rises by at most one, and rises only
directly after a directory line. -/
theorem generateTree_well_formed (lc : Str → Str → Int) (dir : List Entry)
    (ign : List Str) (maxDepth : Nat) :
    generateTree lc dir [] ign 0 maxDepth = renderLines (treeLines lc dir [] ign 0 maxDepth) ∧
    (∀ l ∈ treeLines lc dir [] ign 0 maxDepth,
      l.depth = l.pads.length ∧ (∀ u ∈ l.pads, IsPad u ∧ u.length = 4) ∧
      l.text = l.pads.flatten ++ ((if l.isLast then connCorner else connBranch) ++
        (l.name ++ dirMark l.isDirectory))) ∧
    (∀ l ∈ (treeLines lc dir [] ign 0 maxDepth).head?, l.depth = 0) ∧
    (∀ pre l post, treeLines lc dir [] ign 0 maxDepth = pre ++ l :: post → 0 < l.depth →
      ∃ pre1 p mid, pre = pre1 ++ p :: mid ∧ p.isDirectory = true ∧
        p.depth + 1 = l.depth ∧ ∀ m ∈ mid, l.depth ≤ m.depth) ∧
    (∀ pre a b post, treeLines lc dir [] ign 0 maxDepth = pre ++ a :: b :: post →
      b.depth ≤ a.depth + 1 ∧ (b.depth = a.depth + 1 → a.isDirectory = true)) := by
  have hwn := wellNested_treeLines lc dir [] ign 0 maxDepth
  refine ⟨generateTree_eq_renderLines lc dir [] ign 0 maxDepth, ?_, hwn.2.1, hwn.2.2, ?_⟩
  · intro l hl
    refine ⟨rfl, ?_, rfl⟩
    intro u hu
    have hpad : IsPad u :=
      (treeLines_depth_aux lc ign maxDepth _ 0 rfl dir [] l hl).2.2 u hu (by simp)
    refine ⟨hpad, ?_⟩
    rcases hpad with h | h <;> rw [h] <;> rfl
  · intro pre a b post hsplit
    exact wellNested_step 0 _ pre post a b hwn hsplit

theorem treeLines_sample :
    treeLines codePointCompare sampleTree [] [] 0 20 =
      [sampleSrcLine] ++ sampleMainLine :: [sampleReadmeLine] := by
  rw [treeLines_unfold]
  simp only [sampleTree, visibleEntries, List.filter, List.contains, List.elem, Entry.name,
    List.insertionSort, List.orderedInsert, entryLe, compareEntries, Entry.isDirectory]
  simp [emitLines, treeLines_unfold, visibleEntries, Entry.children, Entry.name,
    Entry.isDirectory, sampleSrcLine, sampleMainLine, sampleReadmeLine]

/-- Witness for C17: in the rendering of the sample tree the line of `main.txt`, of depth
1, has the directory line of `src` before it. -/
theorem generateTree_well_formed_witness :
    treeLines codePointCompare sampleTree [] [] 0 20 =
      [sampleSrcLine] ++ sampleMainLine :: [sampleReadmeLine] ∧
    0 < sampleMainLine.depth ∧
    ∃ pre1 p mid, [sampleSrcLine] = pre1 ++ p :: mid ∧ p.isDirectory = true ∧
      p.depth + 1 = sampleMainLine.depth ∧ ∀ m ∈ mid, sampleMainLine.depth ≤ m.depth :=
  ⟨treeLines_sample, by decide,
    (generateTree_well_formed codePointCompare sampleTree [] 20).2.2.2.1
      [sampleSrcLine] sampleMainLine [sampleReadmeLine] treeLines_sample (by decide)⟩


/-! ## Connectors and continuation pads -/

theorem emitEntries_eq_flatten (descend : Entry → Str → Str) (pfx : Str) (last : Int)
    (index : Nat) (entries : List Entry) :
    emitEntries descend pfx last index entries =
      ((entries.enumFrom index).map
        (fun p => entryText descend pfx last p.1 p.2)).flatten := by
  induction entries generalizing index with
  | nil => rfl
  | cons entry rest ih =>
    rw [emitEntries, List.enumFrom_cons, List.map_cons, List.flatten_cons, ih (index + 1)]
    simp only [entryText, decide_eq_true_eq]

theorem generateTree_eq_flatten (lc : Str → Str → Int) (dir : List Entry) (pfx : Str)
    (ign : List Str) (depth maxDepth : Nat) (hd : depth ≤ maxDepth) :
    generateTree lc dir pfx ign depth maxDepth =
      ((visibleEntries lc ign dir).enum.map
        (fun p => entryText
          (fun entry nextPrefix =>
            generateTree lc entry.children nextPrefix ign (depth + 1) maxDepth)
          pfx (((visibleEntries lc ign dir).length : Int) - 1) p.1 p.2)).flatten := by
  rw [generateTree, if_neg (by omega)]
  exact emitEntries_eq_flatten _ pfx _ 0 _

theorem emitLines_eq_flatten (dL : Entry → List Str → List TreeLine) (pads : List Str)
    (entries : List Entry) (k : Nat) :
    emitLines dL pads entries =
      ((entries.enumFrom k).map
        (fun p => entryBlock dL pads (k + entries.length) p.1 p.2)).flatten := by
  induction entries generalizing k with
  | nil => rfl
  | cons entry rest ih =>
    have hlast : (k + 1 = k + (entry :: rest).length) ↔ rest.isEmpty = true := by
      cases rest with
      | nil => simp
      | cons a t => simp
    have hlen : k + (entry :: rest).length = k + 1 + rest.length := by
      simp only [List.length_cons]; omega
    rw [emitLines, List.enumFrom_cons, List.map_cons, List.flatten_cons, ih (k + 1), ← hlen]
    simp only [entryBlock, hlast, List.cons_append, decide_eq_true_eq, Bool.decide_eq_true]

theorem treeLines_pads_start_aux (lc : Str → Str → Int) (ign : List Str) (maxDepth : Nat) :
    ∀ (n depth : Nat), maxDepth + 1 - depth = n → ∀ (dir : List Entry) (pads : List Str),
      ∀ l ∈ treeLines lc dir pads ign depth maxDepth, pads <+: l.pads := by
  intro n
  induction n with
  | zero =>
    intro depth hn dir pads l hl
    rw [treeLines_unfold, if_pos (by omega)] at hl
    simp at hl
  | succ n ih =>
    intro depth hn dir pads l hl
    rw [treeLines_unfold, if_neg (by omega)] at hl
    rcases mem_emitLines _ _ _ _ hl with ⟨h1, -⟩ | ⟨e, -, pad, -, -, h⟩
    · rw [h1]
    · exact (List.prefix_append pads [pad]).trans (ih (depth + 1) (by omega) e.children _ l h)

theorem text_starts_of_pads (ps : List Str) (l : TreeLine) (h : ps <+: l.pads) :
    ps.flatten <+: l.text := by
  obtain ⟨t, ht⟩ := h
  unfold TreeLine.text
  rw [← ht, List.flatten_append, List.append_assoc]
  exact List.prefix_append _ _

theorem childLines_eq_emitLines (dL : Entry → List Str → List TreeLine) (pads : List Str)
    (entries : List Entry)
    (hdeep : ∀ e ps, ∀ l ∈ dL e ps, ps.length ≤ l.depth) :
    (emitLines dL pads entries).filter (fun l => l.depth = pads.length) =
      emitLines (fun _ _ => []) pads entries := by
  induction entries with
  | nil => rfl
  | cons e rest ih =>
    rw [emitLines, List.filter_cons_of_pos (by simp [TreeLine.depth]), List.filter_append, ih,
      emitLines]
    have hnil : List.filter (fun l => decide (l.depth = pads.length))
        (if e.isDirectory then dL e (pads ++ [if rest.isEmpty then padBlank else padBar])
          else []) = [] := by
      rw [List.filter_eq_nil_iff]
      intro l hl
      split at hl
      · have := hdeep _ _ l hl
        simp only [List.length_append, List.length_singleton] at this
        simp only [decide_eq_true_eq]
        omega
      · simp at hl
    rw [hnil]
    simp

theorem flatLines_eq_map (pads : List Str) (entries : List Entry) (k : Nat) :
    emitLines (fun _ _ => []) pads entries =
      (entries.enumFrom k).map (fun p =>
        ({ pads := pads, isLast := decide (p.1 + 1 = k + entries.length), name := p.2.name,
           isDirectory := p.2.isDirectory } : TreeLine)) := by
  rw [emitLines_eq_flatten _ pads entries k]
  induction entries.enumFrom k with
  | nil => rfl
  | cons p ps ih =>
    rw [List.map_cons, List.flatten_cons, ih, List.map_cons]
    simp [entryBlock]

theorem flatLines_corner (pads : List Str) (entries : List Entry) :
    (emitLines (fun _ _ => []) pads entries).filter (fun l => l.isLast) =
      (emitLines (fun _ _ => []) pads entries).getLast?.toList := by
  induction entries with
  | nil => rfl
  | cons e rest ih =>
    cases rest with
    | nil => simp [emitLines]
    | cons r rs =>
      rw [emitLines]
      simp only [List.isEmpty_cons, ite_self, List.nil_append, Bool.false_eq_true,
        not_false_eq_true, List.filter_cons_of_neg]
      rw [ih]
      rw [emitLines, List.getLast?_cons_cons]

/-- C18.  Connector and continuation rule.  For a directory within the depth limit, with
`entries` its listing after filtering and sorting: the text of `generateTree` is, entry by
entry in order, the line `prefix + connector + name + ('/' if directory)` and a line feed,
where the connector is `'└── '` when the index is `entries.length - 1` and `'├── '`
otherwise, followed for a directory by the text of the recursive call on it under the
prefix `prefix + ('    ' if the entry is last, otherwise '│   ')`.  The same holds of the
emitted lines: one line per entry followed by the lines of its subtree.  Every line a call
emits starts with the prefix handed to that call.  The lines of the entries themselves
carry the connector by their index, and those of them that carry `'└── '` are exactly the
final one, when there is one. -/
theorem generateTree_connectors (lc : Str → Str → Int) (dir : List Entry)
    (pads : List Str) (ign : List Str) (depth maxDepth : Nat) (hd : depth ≤ maxDepth) :
    (∀ pfx : Str, generateTree lc dir pfx ign depth maxDepth =
      ((visibleEntries lc ign dir).enum.map
        (fun p => entryText
          (fun entry nextPrefix =>
            generateTree lc entry.children nextPrefix ign (depth + 1) maxDepth)
          pfx (((visibleEntries lc ign dir).length : Int) - 1) p.1 p.2)).flatten) ∧
    generateTree lc dir pads.flatten ign depth maxDepth =
      renderLines (treeLines lc dir pads ign depth maxDepth) ∧
    treeLines lc dir pads ign depth maxDepth =
      ((visibleEntries lc ign dir).enum.map
        (fun p => entryBlock
          (fun entry nextPads =>
            treeLines lc entry.children nextPads ign (depth + 1) maxDepth)
          pads (visibleEntries lc ign dir).length p.1 p.2)).flatten ∧
    (∀ (sub : List Entry) (ps : List Str) (d : Nat),
      ∀ l ∈ treeLines lc sub ps ign d maxDepth, ps <+: l.pads ∧ ps.flatten <+: l.text) ∧
    (treeLines lc dir pads ign depth maxDepth).filter (fun l => l.depth = pads.length) =
      (visibleEntries lc ign dir).enum.map (fun p =>
        ({ pads := pads, isLast := decide (p.1 + 1 = (visibleEntries lc ign dir).length),
           name := p.2.name, isDirectory := p.2.isDirectory } : TreeLine)) ∧
    ((treeLines lc dir pads ign depth maxDepth).filter
        (fun l => l.depth = pads.length)).filter (fun l => l.isLast) =
      ((treeLines lc dir pads ign depth maxDepth).filter
        (fun l => l.depth = pads.length)).getLast?.toList := by
  have hstart : ∀ (sub : List Entry) (ps : List Str) (d : Nat),
      ∀ l ∈ treeLines lc sub ps ign d maxDepth, ps <+: l.pads :=
    fun sub ps d l hl => treeLines_pads_start_aux lc ign maxDepth _ d rfl sub ps l hl
  have hchild : (treeLines lc dir pads ign depth maxDepth).filter
      (fun l => l.depth = pads.length) =
      emitLines (fun _ _ => []) pads (visibleEntries lc ign dir) := by
    rw [treeLines_unfold, if_neg (by omega)]
    apply childLines_eq_emitLines
    intro e ps l hl
    exact (hstart e.children ps (depth + 1) l hl).length_le
  refine ⟨fun pfx => generateTree_eq_flatten lc dir pfx ign depth maxDepth hd,
    generateTree_eq_renderLines lc dir pads ign depth maxDepth, ?_,
    fun sub ps d l hl => ⟨hstart sub ps d l hl,
      text_starts_of_pads ps l (hstart sub ps d l hl)⟩, ?_, ?_⟩
  · rw [treeLines_unfold, if_neg (by omega)]
    have := emitLines_eq_flatten (fun entry nextPads =>
      treeLines lc entry.children nextPads ign (depth + 1) maxDepth) pads
      (visibleEntries lc ign dir) 0
    simp only [Nat.zero_add] at this
    exact this
  · rw [hchild]
    have := flatLines_eq_map pads (visibleEntries lc ign dir) 0
    simp only [Nat.zero_add] at this
    exact this
  · rw [hchild]
    exact flatLines_corner pads _

/-- Witness for C18: the sample tree, rendered from depth 0 with the limit 20. -/
theorem generateTree_connectors_witness :
    (0 : Nat) ≤ 20 ∧
    treeLines codePointCompare sampleTree [] [] 0 20 =
      [sampleSrcLine] ++ sampleMainLine :: [sampleReadmeLine] ∧
    ((treeLines codePointCompare sampleTree [] [] 0 20).filter
        (fun l => l.depth = ([] : List Str).length)).filter (fun l => l.isLast) =
      ((treeLines codePointCompare sampleTree [] [] 0 20).filter
        (fun l => l.depth = ([] : List Str).length)).getLast?.toList :=
  ⟨by decide, treeLines_sample,
    (generateTree_connectors codePointCompare sampleTree [] [] 0 20 (by decide)).2.2.2.2.2⟩

end Tgen
